import Mathlib

/-!
# Extendible-hashing set `EH_set<Key, N>` (src/EH_set.h)

A shallow embedding of the container together with proofs about it.

Modelling conventions.

* `Key` is an arbitrary type with decidable equality (`key_equal` is
  `std::equal_to<Key>`) and a default value (`Key keys[N]` is an array of
  default-constructed keys).  The hash `std::hash<Key>` is a parameter
  `hash : Key → Nat`; the bucket capacity `N` is a parameter as well.
* Buckets live on the heap and several directory slots may hold the same
  pointer.  The heap is the list `buckets` of the set; a `Bucket*` is an
  `Option Nat` (`none` is `nullptr`, `some a` is the address `a`, an index
  into the heap).  `new Bucket` appends to the heap.
* `size_t` values are natural numbers.  The only places where 64-bit
  wrap-around could occur are `1ULL << global_depth` with
  `global_depth >= 64` (a directory of `2^64` pointers) and
  `curr_size -= er` with `curr_size = 0`, `er = 1`; the latter is excluded
  by the size invariant proved below.
* `delete` is modelled where it matters: the destructor `~EH_set`, which
  `clear` runs on the former state, keeps the list of the addresses it has
  deleted, and reading a bucket at such an address is undefined behaviour,
  modelled by the result `none`.
* The recursion of `add` need not terminate, so `add` takes a fuel argument
  (one unit per activation) and returns `none` when it runs out.  All other
  loops are bounded `for`/`while` loops and are modelled by total functions
  whose first argument counts the remaining iterations.
-/

namespace EH

/-! ## Buckets (lines 195-224) -/

/-- Bucket of the source: `Key keys[N]`, `local_depth`, `count`. -/
structure Bucket (Key : Type) where
  keys : List Key
  local_depth : Nat
  count : Nat
deriving DecidableEq, Inhabited

/-- Heap and fields of `EH_set`: `directory`, `curr_size`, `global_depth`. -/
structure EH_set (Key : Type) where
  buckets : List (Bucket Key)
  directory : List (Option Nat)
  curr_size : Nat
  global_depth : Nat
deriving DecidableEq

/-- Iterator of the source without its `dir` field: `dir` is the address of
the directory of the set the iterator was made from (or null for
`Iterator()`, where it is never read), and every operation that reads
through it takes that set as an argument.  `ptr` is `none` for `nullptr` and
`some (a, j)` for the address of `keys[j]` in the bucket at address `a`. -/
structure Iterator where
  dir_size : Nat
  buck_ind : Nat
  ptr : Option (Nat × Nat)
deriving DecidableEq

section Defs

variable {Key : Type} [DecidableEq Key] [Inhabited Key]

/-- Value of `new Bucket`: `N` default keys, `local_depth{1}`, `count{0}`. -/
def Bucket.fresh (N : Nat) : Bucket Key :=
  { keys := List.replicate N default, local_depth := 1, count := 0 }

/-- Keys a bucket holds: the first `count` entries of `keys`. -/
def Bucket.stored (b : Bucket Key) : List Key :=
  b.keys.take b.count

/-- Loop of `Bucket::find` with `n` iterations left at index `i`. -/
def Bucket.findLoop (b : Bucket Key) (key : Key) : Nat → Nat → Option Nat
  | 0, _ => none
  | n + 1, i =>
    if key = b.keys.getD i default then some i else Bucket.findLoop b key n (i + 1)

/-- Method `Bucket::find`: offset of the first match among the first `count` keys,
`none` for `nullptr`. -/
def Bucket.find (b : Bucket Key) (key : Key) : Option Nat :=
  if b.count = 0 then none else b.findLoop key b.count 0

/-- Method `Bucket::insert`: `count == N ? nullptr : &(keys[count++] = key)`. -/
def Bucket.insert (N : Nat) (b : Bucket Key) (key : Key) : Bucket Key × Option Nat :=
  if b.count = N then (b, none)
  else ({ b with keys := b.keys.set b.count key, count := b.count + 1 }, some b.count)

/-- Loop of `Bucket::erase` with `n` iterations left at index `i`. -/
def Bucket.eraseLoop (b : Bucket Key) (k : Key) : Nat → Nat → Bucket Key × Nat
  | 0, _ => (b, 0)
  | n + 1, i =>
    if k = b.keys.getD i default then
      let keys1 :=
        if i ≠ b.count - 1 then
          (b.keys.set i (b.keys.getD (b.count - 1) default)).set (b.count - 1)
            (b.keys.getD i default)
        else b.keys
      ({ b with keys := keys1, count := b.count - 1 }, 1)
    else Bucket.eraseLoop b k n (i + 1)

/-- Method `Bucket::erase`: the bucket afterwards and the returned 0 or 1. -/
def Bucket.erase (b : Bucket Key) (k : Key) : Bucket Key × Nat :=
  if b.count = 0 then (b, 0) else b.eraseLoop k b.count 0

/-! ## The set (lines 9-159) -/

/-- Value of `directory[i]`. -/
def EH_set.slot (s : EH_set Key) (i : Nat) : Option Nat :=
  s.directory.getD i none

/-- Value of `*p` for a bucket pointer `p`. -/
def EH_set.deref (s : EH_set Key) (p : Option Nat) : Bucket Key :=
  match p with
  | some a => s.buckets.getD a default
  | none => default

/-- Effect of `*p = b` for a bucket pointer `p`. -/
def EH_set.store (s : EH_set Key) (p : Option Nat) (b : Bucket Key) : EH_set Key :=
  match p with
  | some a => { s with buckets := s.buckets.set a b }
  | none => s

/-- Bucket referenced by directory slot `i`: `*directory[i]`. -/
def EH_set.bucketAt (s : EH_set Key) (i : Nat) : Bucket Key :=
  s.deref (s.slot i)

/-- Constructor `EH_set()` (lines 32-37): two slots, each with a bucket of its own. -/
def EH_set.empty (N : Nat) : EH_set Key :=
  (List.range (1 <<< 1)).foldl
    (fun s i =>
      { s with
        buckets := s.buckets ++ [Bucket.fresh N]
        directory := s.directory.set i (some s.buckets.length) })
    { buckets := [], directory := List.replicate (1 <<< 1) none,
      curr_size := 0, global_depth := 1 }

/-- Method `size()` (line 68). -/
def EH_set.size (s : EH_set Key) : Nat := s.curr_size

/-- Method `double_dir` (lines 87-95). -/
def EH_set.double_dir (s : EH_set Key) : EH_set Key :=
  let new_dir :=
    (List.range (1 <<< s.global_depth)).foldl
      (fun d i => (d.set (i + (1 <<< s.global_depth)) (s.slot i)).set i (s.slot i))
      (List.replicate (1 <<< (s.global_depth + 1)) none)
  { s with directory := new_dir, global_depth := s.global_depth + 1 }

/-- Test made on a key by the redistribution loop at shift `t`:
`hasher{}(x) >> t & 1`, as a truth value. -/
def hashBit (hash : Key → Nat) (t : Nat) (x : Key) : Bool :=
  decide ((hash x >>> t) &&& 1 ≠ 0)

/-- Redistribution loop of `add` (lines 182-184) from index `i` with `n`
iterations left: `b` is the old bucket, rebuilt in place, `nb` the new one. -/
def redistribute (hash : Key → Nat) (N : Nat) :
    Nat → Nat → Bucket Key → Bucket Key → Bucket Key × Bucket Key
  | 0, _, b, nb => (b, nb)
  | n + 1, i, b, nb =>
    if ((hash (b.keys.getD i default)) >>> (b.local_depth - 1)) &&& 1 ≠ 0 then
      redistribute hash N n (i + 1) b (nb.insert N (b.keys.getD i default)).1
    else
      redistribute hash N n (i + 1) (b.insert N (b.keys.getD i default)).1 nb

/-- Repointing loop of `add` (lines 189-191): `for (i; i < limit; i += dist)
directory[i] = p`, with `n` iterations left. -/
def repoint (p : Option Nat) (dist limit : Nat) :
    Nat → Nat → List (Option Nat) → List (Option Nat)
  | 0, _, dir => dir
  | n + 1, i, dir =>
    if i < limit then repoint p dist limit n (i + dist) (dir.set i p) else dir

/-- Lines 176-191 of `add`: the bucket at slot `ind` gets a sibling, its keys
are redistributed and the directory is repointed. -/
def EH_set.splitBucket (hash : Key → Nat) (N : Nat) (s1 : EH_set Key) (ind : Nat) :
    EH_set Key :=
  let bucket := s1.slot ind
  let new_bucket : Option Nat := some s1.buckets.length
  let s2 := { s1 with buckets := s1.buckets ++ [Bucket.fresh N] }
  let ld := (s2.deref bucket).local_depth + 1
  let s3 := s2.store bucket { s2.deref bucket with local_depth := ld }
  let s4 := s3.store new_bucket { s3.deref new_bucket with local_depth := ld }
  let s5 := s4.store bucket { s4.deref bucket with count := 0 }
  let r := redistribute hash N N 0 (s5.deref bucket) (s5.deref new_bucket)
  let s6 := (s5.store bucket r.1).store new_bucket r.2
  let dist := 1 <<< ((s6.deref bucket).local_depth - 1)
  let start := (ind &&& (dist - 1)) + dist
  let dist2 := dist + dist
  { s6 with
    directory :=
      repoint new_bucket dist2 (1 <<< s6.global_depth) (1 <<< s6.global_depth) start
        s6.directory }

/-- Redistribution loop of `add` (lines 182-184) with a record of what each
iteration does: the key it reads from `bucket->keys[i]` and whether the
`Bucket::insert` it calls returns a non-null pointer.  The buckets evolve as in
`redistribute`. -/
def redistributeTrace (hash : Key → Nat) (N : Nat) :
    Nat → Nat → Bucket Key → Bucket Key → List (Key × Bool)
  | 0, _, _, _ => []
  | n + 1, i, b, nb =>
    if ((hash (b.keys.getD i default)) >>> (b.local_depth - 1)) &&& 1 ≠ 0 then
      (b.keys.getD i default, (nb.insert N (b.keys.getD i default)).2.isSome) ::
        redistributeTrace hash N n (i + 1) b (nb.insert N (b.keys.getD i default)).1
    else
      (b.keys.getD i default, (b.insert N (b.keys.getD i default)).2.isSome) ::
        redistributeTrace hash N n (i + 1) (b.insert N (b.keys.getD i default)).1 nb

/-- Record of the redistribution loop run by lines 176-191 of `add` for the slot
`ind`: the state before the loop is computed as in `splitBucket`. -/
def EH_set.splitBucketTrace (hash : Key → Nat) (N : Nat) (s1 : EH_set Key) (ind : Nat) :
    List (Key × Bool) :=
  let bucket := s1.slot ind
  let new_bucket : Option Nat := some s1.buckets.length
  let s2 := { s1 with buckets := s1.buckets ++ [Bucket.fresh N] }
  let ld := (s2.deref bucket).local_depth + 1
  let s3 := s2.store bucket { s2.deref bucket with local_depth := ld }
  let s4 := s3.store new_bucket { s3.deref new_bucket with local_depth := ld }
  let s5 := s4.store bucket { s4.deref bucket with count := 0 }
  redistributeTrace hash N N 0 (s5.deref bucket) (s5.deref new_bucket)

/-- Record of the redistribution loop run by the splitting logic of `add` for the
slot `ind`, after the doubling of the directory when there is one. -/
def EH_set.splitTrace (hash : Key → Nat) (N : Nat) (s : EH_set Key) (ind : Nat) :
    List (Key × Bool) :=
  (if (s.deref (s.slot ind)).local_depth ≥ s.global_depth then s.double_dir
    else s).splitBucketTrace hash N ind

/-- Splitting logic of `add` (lines 171-191) for the slot `ind`, up to the
recursive call: the directory is doubled when the bucket is as deep as the
directory, then the bucket is split. -/
def EH_set.split (hash : Key → Nat) (N : Nat) (s : EH_set Key) (ind : Nat) : EH_set Key :=
  (if (s.deref (s.slot ind)).local_depth ≥ s.global_depth then s.double_dir
    else s).splitBucket hash N ind

/-- Method `add` (lines 163-193); `none` when the fuel is used up. -/
def EH_set.add (hash : Key → Nat) (N : Nat) : Nat → EH_set Key → Key → Option (EH_set Key)
  | 0, _, _ => none
  | fuel + 1, s, key =>
    let ind := hash key &&& ((1 <<< s.global_depth) - 1)
    if (s.deref (s.slot ind)).count < N then
      some (s.store (s.slot ind) ((s.deref (s.slot ind)).insert N key).1)
    else
      EH_set.add hash N fuel (s.split hash N ind) key

/-- State in which the `n`-th nested activation of `add(key)` starts when every
earlier activation went through the splitting logic (line 192 calls `add` again
on the state the split has produced). -/
def EH_set.addState (hash : Key → Nat) (N : Nat) (key : Key) : Nat → EH_set Key → EH_set Key
  | 0, s => s
  | n + 1, s =>
    EH_set.addState hash N key n
      (s.split hash N (hash key &&& ((1 <<< s.global_depth) - 1)))

/-! ## Iterators (lines 228-303) -/

/-- Constructor `Iterator()`, the value of `end()`. -/
def Iterator.nil : Iterator :=
  { dir_size := 0, buck_ind := 0, ptr := none }

/-- Loop of `Iterator::skip` (lines 243-256) with `n` iterations left. -/
def Iterator.skipLoop (s : EH_set Key) : Nat → Iterator → Iterator
  | 0, it => { it with ptr := none }
  | n + 1, it =>
    if it.buck_ind < it.dir_size then
      if (s.slot it.buck_ind).isSome
          ∧ (s.bucketAt it.buck_ind).count > 0
          ∧ (it.buck_ind &&& ((1 <<< (s.bucketAt it.buck_ind).local_depth) - 1)) = it.buck_ind
          ∧ it.ptr = none then
        { it with ptr := (s.slot it.buck_ind).map (fun a => (a, 0)) }
      else Iterator.skipLoop s n { it with buck_ind := it.buck_ind + 1 }
    else { it with ptr := none }

/-- Method `Iterator::skip`. -/
def Iterator.skip (s : EH_set Key) (it : Iterator) : Iterator :=
  Iterator.skipLoop s (it.dir_size - it.buck_ind) it

/-- Constructor `Iterator(const EH_set &d)` (lines 259-261). -/
def Iterator.first (s : EH_set Key) : Iterator :=
  Iterator.skip s { dir_size := 1 <<< s.global_depth, buck_ind := 0, ptr := none }

/-- Constructor `Iterator(const EH_set &d, const key_type &key)` (lines 263-267). -/
def Iterator.ofKey (hash : Key → Nat) (s : EH_set Key) (key : Key) : Iterator :=
  let bi := hash key &&& ((1 <<< s.global_depth) - 1)
  let bi2 := bi &&& ((1 <<< (s.bucketAt bi).local_depth) - 1)
  { dir_size := 1 <<< s.global_depth
    buck_ind := bi2
    ptr :=
      match s.slot bi2 with
      | some a => ((s.deref (some a)).find key).map (fun j => (a, j))
      | none => none }

/-- Operator `operator*` of an iterator into `s`. -/
def Iterator.get (s : EH_set Key) (it : Iterator) : Key :=
  match it.ptr with
  | some (a, j) => (s.deref (some a)).keys.getD j default
  | none => default

/-- Pre-increment `operator++` (lines 278-288) of an iterator into `s`. -/
def Iterator.next (s : EH_set Key) (it : Iterator) : Iterator :=
  match it.ptr with
  | some (a, j) =>
    if j + 1 ≥ (s.bucketAt it.buck_ind).count then
      Iterator.skip s { it with buck_ind := it.buck_ind + 1, ptr := none }
    else { it with ptr := some (a, j + 1) }
  | none => it

/-- Operator `operator==` on iterators: the cursors are the same address. -/
def Iterator.same (a b : Iterator) : Bool :=
  a.ptr = b.ptr

/-- Method `end()` (lines 131-133). -/
def EH_set.end_ (_s : EH_set Key) : Iterator := Iterator.nil

/-- Method `begin()` (lines 126-129). -/
def EH_set.begin_ (s : EH_set Key) : Iterator :=
  if s.curr_size = 0 then s.end_ else Iterator.first s

/-- Method `find` (lines 112-117). -/
def EH_set.find (hash : Key → Nat) (s : EH_set Key) (key : Key) : Iterator :=
  let index := hash key &&& ((1 <<< s.global_depth) - 1)
  if ((s.deref (s.slot index)).find key).isSome then Iterator.ofKey hash s key
  else s.end_

/-- Method `count` (lines 108-110). -/
def EH_set.count (hash : Key → Nat) (s : EH_set Key) (key : Key) : Nat :=
  if !(Iterator.same (s.find hash key) s.end_) then 1 else 0

/-- Method `insert(const key_type&)` (lines 72-80): the set afterwards and the
returned pair; `none` when `add` runs out of fuel. -/
def EH_set.insert (hash : Key → Nat) (N : Nat) (fuel : Nat) (s : EH_set Key) (key : Key) :
    Option (EH_set Key × Iterator × Bool) :=
  if s.count hash key = 0 then
    match s.add hash N fuel key with
    | none => none
    | some s1 =>
      let s2 := { s1 with curr_size := s1.curr_size + 1 }
      some (s2, Iterator.ofKey hash s2 key, true)
  else some (s, Iterator.ofKey hash s key, false)

/-- Method `insert(InputIt first, InputIt last)` (lines 81-85) on a list of keys. -/
def EH_set.insertRange (hash : Key → Nat) (N : Nat) (fuel : Nat) :
    EH_set Key → List Key → Option (EH_set Key)
  | s, [] => some s
  | s, k :: ks =>
    match s.insert hash N fuel k with
    | none => none
    | some r => EH_set.insertRange hash N fuel r.1 ks

/-- Method `erase` (lines 102-106): the set afterwards and the returned count. -/
def EH_set.erase (hash : Key → Nat) (s : EH_set Key) (key : Key) : EH_set Key × Nat :=
  let p := s.slot (hash key &&& ((1 <<< s.global_depth) - 1))
  let r := (s.deref p).erase key
  ({ s.store p r.1 with curr_size := s.curr_size - r.2 }, r.2)

/-- Loop of the destructor `~EH_set` (lines 47-52) from slot `i` with `n`
iterations left; `freed` lists the addresses of the buckets deleted so far.  The
test of line 48 reads `directory[i]->local_depth`: when that bucket has already
been deleted the read is undefined behaviour and the result is `none`. -/
def EH_set.destroyLoop (s : EH_set Key) : Nat → Nat → List Nat → Option (List Nat)
  | 0, _, freed => some freed
  | n + 1, i, freed =>
    match s.slot i with
    | none => EH_set.destroyLoop s n (i + 1) freed
    | some a =>
      if a ∈ freed then none
      else if (i &&& ((1 <<< (s.deref (some a)).local_depth) - 1)) = i then
        EH_set.destroyLoop s n (i + 1) (a :: freed)
      else EH_set.destroyLoop s n (i + 1) freed

/-- Destructor `~EH_set` (lines 46-54): the addresses of the buckets it deletes,
`none` when it reads a bucket it has deleted. -/
def EH_set.destroy (s : EH_set Key) : Option (List Nat) :=
  EH_set.destroyLoop s (1 <<< s.global_depth) 0 []

/-- Method `clear` (lines 97-100): `EH_set temp; swap(temp);`, after which `temp`
holds the former state and is destroyed when `clear` returns.  The result is the
freshly constructed set, `none` when the destructor of the former state reads a
bucket it has deleted. -/
def EH_set.clear (N : Nat) (s : EH_set Key) : Option (EH_set Key) :=
  match s.destroy with
  | none => none
  | some _ => some (EH_set.empty N)

/-- Client loop `for (it = begin(); it != end(); ++it) yield *it`, started at
`it`; `none` when more than `fuel` elements would be produced. -/
def EH_set.traverse (s : EH_set Key) : Nat → Iterator → Option (List Key)
  | 0, _ => none
  | fuel + 1, it =>
    if Iterator.same it s.end_ then some []
    else (EH_set.traverse s fuel (it.next s)).map (fun l => it.get s :: l)

/-- Range-for loop of `operator==` (line 152) started at `it`. -/
def EH_set.eqLoop (hash : Key → Nat) (lhs rhs : EH_set Key) : Nat → Iterator → Option Bool
  | 0, _ => none
  | fuel + 1, it =>
    if Iterator.same it rhs.end_ then some true
    else if lhs.count hash (it.get rhs) = 0 then some false
    else EH_set.eqLoop hash lhs rhs fuel (it.next rhs)

/-- Operator `operator==` (lines 150-154). -/
def EH_set.operator_eq (hash : Key → Nat) (fuel : Nat) (lhs rhs : EH_set Key) : Option Bool :=
  if lhs.curr_size ≠ rhs.curr_size then some false
  else EH_set.eqLoop hash lhs rhs fuel rhs.begin_

/-- Operator `operator!=` (lines 156-158). -/
def EH_set.operator_ne (hash : Key → Nat) (fuel : Nat) (lhs rhs : EH_set Key) : Option Bool :=
  (EH_set.operator_eq hash fuel lhs rhs).map (fun b => !b)

/-! ## Specification-level notions -/

/-- Keys met when the directory is walked slot by slot and a bucket is read
only at its canonical slot (the slot below `2 ^ local_depth`). -/
def EH_set.elems (s : EH_set Key) : List Key :=
  (List.range (2 ^ s.global_depth)).flatMap fun i =>
    if i < 2 ^ (s.bucketAt i).local_depth then (s.bucketAt i).stored else []

/-- Keys contributed by slot `i` to such a walk. -/
def EH_set.slotKeys (s : EH_set Key) (i : Nat) : List Key :=
  if i < 2 ^ (s.bucketAt i).local_depth then (s.bucketAt i).stored else []

/-- Keys met by such a walk from slot `i` on. -/
def EH_set.elemsFrom (s : EH_set Key) (i : Nat) : List Key :=
  (List.range' i (2 ^ s.global_depth - i)).flatMap s.slotKeys

/-- Keys an iterator into `s` has yet to yield: the rest of its bucket and the
walk of the slots after it. -/
def Iterator.remaining (s : EH_set Key) (it : Iterator) : List Key :=
  match it.ptr with
  | none => []
  | some (_, j) => (s.bucketAt it.buck_ind).stored.drop j ++ s.elemsFrom (it.buck_ind + 1)

/-- An iterator into `s` is exhausted or points at a stored key of the bucket of
its slot. -/
def Iterator.Valid (s : EH_set Key) (it : Iterator) : Prop :=
  it.ptr = none ∨
    (it.dir_size = 2 ^ s.global_depth ∧ it.buck_ind < 2 ^ s.global_depth ∧
      ∃ a j, it.ptr = some (a, j) ∧ s.slot it.buck_ind = some a
        ∧ j < (s.bucketAt it.buck_ind).count)

/-- Every bucket of the heap is referenced by some directory slot. -/
def EH_set.AllReferenced (s : EH_set Key) : Prop :=
  ∀ a, a < s.buckets.length → ∃ i, i < 2 ^ s.global_depth ∧ s.slot i = some a

/-- Structural invariant of the directory and the buckets it references. -/
structure Inv (hash : Key → Nat) (N : Nat) (s : EH_set Key) : Prop where
  gd_pos : 1 ≤ s.global_depth
  dir_len : s.directory.length = 2 ^ s.global_depth
  valid : ∀ i, i < 2 ^ s.global_depth → ∃ a, s.slot i = some a ∧ a < s.buckets.length
  ld_pos : ∀ i, i < 2 ^ s.global_depth → 1 ≤ (s.bucketAt i).local_depth
  ld_le : ∀ i, i < 2 ^ s.global_depth → (s.bucketAt i).local_depth ≤ s.global_depth
  slot_eq : ∀ i j, i < 2 ^ s.global_depth → j < 2 ^ s.global_depth →
    (s.slot i = s.slot j ↔
      i % 2 ^ (s.bucketAt i).local_depth = j % 2 ^ (s.bucketAt i).local_depth)
  keys_len : ∀ i, i < 2 ^ s.global_depth → (s.bucketAt i).keys.length = N
  count_le : ∀ i, i < 2 ^ s.global_depth → (s.bucketAt i).count ≤ N
  nodup : ∀ i, i < 2 ^ s.global_depth → (s.bucketAt i).stored.Nodup
  route : ∀ i, i < 2 ^ s.global_depth → ∀ x ∈ (s.bucketAt i).stored,
    hash x % 2 ^ (s.bucketAt i).local_depth = i % 2 ^ (s.bucketAt i).local_depth

/-- Invariant of the whole set: the structure plus the size bookkeeping. -/
def WF (hash : Key → Nat) (N : Nat) (s : EH_set Key) : Prop :=
  Inv hash N s ∧ s.curr_size = s.elems.length

/-- States a program can produce from `EH_set()` with the public mutators. -/
inductive Reachable (hash : Key → Nat) (N : Nat) : EH_set Key → Prop
  | empty : Reachable hash N (EH_set.empty N)
  | insert {s : EH_set Key} {fuel : Nat} {k : Key} {r : EH_set Key × Iterator × Bool} :
      Reachable hash N s → s.insert hash N fuel k = some r → Reachable hash N r.1
  | erase {s : EH_set Key} (k : Key) :
      Reachable hash N s → Reachable hash N (s.erase hash k).1
  | clear {s s' : EH_set Key} :
      Reachable hash N s → s.clear N = some s' → Reachable hash N s'
  | double_dir {s : EH_set Key} : Reachable hash N s → Reachable hash N s.double_dir

/-- Calls of the refinement statement. -/
inductive Op (Key : Type) where
  | insert (k : Key)
  | erase (k : Key)
  | clear
deriving DecidableEq

/-- One call on the container; `none` when an insertion runs out of fuel or the
destructor run by `clear` reads a deleted bucket. -/
def EH_set.step (hash : Key → Nat) (N : Nat) (fuel : Nat) (s : EH_set Key) :
    Op Key → Option (EH_set Key)
  | Op.insert k => (s.insert hash N fuel k).map fun r => r.1
  | Op.erase k => some (s.erase hash k).1
  | Op.clear => s.clear N

/-- A sequence of calls on the container. -/
def EH_set.run (hash : Key → Nat) (N : Nat) (fuel : Nat) :
    EH_set Key → List (Op Key) → Option (EH_set Key)
  | s, [] => some s
  | s, op :: ops =>
    match s.step hash N fuel op with
    | none => none
    | some s1 => EH_set.run hash N fuel s1 ops

/-- The same call on the model, a finite set: insert adds, erase removes,
clear empties. -/
def Op.model (m : Finset Key) : Op Key → Finset Key
  | Op.insert k => Insert.insert k m
  | Op.erase k => m.erase k
  | Op.clear => ∅

/-- A sequence of calls on the model. -/
def modelRun (m : Finset Key) (ops : List (Op Key)) : Finset Key :=
  ops.foldl Op.model m

end Defs

/-! ## Concrete instances -/

/-- Example hash on natural-number keys: the low three bits. -/
def exHash (k : Nat) : Nat := k % 8

/-- The set with capacity 2 after `insert` of 0, 4, 2, 6, 1 in this order. -/
def exSet : EH_set Nat :=
  { buckets := [⟨[0, 4], 2, 2⟩, ⟨[1, 0], 1, 1⟩, ⟨[2, 6], 2, 2⟩]
    directory := [some 0, some 1, some 2, some 1]
    curr_size := 5
    global_depth := 2 }

/-- The set with capacity 2 after `insert` of 1, 6, 4, 2, 0 in this order. -/
def exSetRev : EH_set Nat :=
  { buckets := [⟨[4, 0], 2, 2⟩, ⟨[1, 0], 1, 1⟩, ⟨[6, 2], 2, 2⟩]
    directory := [some 0, some 1, some 2, some 1]
    curr_size := 5
    global_depth := 2 }

/-- The set `exSet` after `insert(10)`, which doubles the directory and splits
the bucket of 2 and 6. -/
def exSetTen : EH_set Nat :=
  { buckets := [⟨[0, 4], 2, 2⟩, ⟨[1, 0], 1, 1⟩, ⟨[2, 10], 3, 2⟩, ⟨[6, 0], 3, 1⟩]
    directory := [some 0, some 1, some 2, some 1, some 0, some 1, some 3, some 1]
    curr_size := 6
    global_depth := 3 }

/-- The state in which the second activation of `add(4)` starts on `collideSet`
with capacity 1 and the hash `exHash`: the first activation has doubled the
directory and split the bucket of slot 0, whose one key is still in it, so the
bucket is full again and as deep as the directory. -/
def nestedSet : EH_set Nat :=
  { buckets := [⟨[0], 2, 1⟩, ⟨[0], 1, 0⟩, ⟨[0], 2, 0⟩]
    directory := [some 0, some 1, some 2, some 1]
    curr_size := 1
    global_depth := 2 }

/-- A sequence of calls with a doubling, two splits, a `clear` that returns, an
erase and a repeated insert. -/
def exOpsClear : List (Op Nat) :=
  [Op.insert 0, Op.insert 2, Op.insert 4, Op.insert 1, Op.insert 3, Op.insert 5, Op.clear,
    Op.insert 7, Op.insert 3, Op.erase 7, Op.insert 3]

/-- The set with capacity 2 after the calls `exOpsClear`. -/
def exRunClearSet : EH_set Nat :=
  { buckets := [⟨[0, 0], 1, 0⟩, ⟨[3, 7], 1, 1⟩]
    directory := [some 0, some 1]
    curr_size := 1
    global_depth := 1 }

/-- A hash under which all keys collide. -/
def constHash (_k : Nat) : Nat := 0

/-- The set with capacity 1 after `insert(0)`. -/
def collideSet : EH_set Nat :=
  { buckets := [⟨[0], 1, 1⟩, ⟨[0], 1, 0⟩]
    directory := [some 0, some 1]
    curr_size := 1
    global_depth := 1 }

/-- Scenario with capacity 2 and five keys whose hashes are 0, 1, 2, 3, 4, inserted
in this order into `EH_set()`: the set after the first two insertions. -/
def scenTwo {Key : Type} [Inhabited Key] (k0 k1 : Key) : EH_set Key :=
  { buckets := [⟨[k0, default], 1, 1⟩, ⟨[k1, default], 1, 1⟩]
    directory := [some 0, some 1]
    curr_size := 2
    global_depth := 1 }

/-- The set of the scenario after the third insertion. -/
def scenThree {Key : Type} [Inhabited Key] (k0 k1 k2 : Key) : EH_set Key :=
  { buckets := [⟨[k0, k2], 1, 2⟩, ⟨[k1, default], 1, 1⟩]
    directory := [some 0, some 1]
    curr_size := 3
    global_depth := 1 }

/-- The set of the scenario after the fourth insertion. -/
def scenFour {Key : Type} (k0 k1 k2 k3 : Key) : EH_set Key :=
  { buckets := [⟨[k0, k2], 1, 2⟩, ⟨[k1, k3], 1, 2⟩]
    directory := [some 0, some 1]
    curr_size := 4
    global_depth := 1 }

/-- The set of the scenario after the fifth insertion. -/
def scenFive {Key : Type} [Inhabited Key] (k0 k1 k2 k3 k4 : Key) : EH_set Key :=
  { buckets := [⟨[k0, k4], 2, 2⟩, ⟨[k1, k3], 1, 2⟩, ⟨[k2, default], 2, 1⟩]
    directory := [some 0, some 1, some 2, some 1]
    curr_size := 5
    global_depth := 2 }

/-! ## Buckets: find, insert, erase -/

set_option linter.unusedSectionVars false

section Proofs

variable {Key : Type} [DecidableEq Key] [Inhabited Key]


theorem mask_eq (x g : Nat) : x &&& ((1 <<< g) - 1) = x % 2 ^ g := by
  rw [Nat.one_shiftLeft, Nat.and_pow_two_sub_one_eq_mod]

theorem bit_eq (x t : Nat) : (x >>> t) &&& 1 = x / 2 ^ t % 2 := by
  rw [Nat.shiftRight_eq_div_pow, Nat.and_one_is_mod]

theorem Bucket.findLoop_some {b : Bucket Key} {key : Key} :
    ∀ (n i j : Nat), b.findLoop key n i = some j →
      i ≤ j ∧ j < i + n ∧ b.keys.getD j default = key := by
  intro n
  induction n with
  | zero => intro i j h; simp [Bucket.findLoop] at h
  | succ n ih =>
    intro i j h
    simp only [Bucket.findLoop] at h
    split at h
    · rename_i hk
      cases h
      exact ⟨le_refl _, by omega, hk.symm⟩
    · obtain ⟨h1, h2, h3⟩ := ih _ _ h
      exact ⟨by omega, by omega, h3⟩

theorem Bucket.findLoop_none {b : Bucket Key} {key : Key} :
    ∀ (n i : Nat), b.findLoop key n i = none ↔
      ∀ j, i ≤ j → j < i + n → b.keys.getD j default ≠ key := by
  intro n
  induction n with
  | zero => intro i; simp [Bucket.findLoop]; intro j h1 h2; omega
  | succ n ih =>
    intro i
    simp only [Bucket.findLoop]
    split
    · rename_i hk
      simp only [reduceCtorEq, false_iff, not_forall]
      exact ⟨i, le_refl _, by omega, fun h => h hk.symm⟩
    · rename_i hk
      rw [ih]
      constructor
      · intro h j h1 h2
        by_cases hij : j = i
        · subst hij; exact fun e => hk e.symm
        · exact h j (by omega) (by omega)
      · intro h j h1 h2
        exact h j (by omega) (by omega)

theorem Bucket.mem_stored_iff {b : Bucket Key} (hc : b.count ≤ b.keys.length) (x : Key) :
    x ∈ b.stored ↔ ∃ j, j < b.count ∧ b.keys.getD j default = x := by
  unfold Bucket.stored
  rw [List.mem_iff_getElem?]
  constructor
  · rintro ⟨j, hj⟩
    rw [List.getElem?_take] at hj
    split at hj
    · rename_i hlt
      refine ⟨j, hlt, ?_⟩
      rw [List.getD_eq_getElem?_getD, hj]; rfl
    · cases hj
  · rintro ⟨j, hj, hx⟩
    refine ⟨j, ?_⟩
    rw [List.getElem?_take, if_pos hj]
    have hlt : j < b.keys.length := by omega
    rw [List.getD_eq_getElem _ _ hlt] at hx
    rw [List.getElem?_eq_getElem hlt, hx]

theorem Bucket.find_eq_none_iff {b : Bucket Key} (hc : b.count ≤ b.keys.length) (key : Key) :
    b.find key = none ↔ key ∉ b.stored := by
  rw [Bucket.mem_stored_iff hc]
  unfold Bucket.find
  split
  · rename_i h0
    simp [h0]
  · rw [Bucket.findLoop_none]
    constructor
    · rintro h ⟨j, hj, hx⟩
      exact h j (Nat.zero_le _) (by omega) hx
    · intro h j _ hj hx
      exact h ⟨j, by omega, hx⟩

theorem Bucket.find_isSome_iff {b : Bucket Key} (hc : b.count ≤ b.keys.length) (key : Key) :
    (b.find key).isSome ↔ key ∈ b.stored := by
  rw [← not_iff_not, ← Bucket.find_eq_none_iff hc]
  cases b.find key <;> simp

theorem Bucket.find_some {b : Bucket Key} {key : Key} {j : Nat} (h : b.find key = some j) :
    j < b.count ∧ b.keys.getD j default = key := by
  unfold Bucket.find at h
  split at h
  · cases h
  · obtain ⟨_, h2, h3⟩ := Bucket.findLoop_some _ _ _ h
    exact ⟨by omega, h3⟩


theorem take_set_succ_self {α : Type} (l : List α) (c : Nat) (x : α) (h : c < l.length) :
    (l.set c x).take (c + 1) = l.take c ++ [x] := by
  apply List.ext_getElem?
  intro n
  simp only [List.getElem?_take, List.getElem?_set, List.getElem?_append, List.length_take]
  have hm : min c l.length = c := by omega
  rw [hm]
  by_cases h1 : n < c
  · simp [h1, show n < c + 1 by omega, show c ≠ n by omega]
  · by_cases h2 : n = c
    · subst h2; simp [h]
    · simp [h1, show ¬ n < c + 1 by omega]
      omega

theorem Bucket.insert_spec {N : Nat} {b : Bucket Key} (k : Key)
    (hl : b.keys.length = N) (hc : b.count < N) :
    (b.insert N k).1.stored = b.stored ++ [k]
      ∧ (b.insert N k).1.local_depth = b.local_depth
      ∧ (b.insert N k).1.keys.length = N
      ∧ (b.insert N k).1.count = b.count + 1
      ∧ (b.insert N k).2 = some b.count := by
  unfold Bucket.insert
  rw [if_neg (by omega)]
  refine ⟨?_, rfl, ?_, rfl, rfl⟩
  · simp only [Bucket.stored]
    exact take_set_succ_self _ _ _ (by omega)
  · simp [hl]

theorem Bucket.eraseLoop_miss {b : Bucket Key} {k : Key} :
    ∀ (n i : Nat), (∀ j, i ≤ j → j < i + n → b.keys.getD j default ≠ k) →
      b.eraseLoop k n i = (b, 0) := by
  intro n
  induction n with
  | zero => intro i _; rfl
  | succ n ih =>
    intro i h
    simp only [Bucket.eraseLoop]
    rw [if_neg (fun e => h i (le_refl _) (by omega) e.symm)]
    exact ih _ (fun j h1 h2 => h j (by omega) (by omega))

theorem Bucket.erase_miss {b : Bucket Key} (hc : b.count ≤ b.keys.length) {k : Key}
    (h : k ∉ b.stored) : b.erase k = (b, 0) := by
  unfold Bucket.erase
  split
  · rfl
  · apply Bucket.eraseLoop_miss
    intro j _ hj hx
    exact h ((Bucket.mem_stored_iff hc k).2 ⟨j, by omega, hx⟩)

theorem set_last_perm_erase {α : Type} [DecidableEq α] (d y : α) :
    ∀ (M : List α) (i : Nat), (M ++ [y]).Nodup → i < M.length →
      (M.set i y).Perm ((M ++ [y]).erase (M.getD i d)) := by
  intro M
  induction M with
  | nil => intro i _ h; simp at h
  | cons a M ih =>
    intro i hnd hi
    cases i with
    | zero =>
      simp only [List.set_cons_zero, List.getD_cons_zero, List.cons_append, List.erase_cons_head]
      exact (List.perm_append_singleton y M).symm
    | succ i =>
      simp only [List.length_cons, Nat.add_lt_add_iff_right] at hi
      simp only [List.cons_append, List.nodup_cons] at hnd
      have hne : a ≠ M.getD i d := by
        intro e
        apply hnd.1
        rw [e, List.getD_eq_getElem _ _ hi]
        exact List.mem_append_left _ (List.getElem_mem _)
      simp only [List.set_cons_succ, List.getD_cons_succ, List.cons_append]
      rw [List.erase_cons_tail (by simpa using hne)]
      exact (ih i hnd.2 hi).cons a

/-- Swap-with-last removal on lists. -/
theorem swap_last_take {α : Type} [DecidableEq α] (l : List α) (c i : Nat) (d : α)
    (hc : c ≤ l.length) (hi : i < c) (hnd : (l.take c).Nodup) :
    ((if i ≠ c - 1 then (l.set i (l.getD (c - 1) d)).set (c - 1) (l.getD i d) else l).take
      (c - 1)).Perm ((l.take c).erase (l.getD i d)) := by
  obtain ⟨c, rfl⟩ : ∃ c', c = c' + 1 := ⟨c - 1, by omega⟩
  simp only [Nat.add_sub_cancel]
  have hcl : c < l.length := by omega
  have htake : l.take (c + 1) = l.take c ++ [l.getD c d] := by
    rw [List.take_succ, List.getElem?_eq_getElem hcl, List.getD_eq_getElem _ _ hcl]; rfl
  rw [htake] at hnd ⊢
  by_cases hic : i = c
  · subst hic
    rw [if_neg (by simp)]
    rw [List.erase_append_right, List.erase_cons_head, List.append_nil]
    intro hmem
    rw [List.nodup_append] at hnd
    exact hnd.2.2 hmem (List.mem_singleton_self _)
  · rw [if_pos hic]
    have hi2 : i < (l.take c).length := by rw [List.length_take]; omega
    rw [List.set_take, List.set_eq_of_length_le (by simp), List.set_take]
    have := set_last_perm_erase d (l.getD c d) (l.take c) i hnd hi2
    rwa [List.getD_eq_getElem _ _ hi2, List.getElem_take, ← List.getD_eq_getElem l d] at this

theorem Bucket.eraseLoop_hit {b : Bucket Key} {k : Key} :
    ∀ (n i : Nat), (∃ j, i ≤ j ∧ j < i + n ∧ b.keys.getD j default = k) →
      ∃ j, i ≤ j ∧ j < i + n ∧ b.keys.getD j default = k ∧
        b.eraseLoop k n i =
          ({ b with
             keys :=
               if j ≠ b.count - 1 then
                 (b.keys.set j (b.keys.getD (b.count - 1) default)).set (b.count - 1)
                   (b.keys.getD j default)
               else b.keys
             count := b.count - 1 }, 1) := by
  intro n
  induction n with
  | zero => rintro i ⟨j, h1, h2, _⟩; omega
  | succ n ih =>
    rintro i ⟨j, h1, h2, h3⟩
    simp only [Bucket.eraseLoop]
    by_cases hk : k = b.keys.getD i default
    · rw [if_pos hk]
      exact ⟨i, le_refl _, by omega, hk.symm, rfl⟩
    · rw [if_neg hk]
      have hji : j ≠ i := by rintro rfl; exact hk h3.symm
      obtain ⟨j2, g1, g2, g3, g4⟩ := ih (i + 1) ⟨j, by omega, by omega, h3⟩
      exact ⟨j2, by omega, by omega, g3, g4⟩

theorem Bucket.erase_hit {b : Bucket Key} (hc : b.count ≤ b.keys.length) {k : Key}
    (hnd : b.stored.Nodup) (h : k ∈ b.stored) :
    (b.erase k).2 = 1
      ∧ (b.erase k).1.stored.Perm (b.stored.erase k)
      ∧ (b.erase k).1.count = b.count - 1
      ∧ 0 < b.count
      ∧ (b.erase k).1.local_depth = b.local_depth
      ∧ (b.erase k).1.keys.length = b.keys.length := by
  obtain ⟨j0, hj0, hx0⟩ := (Bucket.mem_stored_iff hc k).1 h
  unfold Bucket.erase
  rw [if_neg (by omega)]
  obtain ⟨j, h1, h2, h3, h4⟩ := Bucket.eraseLoop_hit (b := b) (k := k) b.count 0
    ⟨j0, Nat.zero_le _, by omega, hx0⟩
  rw [h4]
  refine ⟨rfl, ?_, rfl, by omega, rfl, ?_⟩
  · have := swap_last_take b.keys b.count j default hc (by omega) hnd
    rw [h3] at this
    have e : b.keys[j]?.getD default = k := by rw [← List.getD_eq_getElem?_getD]; exact h3
    simpa [Bucket.stored, h3, e] using this
  · simp only
    split <;> simp

/-! ## The redistribution loop -/

theorem redistribute_spec (hash : Key → Nat) (N : Nat) :
    ∀ (n i : Nat) (b nb : Bucket Key), i + n = N → b.keys.length = N → nb.keys.length = N →
      b.count ≤ i → nb.count ≤ i →
      (redistribute hash N n i b nb).1.stored
          = b.stored ++ (b.keys.drop i).filter (fun x => !hashBit hash (b.local_depth - 1) x)
        ∧ (redistribute hash N n i b nb).2.stored
          = nb.stored ++ (b.keys.drop i).filter (fun x => hashBit hash (b.local_depth - 1) x)
        ∧ (redistribute hash N n i b nb).1.local_depth = b.local_depth
        ∧ (redistribute hash N n i b nb).2.local_depth = nb.local_depth
        ∧ (redistribute hash N n i b nb).1.keys.length = N
        ∧ (redistribute hash N n i b nb).2.keys.length = N
        ∧ (redistribute hash N n i b nb).1.count ≤ N
        ∧ (redistribute hash N n i b nb).2.count ≤ N := by
  intro n
  induction n with
  | zero =>
    intro i b nb hin hb hnb hbc hnbc
    have hi : i = N := by omega
    subst hi
    simp only [redistribute]
    rw [List.drop_of_length_le (by omega)]
    simp [hb, hnb, hbc, hnbc]
  | succ n ih =>
    intro i b nb hin hb hnb hbc hnbc
    have hi : i < b.keys.length := by omega
    have hdrop : b.keys.drop i = b.keys.getD i default :: b.keys.drop (i + 1) := by
      rw [List.drop_eq_getElem_cons hi, List.getD_eq_getElem _ _ hi]
    simp only [redistribute]
    by_cases hbit : ((hash (b.keys.getD i default)) >>> (b.local_depth - 1)) &&& 1 ≠ 0
    · rw [if_pos hbit]
      obtain ⟨e1, e2, e3, e4, e5⟩ := Bucket.insert_spec (N := N) (b := nb)
        (b.keys.getD i default) hnb (by omega)
      obtain ⟨g1, g2, g3, g4, g5, g6, g7, g8⟩ :=
        ih (i + 1) b (nb.insert N (b.keys.getD i default)).1 (by omega) hb e3 (by omega)
          (by omega)
      have hb1 : hashBit hash (b.local_depth - 1) (b.keys.getD i default) = true := by
        simp only [hashBit, decide_eq_true_eq]; exact hbit
      refine ⟨?_, ?_, g3, g4.trans e2, g5, g6, g7, g8⟩
      · rw [g1, hdrop, List.filter_cons_of_neg (by simpa using hb1)]
      · rw [g2, e1, hdrop, List.filter_cons_of_pos hb1, List.append_assoc]; rfl
    · rw [if_neg hbit]
      obtain ⟨e1, e2, e3, e4, e5⟩ := Bucket.insert_spec (N := N) (b := b)
        (b.keys.getD i default) hb (by omega)
      obtain ⟨g1, g2, g3, g4, g5, g6, g7, g8⟩ :=
        ih (i + 1) (b.insert N (b.keys.getD i default)).1 nb (by omega) e3 hnb (by omega)
          (by omega)
      have hb1 : hashBit hash (b.local_depth - 1) (b.keys.getD i default) = false := by
        simp only [hashBit, decide_eq_false_iff_not]; exact hbit
      have hk : (b.insert N (b.keys.getD i default)).1.keys.drop (i + 1)
          = b.keys.drop (i + 1) := by
        unfold Bucket.insert
        rw [if_neg (by omega)]
        exact List.drop_set_of_lt _ _ (by omega)
      rw [e2, hk] at g1 g2
      refine ⟨?_, ?_, g3.trans e2, g4, g5, g6, g7, g8⟩
      · rw [g1, e1, hdrop, List.filter_cons_of_pos (by simpa using hb1), List.append_assoc]; rfl
      · rw [g2, hdrop, List.filter_cons_of_neg (by simpa using hb1)]

/-! ## The heap and directory doubling -/

@[simp] theorem EH_set.store_directory (s : EH_set Key) (p : Option Nat) (b : Bucket Key) :
    (s.store p b).directory = s.directory := by
  cases p <;> rfl

@[simp] theorem EH_set.store_global_depth (s : EH_set Key) (p : Option Nat) (b : Bucket Key) :
    (s.store p b).global_depth = s.global_depth := by
  cases p <;> rfl

@[simp] theorem EH_set.store_curr_size (s : EH_set Key) (p : Option Nat) (b : Bucket Key) :
    (s.store p b).curr_size = s.curr_size := by
  cases p <;> rfl

@[simp] theorem EH_set.store_buckets_length (s : EH_set Key) (p : Option Nat) (b : Bucket Key) :
    (s.store p b).buckets.length = s.buckets.length := by
  cases p <;> simp [EH_set.store]

@[simp] theorem EH_set.store_slot (s : EH_set Key) (p : Option Nat) (b : Bucket Key) (i : Nat) :
    (s.store p b).slot i = s.slot i := by
  simp [EH_set.slot]

theorem EH_set.deref_store_same (s : EH_set Key) (a : Nat) (b : Bucket Key)
    (h : a < s.buckets.length) : (s.store (some a) b).deref (some a) = b := by
  simp [EH_set.store, EH_set.deref, List.getD_eq_getElem?_getD, List.getElem?_set, h]

theorem EH_set.deref_store_ne (s : EH_set Key) (p q : Option Nat) (b : Bucket Key)
    (h : p ≠ q) : (s.store p b).deref q = s.deref q := by
  cases p with
  | none => rfl
  | some a =>
    cases q with
    | none => rfl
    | some c =>
      have hac : a ≠ c := fun e => h (by rw [e])
      simp [EH_set.store, EH_set.deref, List.getD_eq_getElem?_getD, List.getElem?_set, hac]

theorem EH_set.store_deref_self (s : EH_set Key) (p : Option Nat) :
    s.store p (s.deref p) = s := by
  cases p with
  | none => rfl
  | some a =>
    simp only [EH_set.store, EH_set.deref]
    have : s.buckets.set a (s.buckets.getD a default) = s.buckets := by
      apply List.ext_getElem?
      intro n
      rw [List.getElem?_set]
      by_cases han : a = n
      · subst han
        by_cases hl : a < s.buckets.length
        · simp [hl, List.getD_eq_getElem _ _ hl]
        · simp [hl, List.getElem?_eq_none (Nat.le_of_not_lt hl)]
      · simp [han]
    rw [this]

/-! ## Directory doubling -/

theorem double_loop_length (G : Nat) (f : Nat → Option Nat) (init : List (Option Nat)) :
    ∀ n, ((List.range n).foldl (fun d i => (d.set (i + G) (f i)).set i (f i)) init).length
      = init.length := by
  intro n
  induction n with
  | zero => simp
  | succ n ih => simp [List.range_succ, List.foldl_append, ih]

theorem double_loop_getD (G : Nat) (f : Nat → Option Nat) :
    ∀ n, n ≤ G → ∀ j,
      ((List.range n).foldl (fun d i => (d.set (i + G) (f i)).set i (f i))
          (List.replicate (G + G) none)).getD j none
        = if j < n then f j else if G ≤ j ∧ j < G + n then f (j - G) else none := by
  intro n
  induction n with
  | zero =>
    intro _ j
    simp only [List.range_zero, List.foldl_nil, List.getD_eq_getElem?_getD,
      List.getElem?_replicate]
    split_ifs <;> first | rfl | omega
  | succ n ih =>
    intro hn j
    have ih2 := ih (by omega) j
    rw [List.range_succ, List.foldl_append]
    simp only [List.foldl_cons, List.foldl_nil]
    rw [List.getD_eq_getElem?_getD, List.getElem?_set, List.length_set, List.getElem?_set,
      double_loop_length G, List.length_replicate]
    by_cases h1 : n = j
    · subst h1
      simp [show n < G + G by omega]
    · by_cases h2 : n + G = j
      · subst h2
        rw [if_neg h1, if_pos rfl, if_pos (by omega)]
        simp [show ¬ (n + G < n + 1) by omega, show n + G < G + (n + 1) by omega]
      · rw [if_neg h1, if_neg h2, ← List.getD_eq_getElem?_getD, ih2]
        split_ifs <;> first | rfl | omega

theorem EH_set.double_dir_slot (s : EH_set Key) (j : Nat) :
    s.double_dir.slot j
      = if j < 2 ^ s.global_depth then s.slot j
        else if j < 2 ^ (s.global_depth + 1) then s.slot (j - 2 ^ s.global_depth) else none := by
  unfold EH_set.double_dir EH_set.slot
  simp only [Nat.one_shiftLeft]
  have h2 : 2 ^ (s.global_depth + 1) = 2 ^ s.global_depth + 2 ^ s.global_depth := by
    rw [pow_succ]; omega
  rw [h2]
  have := double_loop_getD (2 ^ s.global_depth) (fun i => s.directory.getD i none)
    (2 ^ s.global_depth) (le_refl _) j
  simp only [EH_set.slot] at this ⊢
  rw [this]
  by_cases h1 : j < 2 ^ s.global_depth
  · simp [h1]
  · rw [if_neg h1, if_neg h1]
    by_cases h3 : j < 2 ^ s.global_depth + 2 ^ s.global_depth
    · rw [if_pos ⟨by omega, h3⟩, if_pos h3]
    · rw [if_neg (by omega), if_neg h3]

theorem EH_set.double_dir_length (s : EH_set Key) :
    s.double_dir.directory.length = 2 ^ (s.global_depth + 1) := by
  unfold EH_set.double_dir
  simp only [Nat.one_shiftLeft]
  rw [double_loop_length]
  simp

@[simp] theorem EH_set.double_dir_global_depth (s : EH_set Key) :
    s.double_dir.global_depth = s.global_depth + 1 := rfl

@[simp] theorem EH_set.double_dir_buckets (s : EH_set Key) :
    s.double_dir.buckets = s.buckets := rfl

@[simp] theorem EH_set.double_dir_curr_size (s : EH_set Key) :
    s.double_dir.curr_size = s.curr_size := rfl

@[simp] theorem EH_set.double_dir_deref (s : EH_set Key) (p : Option Nat) :
    s.double_dir.deref p = s.deref p := rfl

/-! ## The repointing loop -/

theorem repoint_length (p : Option Nat) (d L : Nat) :
    ∀ n i dir, (repoint p d L n i dir).length = dir.length := by
  intro n
  induction n with
  | zero => intro i dir; rfl
  | succ n ih =>
    intro i dir
    simp only [repoint]
    split
    · rw [ih]; simp
    · rfl

theorem repoint_getD (p : Option Nat) (d L : Nat) (hd : 0 < d) :
    ∀ n i dir, L ≤ dir.length → L ≤ i + n * d → ∀ j,
      ((j < L ∧ ∃ q, j = i + q * d) → (repoint p d L n i dir).getD j none = p)
        ∧ (¬ (j < L ∧ ∃ q, j = i + q * d) →
            (repoint p d L n i dir).getD j none = dir.getD j none) := by
  intro n
  induction n with
  | zero =>
    intro i dir _ hL j
    refine ⟨?_, fun _ => rfl⟩
    rintro ⟨h1, q, rfl⟩
    omega
  | succ n ih =>
    intro i dir hlen hL j
    simp only [repoint]
    by_cases hi : i < L
    · rw [if_pos hi]
      obtain ⟨ih1, ih2⟩ := ih (i + d) (dir.set i p) (by simpa using hlen)
        (by rw [Nat.succ_mul] at hL; omega) j
      by_cases hji : j = i
      · subst hji
        have h1 : ¬ (j < L ∧ ∃ q, j = j + d + q * d) := by
          rintro ⟨_, q, hq⟩
          have : 0 ≤ q * d := Nat.zero_le _
          omega
        have h2 : j < L ∧ ∃ q, j = j + q * d := ⟨hi, 0, by simp⟩
        refine ⟨fun _ => ?_, fun h => absurd h2 h⟩
        rw [ih2 h1]
        simp [List.getD_eq_getElem?_getD, List.getElem?_set, show j < dir.length by omega]
      · have hset : (dir.set i p).getD j none = dir.getD j none := by
          simp [List.getD_eq_getElem?_getD, List.getElem?_set, Ne.symm hji]
        rw [hset] at ih2
        have hiff : (j < L ∧ ∃ q, j = i + d + q * d) ↔ (j < L ∧ ∃ q, j = i + q * d) := by
          constructor
          · rintro ⟨h, q, hq⟩
            exact ⟨h, q + 1, by rw [Nat.succ_mul]; omega⟩
          · rintro ⟨h, q, hq⟩
            cases q with
            | zero => simp at hq; exact absurd hq hji
            | succ q => exact ⟨h, q, by rw [Nat.succ_mul] at hq; omega⟩
        exact ⟨fun h => ih1 (hiff.2 h), fun h => ih2 (fun h2 => h (hiff.1 h2))⟩
    · rw [if_neg hi]
      refine ⟨?_, fun _ => rfl⟩
      rintro ⟨h1, q, rfl⟩
      omega

theorem exists_mul_iff_mod (j r m : Nat) (hr : r < m) : (∃ q, j = r + q * m) ↔ j % m = r := by
  constructor
  · rintro ⟨q, rfl⟩
    rw [Nat.add_mul_mod_self_right, Nat.mod_eq_of_lt hr]
  · intro h
    refine ⟨j / m, ?_⟩
    have := Nat.mod_add_div j m
    rw [h] at this
    rw [Nat.mul_comm]; omega

/-! ## Arithmetic of the low bits of an index -/

theorem mod_succ_split (x t : Nat) :
    x % 2 ^ (t + 1) = x % 2 ^ t + 2 ^ t * (x / 2 ^ t % 2) :=
  Nat.mod_pow_succ

theorem mod_succ_cases (x t : Nat) :
    (x / 2 ^ t % 2 = 0 ∧ x % 2 ^ (t + 1) = x % 2 ^ t)
      ∨ (x / 2 ^ t % 2 = 1 ∧ x % 2 ^ (t + 1) = x % 2 ^ t + 2 ^ t) := by
  rw [mod_succ_split]
  rcases Nat.mod_two_eq_zero_or_one (x / 2 ^ t) with h | h
  · left; rw [h]; simp
  · right; rw [h]; simp

theorem mod_mod_pow_le (x : Nat) {a b : Nat} (h : a ≤ b) : x % 2 ^ b % 2 ^ a = x % 2 ^ a :=
  Nat.mod_mod_of_dvd x (pow_dvd_pow 2 h)

theorem mod_eq_of_mod_eq_pow {x y : Nat} {a b : Nat} (h : a ≤ b)
    (e : x % 2 ^ b = y % 2 ^ b) : x % 2 ^ a = y % 2 ^ a := by
  rw [← mod_mod_pow_le x h, ← mod_mod_pow_le y h, e]

/-- Two different numbers differ modulo a large enough power of two. -/
theorem exists_pow_separates {a b : Nat} (h : a ≠ b) : a % 2 ^ (a + b) ≠ b % 2 ^ (a + b) := by
  have ha : a < 2 ^ (a + b) := lt_of_le_of_lt (Nat.le_add_right a b) (Nat.lt_two_pow _)
  have hb : b < 2 ^ (a + b) := lt_of_le_of_lt (Nat.le_add_left b a) (Nat.lt_two_pow _)
  rw [Nat.mod_eq_of_lt ha, Nat.mod_eq_of_lt hb]
  exact h


theorem hashBit_eq (hash : Key → Nat) (t : Nat) (x : Key) :
    hashBit hash t x = decide (hash x / 2 ^ t % 2 = 1) := by
  unfold hashBit
  rw [bit_eq]
  rcases Nat.mod_two_eq_zero_or_one (hash x / 2 ^ t) with h | h <;> simp [h]

/-! ## Consequences of the invariant -/

theorem Inv.bucketAt_eq {hash : Key → Nat} {N : Nat} {s : EH_set Key} (h : Inv hash N s)
    {i j : Nat} (hi : i < 2 ^ s.global_depth) (hj : j < 2 ^ s.global_depth)
    (e : i % 2 ^ (s.bucketAt i).local_depth = j % 2 ^ (s.bucketAt i).local_depth) :
    s.bucketAt j = s.bucketAt i := by
  unfold EH_set.bucketAt
  rw [(h.slot_eq i j hi hj).2 e]

theorem Inv.canon_lt {hash : Key → Nat} {N : Nat} {s : EH_set Key} (_h : Inv hash N s)
    {i : Nat} (hi : i < 2 ^ s.global_depth) :
    i % 2 ^ (s.bucketAt i).local_depth < 2 ^ s.global_depth :=
  lt_of_le_of_lt (Nat.mod_le _ _) hi

theorem Inv.bucketAt_canon {hash : Key → Nat} {N : Nat} {s : EH_set Key} (h : Inv hash N s)
    {i : Nat} (hi : i < 2 ^ s.global_depth) :
    s.bucketAt (i % 2 ^ (s.bucketAt i).local_depth) = s.bucketAt i :=
  h.bucketAt_eq hi (h.canon_lt hi) (by rw [Nat.mod_mod])

theorem Inv.count_le_len {hash : Key → Nat} {N : Nat} {s : EH_set Key} (h : Inv hash N s)
    {i : Nat} (hi : i < 2 ^ s.global_depth) :
    (s.bucketAt i).count ≤ (s.bucketAt i).keys.length := by
  rw [h.keys_len i hi]; exact h.count_le i hi

theorem Inv.slot_home {hash : Key → Nat} {N : Nat} {s : EH_set Key} (h : Inv hash N s)
    {i : Nat} (hi : i < 2 ^ s.global_depth) {x : Key} (hx : x ∈ (s.bucketAt i).stored) :
    s.slot i = s.slot (hash x % 2 ^ s.global_depth) := by
  refine (h.slot_eq i _ hi (Nat.mod_lt _ (by positivity))).2 ?_
  rw [mod_mod_pow_le _ (h.ld_le i hi)]
  exact (h.route i hi x hx).symm

theorem Inv.home {hash : Key → Nat} {N : Nat} {s : EH_set Key} (h : Inv hash N s)
    {i : Nat} (hi : i < 2 ^ s.global_depth) {x : Key} (hx : x ∈ (s.bucketAt i).stored) :
    s.bucketAt (hash x % 2 ^ s.global_depth) = s.bucketAt i := by
  refine h.bucketAt_eq hi (Nat.mod_lt _ (by positivity)) ?_
  rw [mod_mod_pow_le _ (h.ld_le i hi)]
  exact (h.route i hi x hx).symm

theorem Inv.mem_elems_iff {hash : Key → Nat} {N : Nat} {s : EH_set Key} (h : Inv hash N s)
    (x : Key) :
    x ∈ s.elems ↔ x ∈ (s.bucketAt (hash x % 2 ^ s.global_depth)).stored := by
  unfold EH_set.elems
  rw [List.mem_flatMap]
  constructor
  · rintro ⟨i, hi, hx⟩
    rw [List.mem_range] at hi
    split at hx
    · rw [h.home hi hx]; exact hx
    · cases hx
  · intro hx
    have hlt : hash x % 2 ^ s.global_depth < 2 ^ s.global_depth := Nat.mod_lt _ (by positivity)
    refine ⟨_, List.mem_range.2 (h.canon_lt hlt), ?_⟩
    rw [h.bucketAt_canon hlt, if_pos (Nat.mod_lt _ (by positivity))]
    exact hx

theorem Inv.mem_elems_of_mem {hash : Key → Nat} {N : Nat} {s : EH_set Key} (h : Inv hash N s)
    {i : Nat} (hi : i < 2 ^ s.global_depth) {x : Key} (hx : x ∈ (s.bucketAt i).stored) :
    x ∈ s.elems := by
  rw [h.mem_elems_iff, h.home hi hx]; exact hx

theorem Inv.nodup_elems {hash : Key → Nat} {N : Nat} {s : EH_set Key} (h : Inv hash N s) :
    s.elems.Nodup := by
  unfold EH_set.elems
  rw [List.nodup_flatMap]
  constructor
  · intro i hi
    rw [List.mem_range] at hi
    split
    · exact h.nodup i hi
    · exact List.nodup_nil
  · refine (List.nodup_range _).pairwise_of_forall_ne ?_
    intro i hi j hj hij
    rw [List.mem_range] at hi hj
    simp only [Function.onFun]
    intro x hxi hxj
    split at hxi
    · rename_i ci
      split at hxj
      · rename_i cj
        apply hij
        have e1 := h.home hi hxi
        have e2 := h.home hj hxj
        have e3 : s.bucketAt j = s.bucketAt i := by rw [← e2, e1]
        have hslot : s.slot i = s.slot j := by
          rw [h.slot_home hi hxi, h.slot_home hj hxj]
        have := (h.slot_eq i j hi hj).1 hslot
        rw [Nat.mod_eq_of_lt ci, Nat.mod_eq_of_lt (by rw [← e3]; exact cj)] at this
        exact this
      · cases hxj
    · cases hxi

/-! ## The split step in closed form -/

theorem Bucket.insert_local_depth (N : Nat) (b : Bucket Key) (k : Key) :
    (b.insert N k).1.local_depth = b.local_depth := by
  unfold Bucket.insert; split <;> rfl

theorem redistribute_local_depth (hash : Key → Nat) (N : Nat) :
    ∀ (n i : Nat) (b nb : Bucket Key),
      (redistribute hash N n i b nb).1.local_depth = b.local_depth := by
  intro n
  induction n with
  | zero => intro i b nb; rfl
  | succ n ih =>
    intro i b nb
    simp only [redistribute]
    split
    · rw [ih]
    · rw [ih, Bucket.insert_local_depth]

theorem heap_split_eq {α : Type} (B : List α) (a : Nat) (ha : a < B.length)
    (f x1 x2 x3 r1 r2 : α) :
    (((((B ++ [f]).set a x1).set B.length x2).set a x3).set a r1).set B.length r2
      = B.set a r1 ++ [r2] := by
  have hne : a ≠ B.length := by omega
  rw [List.set_set, List.set_comm _ _ _ (Ne.symm hne), List.set_set, List.set_set,
    List.set_comm _ _ _ hne, List.set_append_right _ _ (le_refl _), Nat.sub_self,
    List.set_cons_zero, List.set_append_left _ _ ha]

theorem splitBucket_eq (hash : Key → Nat) (N : Nat) (s : EH_set Key) (ind a : Nat)
    (hslot : s.slot ind = some a) (ha : a < s.buckets.length)
    (b : Bucket Key) (hb : s.deref (some a) = b) (r : Bucket Key × Bucket Key)
    (hr : redistribute hash N N 0 ⟨b.keys, b.local_depth + 1, 0⟩
      ⟨List.replicate N default, b.local_depth + 1, 0⟩ = r) :
    s.splitBucket hash N ind =
      { buckets := s.buckets.set a r.1 ++ [r.2]
        directory :=
          repoint (some s.buckets.length) (2 ^ b.local_depth + 2 ^ b.local_depth)
            (2 ^ s.global_depth) (2 ^ s.global_depth)
            (ind % 2 ^ b.local_depth + 2 ^ b.local_depth) s.directory
        curr_size := s.curr_size
        global_depth := s.global_depth } := by
  have hne : a ≠ s.buckets.length := by omega
  have hne2 : s.buckets.length ≠ a := by omega
  have ha1 : a < s.buckets.length + 1 := by omega
  have hL1 : s.buckets.length < s.buckets.length + 1 := by omega
  have d2a : ({ s with buckets := s.buckets ++ [Bucket.fresh N] } : EH_set Key).deref (some a)
      = b := by
    rw [← hb]
    simp [EH_set.deref, List.getD_eq_getElem?_getD, List.getElem?_append, ha]
  have d2L : ({ s with buckets := s.buckets ++ [Bucket.fresh N] } : EH_set Key).deref
      (some s.buckets.length) = Bucket.fresh N := by
    simp [EH_set.deref, List.getD_eq_getElem?_getD, List.getElem?_append]
  have hr1 : r.1.local_depth = b.local_depth + 1 := by
    rw [← hr, redistribute_local_depth]
  unfold EH_set.splitBucket
  simp only [hslot, d2a, d2L, EH_set.deref_store_same, EH_set.deref_store_ne,
    EH_set.store_buckets_length, List.length_append, List.length_singleton, ha1, hL1, ne_eq,
    Option.some.injEq, hne, hne2, not_false_eq_true, EH_set.store_global_depth,
    EH_set.store_curr_size, EH_set.store_directory, Nat.one_shiftLeft]
  have hr2 : redistribute hash N N 0
      { keys := b.keys, local_depth := b.local_depth + 1, count := 0 }
      { keys := (Bucket.fresh N : Bucket Key).keys, local_depth := b.local_depth + 1,
        count := (Bucket.fresh N : Bucket Key).count } = r := hr
  rw [hr2, hr1, Nat.add_sub_cancel, Nat.and_pow_two_sub_one_eq_mod]
  simp only [EH_set.store]
  rw [heap_split_eq _ _ ha]

/-- What the split of the full bucket at slot `ind` does to every slot `j`:
the slot is repointed to the new bucket, or it keeps the old bucket, or it
references another bucket and nothing changes for it. -/
theorem Inv.split_cases {hash : Key → Nat} {N : Nat} {s : EH_set Key} (h : Inv hash N s)
    {ind a : Nat} (hind : ind < 2 ^ s.global_depth) (hslot : s.slot ind = some a)
    (r : Bucket Key × Bucket Key)
    (hr : redistribute hash N N 0 ⟨(s.bucketAt ind).keys, (s.bucketAt ind).local_depth + 1, 0⟩
      ⟨List.replicate N default, (s.bucketAt ind).local_depth + 1, 0⟩ = r)
    {j : Nat} (hj : j < 2 ^ s.global_depth) :
    (s.slot j = some a
        ∧ j % 2 ^ ((s.bucketAt ind).local_depth + 1)
            = ind % 2 ^ (s.bucketAt ind).local_depth + 2 ^ (s.bucketAt ind).local_depth
        ∧ (s.splitBucket hash N ind).slot j = some s.buckets.length
        ∧ (s.splitBucket hash N ind).bucketAt j = r.2)
      ∨ (s.slot j = some a
        ∧ j % 2 ^ ((s.bucketAt ind).local_depth + 1) = ind % 2 ^ (s.bucketAt ind).local_depth
        ∧ (s.splitBucket hash N ind).slot j = some a
        ∧ (s.splitBucket hash N ind).bucketAt j = r.1)
      ∨ (s.slot j ≠ some a
        ∧ (s.splitBucket hash N ind).slot j = s.slot j
        ∧ (s.splitBucket hash N ind).bucketAt j = s.bucketAt j) := by
  obtain ⟨a', hslot', ha⟩ := h.valid ind hind
  rw [hslot] at hslot'
  cases hslot'
  have hb : s.deref (some a) = s.bucketAt ind := by rw [EH_set.bucketAt, hslot]
  have heq := splitBucket_eq hash N s ind a hslot ha _ hb r hr
  obtain ⟨q, hq, hqlt⟩ := h.valid j hj
  have hG : 0 < 2 ^ (s.bucketAt ind).local_depth := by positivity
  have hc : ind % 2 ^ (s.bucketAt ind).local_depth < 2 ^ (s.bucketAt ind).local_depth :=
    Nat.mod_lt _ hG
  have hpow : 2 ^ ((s.bucketAt ind).local_depth + 1)
      = 2 ^ (s.bucketAt ind).local_depth + 2 ^ (s.bucketAt ind).local_depth := by
    rw [pow_succ]; omega
  -- the directory after the split
  have hrep := repoint_getD (some s.buckets.length)
    (2 ^ (s.bucketAt ind).local_depth + 2 ^ (s.bucketAt ind).local_depth)
    (2 ^ s.global_depth) (by omega) (2 ^ s.global_depth)
    (ind % 2 ^ (s.bucketAt ind).local_depth + 2 ^ (s.bucketAt ind).local_depth) s.directory
    (by rw [h.dir_len])
    (by
      have : 2 ^ s.global_depth * 1 ≤ 2 ^ s.global_depth
          * (2 ^ (s.bucketAt ind).local_depth + 2 ^ (s.bucketAt ind).local_depth) :=
        Nat.mul_le_mul_left _ (by omega)
      omega) j
  have hcond : (j < 2 ^ s.global_depth ∧ ∃ q, j
      = ind % 2 ^ (s.bucketAt ind).local_depth + 2 ^ (s.bucketAt ind).local_depth
        + q * (2 ^ (s.bucketAt ind).local_depth + 2 ^ (s.bucketAt ind).local_depth))
      ↔ j % 2 ^ ((s.bucketAt ind).local_depth + 1)
        = ind % 2 ^ (s.bucketAt ind).local_depth + 2 ^ (s.bucketAt ind).local_depth := by
    rw [exists_mul_iff_mod _ _ _ (by omega), hpow]
    exact ⟨fun x => x.2, fun x => ⟨hj, x⟩⟩
  rw [hcond] at hrep
  have hslotj : s.slot j = some a ↔
      j % 2 ^ (s.bucketAt ind).local_depth = ind % 2 ^ (s.bucketAt ind).local_depth := by
    rw [← hslot, eq_comm, h.slot_eq ind j hind hj, eq_comm]
  have hslot2 : (s.splitBucket hash N ind).slot j
      = (repoint (some s.buckets.length)
          (2 ^ (s.bucketAt ind).local_depth + 2 ^ (s.bucketAt ind).local_depth)
          (2 ^ s.global_depth) (2 ^ s.global_depth)
          (ind % 2 ^ (s.bucketAt ind).local_depth + 2 ^ (s.bucketAt ind).local_depth)
          s.directory).getD j none := by
    rw [heq]; rfl
  have hderefL : (s.splitBucket hash N ind).deref (some s.buckets.length) = r.2 := by
    rw [heq]
    simp [EH_set.deref, List.getD_eq_getElem?_getD, List.getElem?_append]
  have hderef : ∀ q, q < s.buckets.length → (s.splitBucket hash N ind).deref (some q)
      = if q = a then r.1 else s.deref (some q) := by
    intro q hq
    rw [heq]
    simp only [EH_set.deref, List.getD_eq_getElem?_getD, List.getElem?_append,
      List.length_set, hq, if_true, List.getElem?_set]
    by_cases hqa : q = a
    · subst hqa; simp [hq]
    · simp [hqa, Ne.symm hqa]
  rcases mod_succ_cases j (s.bucketAt ind).local_depth with ⟨_, hm⟩ | ⟨_, hm⟩
  · -- bit clear: the slot is not repointed
    have hno : ¬ (j % 2 ^ ((s.bucketAt ind).local_depth + 1)
        = ind % 2 ^ (s.bucketAt ind).local_depth + 2 ^ (s.bucketAt ind).local_depth) := by
      have := Nat.mod_lt j hG
      omega
    have hs : (s.splitBucket hash N ind).slot j = s.slot j := by
      rw [hslot2, hrep.2 hno]; rfl
    by_cases hja : s.slot j = some a
    · right; left
      refine ⟨hja, by rw [hm]; exact hslotj.1 hja, by rw [hs, hja], ?_⟩
      rw [EH_set.bucketAt, hs, hja, hderef a ha, if_pos rfl]
    · right; right
      refine ⟨hja, hs, ?_⟩
      rw [EH_set.bucketAt, hs, hq, hderef q hqlt, if_neg, EH_set.bucketAt, hq]
      rintro rfl
      exact hja hq
  · by_cases hja : s.slot j = some a
    · left
      have hyes : j % 2 ^ ((s.bucketAt ind).local_depth + 1)
          = ind % 2 ^ (s.bucketAt ind).local_depth + 2 ^ (s.bucketAt ind).local_depth := by
        rw [hm, hslotj.1 hja]
      have hs : (s.splitBucket hash N ind).slot j = some s.buckets.length := by
        rw [hslot2, hrep.1 hyes]
      refine ⟨hja, hyes, hs, ?_⟩
      rw [EH_set.bucketAt, hs, hderefL]
    · right; right
      have hno : ¬ (j % 2 ^ ((s.bucketAt ind).local_depth + 1)
          = ind % 2 ^ (s.bucketAt ind).local_depth + 2 ^ (s.bucketAt ind).local_depth) := by
        intro e
        apply hja
        rw [hslotj]
        omega
      have hs : (s.splitBucket hash N ind).slot j = s.slot j := by
        rw [hslot2, hrep.2 hno]; rfl
      refine ⟨hja, hs, ?_⟩
      rw [EH_set.bucketAt, hs, hq, hderef q hqlt, if_neg, EH_set.bucketAt, hq]
      rintro rfl
      exact hja hq

theorem split_parts (hash : Key → Nat) (N : Nat) (b : Bucket Key)
    (hlen : b.keys.length = N) (hfull : b.count = N) (r : Bucket Key × Bucket Key)
    (hr : redistribute hash N N 0 ⟨b.keys, b.local_depth + 1, 0⟩
      ⟨List.replicate N default, b.local_depth + 1, 0⟩ = r) :
    r.1.stored = b.stored.filter (fun x => !hashBit hash b.local_depth x)
      ∧ r.2.stored = b.stored.filter (fun x => hashBit hash b.local_depth x)
      ∧ r.1.local_depth = b.local_depth + 1
      ∧ r.2.local_depth = b.local_depth + 1
      ∧ r.1.keys.length = N ∧ r.2.keys.length = N ∧ r.1.count ≤ N ∧ r.2.count ≤ N := by
  have hst : b.stored = b.keys := by
    unfold Bucket.stored
    rw [hfull, ← hlen, List.take_length]
  obtain ⟨g1, g2, g3, g4, g5, g6, g7, g8⟩ := redistribute_spec hash N N 0
    ⟨b.keys, b.local_depth + 1, 0⟩ ⟨List.replicate N default, b.local_depth + 1, 0⟩
    (by omega) hlen (by simp) (Nat.zero_le _) (Nat.zero_le _)
  rw [hr] at g1 g2 g3 g4 g5 g6 g7 g8
  refine ⟨?_, ?_, g3, g4, g5, g6, g7, g8⟩
  · rw [g1, hst]; simp [Bucket.stored]
  · rw [g2, hst]; simp [Bucket.stored]

theorem splitBucket_fields {hash : Key → Nat} {N : Nat} {s : EH_set Key} (h : Inv hash N s)
    {ind : Nat} (hind : ind < 2 ^ s.global_depth) :
    (s.splitBucket hash N ind).global_depth = s.global_depth
      ∧ (s.splitBucket hash N ind).curr_size = s.curr_size
      ∧ (s.splitBucket hash N ind).buckets.length = s.buckets.length + 1
      ∧ (s.splitBucket hash N ind).directory.length = s.directory.length := by
  obtain ⟨a, hslot, ha⟩ := h.valid ind hind
  rw [splitBucket_eq hash N s ind a hslot ha _ rfl _ rfl]
  refine ⟨rfl, rfl, ?_, ?_⟩
  · simp
  · simp [repoint_length]

theorem Inv.splitBucket {hash : Key → Nat} {N : Nat} {s : EH_set Key} (h : Inv hash N s)
    {ind : Nat} (hind : ind < 2 ^ s.global_depth) (hfull : (s.bucketAt ind).count = N)
    (hlt : (s.bucketAt ind).local_depth < s.global_depth) :
    Inv hash N (s.splitBucket hash N ind) := by
  obtain ⟨a, hslot, ha⟩ := h.valid ind hind
  obtain ⟨f1, f2, f3, f4⟩ := splitBucket_fields h hind
  obtain ⟨p1, p2, p3, p4, p5, p6, p7, p8⟩ := split_parts hash N (s.bucketAt ind)
    (h.keys_len ind hind) hfull _ rfl
  have hcases := fun j (hj : j < 2 ^ s.global_depth) => h.split_cases hind hslot _ rfl hj
  have hG : 0 < 2 ^ (s.bucketAt ind).local_depth := by positivity
  have hslotj : ∀ j, j < 2 ^ s.global_depth → (s.slot j = some a ↔
      j % 2 ^ (s.bucketAt ind).local_depth = ind % 2 ^ (s.bucketAt ind).local_depth) := by
    intro j hj
    rw [← hslot, eq_comm, h.slot_eq ind j hind hj, eq_comm]
  have hbk : ∀ j, j < 2 ^ s.global_depth → s.slot j = some a → s.bucketAt j = s.bucketAt ind := by
    intro j _ e
    rw [EH_set.bucketAt, e, EH_set.bucketAt, hslot]
  have hnL : ∀ j, j < 2 ^ s.global_depth → s.slot j ≠ some s.buckets.length := by
    intro j hj e
    obtain ⟨q, hq, hqlt⟩ := h.valid j hj
    rw [hq] at e
    cases e
    omega
  have hroute := h.route ind hind
  constructor
  · rw [f1]; exact h.gd_pos
  · rw [f4, f1]; exact h.dir_len
  · intro j hj
    rw [f1] at hj
    rw [f3]
    rcases hcases j hj with ⟨_, _, e, _⟩ | ⟨_, _, e, _⟩ | ⟨_, e, _⟩
    · exact ⟨_, e, by omega⟩
    · exact ⟨_, e, by omega⟩
    · obtain ⟨q, hq, hqlt⟩ := h.valid j hj
      exact ⟨q, by rw [e, hq], by omega⟩
  · intro j hj
    rw [f1] at hj
    rcases hcases j hj with ⟨_, _, _, e⟩ | ⟨_, _, _, e⟩ | ⟨_, _, e⟩
    · rw [e, p4]; omega
    · rw [e, p3]; omega
    · rw [e]; exact h.ld_pos j hj
  · intro j hj
    rw [f1] at hj ⊢
    rcases hcases j hj with ⟨_, _, _, e⟩ | ⟨_, _, _, e⟩ | ⟨_, _, e⟩
    · rw [e, p4]; omega
    · rw [e, p3]; omega
    · rw [e]; exact h.ld_le j hj
  · intro i j hi hj
    rw [f1] at hi hj
    have mi := mod_succ_cases i (s.bucketAt ind).local_depth
    have mj := mod_succ_cases j (s.bucketAt ind).local_depth
    have bi := Nat.mod_lt i hG
    have bj := Nat.mod_lt j hG
    have bc := Nat.mod_lt ind hG
    have sj := hslotj j hj
    rcases hcases i hi with ⟨i1, i2, i3, i4⟩ | ⟨i1, i2, i3, i4⟩ | ⟨i1, i3, i4⟩
    · rw [i3, i4, p4]
      rcases hcases j hj with ⟨j1, j2, j3, j4⟩ | ⟨j1, j2, j3, j4⟩ | ⟨j1, j3, j4⟩
      · rw [j3]
        exact ⟨fun _ => by omega, fun _ => rfl⟩
      · rw [j3]
        constructor
        · intro e; cases e; omega
        · intro e; omega
      · rw [j3]
        constructor
        · intro e; exact absurd e.symm (hnL j hj)
        · intro e
          exfalso
          apply j1
          rw [sj]
          omega
    · rw [i3, i4, p3]
      rcases hcases j hj with ⟨j1, j2, j3, j4⟩ | ⟨j1, j2, j3, j4⟩ | ⟨j1, j3, j4⟩
      · rw [j3]
        constructor
        · intro e; cases e; omega
        · intro e; omega
      · rw [j3]
        exact ⟨fun _ => by omega, fun _ => rfl⟩
      · rw [j3]
        constructor
        · intro e; exact absurd e.symm j1
        · intro e
          exfalso
          apply j1
          rw [sj]
          omega
    · rw [i3, i4]
      rcases hcases j hj with ⟨j1, j2, j3, j4⟩ | ⟨j1, j2, j3, j4⟩ | ⟨j1, j3, j4⟩
      · rw [j3]
        constructor
        · intro e; exact absurd e (hnL i hi)
        · intro e
          have := (h.slot_eq i j hi hj).2 e
          rw [j1] at this
          exact absurd this i1
      · rw [j3]
        constructor
        · intro e; exact absurd e i1
        · intro e
          have := (h.slot_eq i j hi hj).2 e
          rw [j1] at this
          exact absurd this i1
      · rw [j3]
        exact h.slot_eq i j hi hj
  · intro j hj
    rw [f1] at hj
    rcases hcases j hj with ⟨_, _, _, e⟩ | ⟨_, _, _, e⟩ | ⟨_, _, e⟩
    · rw [e, p6]
    · rw [e, p5]
    · rw [e]; exact h.keys_len j hj
  · intro j hj
    rw [f1] at hj
    rcases hcases j hj with ⟨_, _, _, e⟩ | ⟨_, _, _, e⟩ | ⟨_, _, e⟩
    · rw [e]; exact p8
    · rw [e]; exact p7
    · rw [e]; exact h.count_le j hj
  · intro j hj
    rw [f1] at hj
    rcases hcases j hj with ⟨_, _, _, e⟩ | ⟨_, _, _, e⟩ | ⟨_, _, e⟩
    · rw [e, p2]; exact (h.nodup ind hind).filter _
    · rw [e, p1]; exact (h.nodup ind hind).filter _
    · rw [e]; exact h.nodup j hj
  · intro j hj
    rw [f1] at hj
    have bc := Nat.mod_lt ind hG
    rcases hcases j hj with ⟨_, j2, _, e⟩ | ⟨_, j2, _, e⟩ | ⟨_, _, e⟩
    · rw [e, p4, p2]
      intro x hx
      rw [List.mem_filter, hashBit_eq, decide_eq_true_eq] at hx
      have := hroute x hx.1
      have mx := mod_succ_cases (hash x) (s.bucketAt ind).local_depth
      omega
    · rw [e, p3, p1]
      intro x hx
      rw [List.mem_filter, hashBit_eq] at hx
      have hx2 : ¬ (hash x / 2 ^ (s.bucketAt ind).local_depth % 2 = 1) := by simpa using hx.2
      have := hroute x hx.1
      have mx := mod_succ_cases (hash x) (s.bucketAt ind).local_depth
      omega
    · rw [e]; exact h.route j hj

theorem Inv.elems_perm {hash : Key → Nat} {N : Nat} {s s' : EH_set Key} (h : Inv hash N s)
    (h' : Inv hash N s') (hm : ∀ x, x ∈ s'.elems ↔ x ∈ s.elems) : s'.elems.Perm s.elems :=
  (List.perm_ext_iff_of_nodup h'.nodup_elems h.nodup_elems).2 hm

/-- Contents of the bucket a key is routed to, after the split of the full bucket
that was its target: the former keys that agree with the key on the new bit. -/
theorem Inv.splitBucket_target {hash : Key → Nat} {N : Nat} {s : EH_set Key} (h : Inv hash N s)
    {ind : Nat} (hind : ind < 2 ^ s.global_depth) (hfull : (s.bucketAt ind).count = N)
    (hlt : (s.bucketAt ind).local_depth < s.global_depth) (k : Key)
    (hk : s.slot (hash k % 2 ^ s.global_depth) = s.slot ind) :
    ((s.splitBucket hash N ind).bucketAt (hash k % 2 ^ s.global_depth)).stored
        = (s.bucketAt ind).stored.filter
            (fun x => hashBit hash (s.bucketAt ind).local_depth x
              == hashBit hash (s.bucketAt ind).local_depth k)
      ∧ ((s.splitBucket hash N ind).bucketAt (hash k % 2 ^ s.global_depth)).local_depth
        = (s.bucketAt ind).local_depth + 1 := by
  obtain ⟨a, hslot, ha⟩ := h.valid ind hind
  obtain ⟨p1, p2, p3, p4, p5, p6, p7, p8⟩ := split_parts hash N (s.bucketAt ind)
    (h.keys_len ind hind) hfull _ rfl
  have hj : hash k % 2 ^ s.global_depth < 2 ^ s.global_depth := Nat.mod_lt _ (by positivity)
  have hG : 0 < 2 ^ (s.bucketAt ind).local_depth := by positivity
  have bc := Nat.mod_lt ind hG
  have mk := mod_succ_cases (hash k) (s.bucketAt ind).local_depth
  have e1 : hash k % 2 ^ s.global_depth % 2 ^ ((s.bucketAt ind).local_depth + 1)
      = hash k % 2 ^ ((s.bucketAt ind).local_depth + 1) := mod_mod_pow_le _ hlt
  have bk := Nat.mod_lt (hash k) hG
  rw [hslot] at hk
  rcases h.split_cases hind hslot _ rfl hj with ⟨_, j2, _, e⟩ | ⟨_, j2, _, e⟩ | ⟨j1, _, _⟩
  · rw [e, p2, p4]
    refine ⟨?_, rfl⟩
    have hbit : hashBit hash (s.bucketAt ind).local_depth k = true := by
      rw [hashBit_eq, decide_eq_true_eq]; omega
    rw [hbit]
    congr 1
    funext x
    simp
  · rw [e, p1, p3]
    refine ⟨?_, rfl⟩
    have hbit : hashBit hash (s.bucketAt ind).local_depth k = false := by
      rw [hashBit_eq, decide_eq_false_iff_not]; omega
    rw [hbit]
    congr 1
    funext x
    simp
  · exact absurd hk j1

theorem Inv.splitBucket_mem {hash : Key → Nat} {N : Nat} {s : EH_set Key} (h : Inv hash N s)
    {ind : Nat} (hind : ind < 2 ^ s.global_depth) (hfull : (s.bucketAt ind).count = N)
    (hlt : (s.bucketAt ind).local_depth < s.global_depth) (x : Key) :
    x ∈ (s.splitBucket hash N ind).elems ↔ x ∈ s.elems := by
  have h' := h.splitBucket hind hfull hlt
  obtain ⟨f1, _, _, _⟩ := splitBucket_fields h hind
  obtain ⟨a, hslot, ha⟩ := h.valid ind hind
  rw [h'.mem_elems_iff, h.mem_elems_iff, f1]
  have hj : hash x % 2 ^ s.global_depth < 2 ^ s.global_depth := Nat.mod_lt _ (by positivity)
  by_cases hk : s.slot (hash x % 2 ^ s.global_depth) = s.slot ind
  · rw [(h.splitBucket_target hind hfull hlt x hk).1]
    have : s.bucketAt (hash x % 2 ^ s.global_depth) = s.bucketAt ind := by
      rw [EH_set.bucketAt, hk, EH_set.bucketAt]
    rw [this, List.mem_filter]
    simp
  · rcases h.split_cases hind hslot _ rfl hj with ⟨j1, _, _, _⟩ | ⟨j1, _, _, _⟩ | ⟨_, _, e⟩
    · rw [hslot] at hk; exact absurd j1 hk
    · rw [hslot] at hk; exact absurd j1 hk
    · rw [e]

/-! ## Directory doubling preserves the invariant -/

theorem EH_set.double_dir_slot_mod (s : EH_set Key) {j : Nat}
    (hj : j < 2 ^ (s.global_depth + 1)) :
    s.double_dir.slot j = s.slot (j % 2 ^ s.global_depth) := by
  rw [EH_set.double_dir_slot]
  by_cases h1 : j < 2 ^ s.global_depth
  · rw [if_pos h1, Nat.mod_eq_of_lt h1]
  · rw [if_neg h1, if_pos hj]
    have h2 : 2 ^ (s.global_depth + 1) = 2 ^ s.global_depth + 2 ^ s.global_depth := by
      rw [pow_succ]; omega
    have h3 : j = (j - 2 ^ s.global_depth) + 2 ^ s.global_depth := by omega
    conv_rhs => rw [h3, Nat.add_mod_right, Nat.mod_eq_of_lt (by omega)]

theorem EH_set.double_dir_bucketAt (s : EH_set Key) {j : Nat}
    (hj : j < 2 ^ (s.global_depth + 1)) :
    s.double_dir.bucketAt j = s.bucketAt (j % 2 ^ s.global_depth) := by
  rw [EH_set.bucketAt, EH_set.double_dir_slot_mod s hj]; rfl

theorem Inv.double_dir_inv {hash : Key → Nat} {N : Nat} {s : EH_set Key} (h : Inv hash N s) :
    Inv hash N s.double_dir := by
  have hm : ∀ j, j % 2 ^ s.global_depth < 2 ^ s.global_depth :=
    fun j => Nat.mod_lt _ (by positivity)
  constructor
  · simp
  · rw [EH_set.double_dir_length]; rfl
  · intro j hj
    rw [EH_set.double_dir_global_depth] at hj
    rw [EH_set.double_dir_slot_mod s hj]
    exact h.valid _ (hm j)
  · intro j hj
    rw [EH_set.double_dir_global_depth] at hj
    rw [EH_set.double_dir_bucketAt s hj]
    exact h.ld_pos _ (hm j)
  · intro j hj
    rw [EH_set.double_dir_global_depth] at hj ⊢
    rw [EH_set.double_dir_bucketAt s hj]
    exact Nat.le_succ_of_le (h.ld_le _ (hm j))
  · intro i j hi hj
    rw [EH_set.double_dir_global_depth] at hi hj
    rw [EH_set.double_dir_bucketAt s hi, EH_set.double_dir_slot_mod s hi,
      EH_set.double_dir_slot_mod s hj, h.slot_eq _ _ (hm i) (hm j),
      mod_mod_pow_le _ (h.ld_le _ (hm i)), mod_mod_pow_le _ (h.ld_le _ (hm i))]
  · intro j hj
    rw [EH_set.double_dir_global_depth] at hj
    rw [EH_set.double_dir_bucketAt s hj]
    exact h.keys_len _ (hm j)
  · intro j hj
    rw [EH_set.double_dir_global_depth] at hj
    rw [EH_set.double_dir_bucketAt s hj]
    exact h.count_le _ (hm j)
  · intro j hj
    rw [EH_set.double_dir_global_depth] at hj
    rw [EH_set.double_dir_bucketAt s hj]
    exact h.nodup _ (hm j)
  · intro j hj
    rw [EH_set.double_dir_global_depth] at hj
    rw [EH_set.double_dir_bucketAt s hj]
    intro x hx
    rw [h.route _ (hm j) x hx, mod_mod_pow_le _ (h.ld_le _ (hm j))]

theorem Inv.double_dir_target {hash : Key → Nat} {N : Nat} {s : EH_set Key}
    (_h : Inv hash N s) (x : Nat) :
    s.double_dir.bucketAt (x % 2 ^ (s.global_depth + 1)) = s.bucketAt (x % 2 ^ s.global_depth)
      ∧ s.double_dir.slot (x % 2 ^ (s.global_depth + 1)) = s.slot (x % 2 ^ s.global_depth) := by
  have hlt : x % 2 ^ (s.global_depth + 1) < 2 ^ (s.global_depth + 1) :=
    Nat.mod_lt _ (by positivity)
  rw [EH_set.double_dir_bucketAt s hlt, EH_set.double_dir_slot_mod s hlt,
    mod_mod_pow_le _ (Nat.le_succ _)]
  exact ⟨rfl, rfl⟩

theorem Inv.double_dir_mem {hash : Key → Nat} {N : Nat} {s : EH_set Key} (h : Inv hash N s)
    (x : Key) : x ∈ s.double_dir.elems ↔ x ∈ s.elems := by
  rw [h.double_dir_inv.mem_elems_iff, h.mem_elems_iff, EH_set.double_dir_global_depth,
    (h.double_dir_target (hash x)).1]

/-! ## The whole splitting step of `add` -/

theorem Inv.split_spec {hash : Key → Nat} {N : Nat} {s : EH_set Key} (h : Inv hash N s)
    (k : Key) (hfull : (s.bucketAt (hash k % 2 ^ s.global_depth)).count = N) :
    Inv hash N (s.split hash N (hash k % 2 ^ s.global_depth))
      ∧ (∀ x, x ∈ (s.split hash N (hash k % 2 ^ s.global_depth)).elems ↔ x ∈ s.elems)
      ∧ (s.split hash N (hash k % 2 ^ s.global_depth)).curr_size = s.curr_size
      ∧ (s.split hash N (hash k % 2 ^ s.global_depth)).global_depth
          = max s.global_depth ((s.bucketAt (hash k % 2 ^ s.global_depth)).local_depth + 1)
      ∧ ((s.split hash N (hash k % 2 ^ s.global_depth)).bucketAt
            (hash k % 2 ^ (s.split hash N (hash k % 2 ^ s.global_depth)).global_depth)).stored
          = (s.bucketAt (hash k % 2 ^ s.global_depth)).stored.filter
              (fun x => hashBit hash (s.bucketAt (hash k % 2 ^ s.global_depth)).local_depth x
                == hashBit hash (s.bucketAt (hash k % 2 ^ s.global_depth)).local_depth k)
      ∧ ((s.split hash N (hash k % 2 ^ s.global_depth)).bucketAt
            (hash k % 2 ^ (s.split hash N (hash k % 2 ^ s.global_depth)).global_depth)).local_depth
          = (s.bucketAt (hash k % 2 ^ s.global_depth)).local_depth + 1 := by
  have hind : hash k % 2 ^ s.global_depth < 2 ^ s.global_depth := Nat.mod_lt _ (by positivity)
  have hle := h.ld_le _ hind
  unfold EH_set.split
  rw [← EH_set.bucketAt]
  by_cases hd : (s.bucketAt (hash k % 2 ^ s.global_depth)).local_depth ≥ s.global_depth
  · rw [if_pos hd]
    have h1 := h.double_dir_inv
    have hind1 : hash k % 2 ^ s.global_depth < 2 ^ s.double_dir.global_depth := by
      rw [EH_set.double_dir_global_depth, pow_succ]; omega
    have hb1 : s.double_dir.bucketAt (hash k % 2 ^ s.global_depth)
        = s.bucketAt (hash k % 2 ^ s.global_depth) := by
      rw [EH_set.double_dir_bucketAt s hind1, Nat.mod_mod]
    have hs1 : s.double_dir.slot (hash k % 2 ^ s.double_dir.global_depth)
        = s.double_dir.slot (hash k % 2 ^ s.global_depth) := by
      rw [EH_set.double_dir_global_depth, (h.double_dir_target (hash k)).2,
        EH_set.double_dir_slot_mod s hind1, Nat.mod_mod]
    have hfull1 : (s.double_dir.bucketAt (hash k % 2 ^ s.global_depth)).count = N := by
      rw [hb1]; exact hfull
    have hlt1 : (s.double_dir.bucketAt (hash k % 2 ^ s.global_depth)).local_depth
        < s.double_dir.global_depth := by
      rw [hb1, EH_set.double_dir_global_depth]; omega
    obtain ⟨f1, f2, _, _⟩ := splitBucket_fields h1 hind1
    have ht := h1.splitBucket_target hind1 hfull1 hlt1 k hs1
    rw [hb1] at ht
    refine ⟨h1.splitBucket hind1 hfull1 hlt1, ?_, ?_, ?_, ?_, ?_⟩
    · intro x
      rw [h1.splitBucket_mem hind1 hfull1 hlt1, h.double_dir_mem]
    · rw [f2]; rfl
    · rw [f1, EH_set.double_dir_global_depth]; omega
    · rw [f1]; exact ht.1
    · rw [f1]; exact ht.2
  · rw [if_neg hd]
    have hlt : (s.bucketAt (hash k % 2 ^ s.global_depth)).local_depth < s.global_depth := by
      omega
    obtain ⟨f1, f2, _, _⟩ := splitBucket_fields h hind
    have ht := h.splitBucket_target hind hfull hlt k rfl
    refine ⟨h.splitBucket hind hfull hlt, h.splitBucket_mem hind hfull hlt, f2, ?_, ?_, ?_⟩
    · rw [f1]; omega
    · rw [f1]; exact ht.1
    · rw [f1]; exact ht.2

/-! ## Updating one bucket in place -/

theorem Inv.store_bucketAt {hash : Key → Nat} {N : Nat} {s : EH_set Key} (h : Inv hash N s)
    {ind : Nat} (hind : ind < 2 ^ s.global_depth) (b : Bucket Key) {j : Nat}
    (_hj : j < 2 ^ s.global_depth) :
    (s.slot j = s.slot ind → (s.store (s.slot ind) b).bucketAt j = b)
      ∧ (s.slot j ≠ s.slot ind → (s.store (s.slot ind) b).bucketAt j = s.bucketAt j) := by
  obtain ⟨a, hslot, ha⟩ := h.valid ind hind
  constructor
  · intro e
    rw [EH_set.bucketAt, EH_set.store_slot, e, hslot, EH_set.deref_store_same _ _ _ ha]
  · intro e
    rw [EH_set.bucketAt, EH_set.store_slot, EH_set.deref_store_ne _ _ _ _ (Ne.symm e),
      EH_set.bucketAt]

theorem Inv.store {hash : Key → Nat} {N : Nat} {s : EH_set Key} (h : Inv hash N s)
    {ind : Nat} (hind : ind < 2 ^ s.global_depth) (b : Bucket Key)
    (hld : b.local_depth = (s.bucketAt ind).local_depth) (hlen : b.keys.length = N)
    (hcnt : b.count ≤ N) (hnd : b.stored.Nodup)
    (hroute : ∀ x ∈ b.stored,
      hash x % 2 ^ b.local_depth = ind % 2 ^ b.local_depth) :
    Inv hash N (s.store (s.slot ind) b) := by
  have hb := fun j (hj : j < 2 ^ s.global_depth) => h.store_bucketAt hind b hj
  have hsame : ∀ j, j < 2 ^ s.global_depth → s.slot j = s.slot ind →
      s.bucketAt j = s.bucketAt ind := by
    intro j _ e
    rw [EH_set.bucketAt, e, EH_set.bucketAt]
  have hld2 : ∀ j, j < 2 ^ s.global_depth →
      ((s.store (s.slot ind) b).bucketAt j).local_depth = (s.bucketAt j).local_depth := by
    intro j hj
    by_cases e : s.slot j = s.slot ind
    · rw [(hb j hj).1 e, hld, hsame j hj e]
    · rw [(hb j hj).2 e]
  constructor
  · simpa using h.gd_pos
  · simpa using h.dir_len
  · intro j hj
    simpa using h.valid j (by simpa using hj)
  · intro j hj
    rw [EH_set.store_global_depth] at hj
    rw [hld2 j hj]; exact h.ld_pos j hj
  · intro j hj
    rw [EH_set.store_global_depth] at hj ⊢
    rw [hld2 j hj]; exact h.ld_le j hj
  · intro i j hi hj
    rw [EH_set.store_global_depth] at hi hj
    rw [hld2 i hi, EH_set.store_slot, EH_set.store_slot]
    exact h.slot_eq i j hi hj
  · intro j hj
    rw [EH_set.store_global_depth] at hj
    by_cases e : s.slot j = s.slot ind
    · rw [(hb j hj).1 e]; exact hlen
    · rw [(hb j hj).2 e]; exact h.keys_len j hj
  · intro j hj
    rw [EH_set.store_global_depth] at hj
    by_cases e : s.slot j = s.slot ind
    · rw [(hb j hj).1 e]; exact hcnt
    · rw [(hb j hj).2 e]; exact h.count_le j hj
  · intro j hj
    rw [EH_set.store_global_depth] at hj
    by_cases e : s.slot j = s.slot ind
    · rw [(hb j hj).1 e]; exact hnd
    · rw [(hb j hj).2 e]; exact h.nodup j hj
  · intro j hj
    rw [EH_set.store_global_depth] at hj
    by_cases e : s.slot j = s.slot ind
    · rw [(hb j hj).1 e]
      intro x hx
      rw [hroute x hx, hld]
      have := (h.slot_eq ind j hind hj).1 e.symm
      exact this
    · rw [(hb j hj).2 e]; exact h.route j hj

theorem Inv.store_mem {hash : Key → Nat} {N : Nat} {s : EH_set Key} (h : Inv hash N s)
    {ind : Nat} (hind : ind < 2 ^ s.global_depth) (b : Bucket Key)
    (hld : b.local_depth = (s.bucketAt ind).local_depth) (hlen : b.keys.length = N)
    (hcnt : b.count ≤ N) (hnd : b.stored.Nodup)
    (hroute : ∀ x ∈ b.stored,
      hash x % 2 ^ b.local_depth = ind % 2 ^ b.local_depth) (x : Key) :
    x ∈ (s.store (s.slot ind) b).elems
      ↔ x ∈ b.stored ∨ (x ∈ s.elems ∧ x ∉ (s.bucketAt ind).stored) := by
  have h' := h.store hind b hld hlen hcnt hnd hroute
  have hj : hash x % 2 ^ s.global_depth < 2 ^ s.global_depth := Nat.mod_lt _ (by positivity)
  rw [h'.mem_elems_iff, h.mem_elems_iff, EH_set.store_global_depth]
  by_cases e : s.slot (hash x % 2 ^ s.global_depth) = s.slot ind
  · rw [(h.store_bucketAt hind b hj).1 e]
    have : s.bucketAt (hash x % 2 ^ s.global_depth) = s.bucketAt ind := by
      rw [EH_set.bucketAt, e, EH_set.bucketAt]
    rw [this]
    tauto
  · rw [(h.store_bucketAt hind b hj).2 e]
    have n1 : x ∉ b.stored := by
      intro hx
      apply e
      rw [eq_comm, h.slot_eq ind _ hind hj, mod_mod_pow_le _ (h.ld_le ind hind), ← hld]
      exact (hroute x hx).symm
    have n2 : x ∉ (s.bucketAt ind).stored := by
      intro hx
      exact e (h.slot_home hind hx).symm
    tauto

/-! ## The recursion of `add` -/

theorem EH_set.add_succ (hash : Key → Nat) (N : Nat) (fuel : Nat) (s : EH_set Key) (k : Key) :
    s.add hash N (fuel + 1) k =
      if (s.bucketAt (hash k % 2 ^ s.global_depth)).count < N then
        some (s.store (s.slot (hash k % 2 ^ s.global_depth))
          ((s.bucketAt (hash k % 2 ^ s.global_depth)).insert N k).1)
      else (s.split hash N (hash k % 2 ^ s.global_depth)).add hash N fuel k := by
  simp only [EH_set.add, mask_eq, EH_set.bucketAt]

theorem EH_set.add_fuel_succ (hash : Key → Nat) (N : Nat) (k : Key) :
    ∀ (fuel : Nat) (s s' : EH_set Key), s.add hash N fuel k = some s' →
      s.add hash N (fuel + 1) k = some s' := by
  intro fuel
  induction fuel with
  | zero => intro s s' h; simp [EH_set.add] at h
  | succ n ih =>
    intro s s' h
    rw [EH_set.add_succ] at h ⊢
    split
    · rename_i hc; rw [if_pos hc] at h; exact h
    · rename_i hc; rw [if_neg hc] at h; exact ih _ _ h

theorem EH_set.add_fuel_mono (hash : Key → Nat) (N : Nat) (k : Key) {fuel fuel' : Nat}
    (hle : fuel ≤ fuel') {s s' : EH_set Key} (h : s.add hash N fuel k = some s') :
    s.add hash N fuel' k = some s' := by
  induction hle with
  | refl => exact h
  | step _ ih => exact EH_set.add_fuel_succ hash N k _ _ _ ih

theorem Bucket.stored_length {b : Bucket Key} (h : b.count ≤ b.keys.length) :
    b.stored.length = b.count := by
  unfold Bucket.stored
  exact List.length_take_of_le h

theorem Inv.bucket_stored_length {hash : Key → Nat} {N : Nat} {s : EH_set Key} (h : Inv hash N s)
    {i : Nat} (hi : i < 2 ^ s.global_depth) :
    (s.bucketAt i).stored.length = (s.bucketAt i).count :=
  Bucket.stored_length (h.count_le_len hi)

/-- Direct insertion into the target bucket (the `count < N` branch of `add`). -/
theorem Inv.add_direct {hash : Key → Nat} {N : Nat} {s : EH_set Key} (h : Inv hash N s)
    (k : Key) (hk : k ∉ s.elems)
    (hc : (s.bucketAt (hash k % 2 ^ s.global_depth)).count < N) :
    Inv hash N (s.store (s.slot (hash k % 2 ^ s.global_depth))
        ((s.bucketAt (hash k % 2 ^ s.global_depth)).insert N k).1)
      ∧ ∀ x, x ∈ (s.store (s.slot (hash k % 2 ^ s.global_depth))
          ((s.bucketAt (hash k % 2 ^ s.global_depth)).insert N k).1).elems
        ↔ x = k ∨ x ∈ s.elems := by
  have hind : hash k % 2 ^ s.global_depth < 2 ^ s.global_depth := Nat.mod_lt _ (by positivity)
  obtain ⟨e1, e2, e3, e4, _⟩ := Bucket.insert_spec (N := N)
    (b := s.bucketAt (hash k % 2 ^ s.global_depth)) k (h.keys_len _ hind) hc
  have hk2 : k ∉ (s.bucketAt (hash k % 2 ^ s.global_depth)).stored := by
    rwa [← h.mem_elems_iff]
  have hnd : ((s.bucketAt (hash k % 2 ^ s.global_depth)).insert N k).1.stored.Nodup := by
    rw [e1]
    exact List.Nodup.append (h.nodup _ hind) (List.nodup_singleton k)
      (by simpa using hk2)
  have hroute : ∀ x ∈ ((s.bucketAt (hash k % 2 ^ s.global_depth)).insert N k).1.stored,
      hash x % 2 ^ ((s.bucketAt (hash k % 2 ^ s.global_depth)).insert N k).1.local_depth
        = hash k % 2 ^ s.global_depth
          % 2 ^ ((s.bucketAt (hash k % 2 ^ s.global_depth)).insert N k).1.local_depth := by
    intro x hx
    rw [e2]
    rw [e1, List.mem_append, List.mem_singleton] at hx
    rcases hx with hx | rfl
    · exact h.route _ hind x hx
    · rw [mod_mod_pow_le _ (h.ld_le _ hind)]
  refine ⟨h.store hind _ e2 e3 (by omega) hnd hroute, ?_⟩
  intro x
  rw [h.store_mem hind _ e2 e3 (by omega) hnd hroute, e1, List.mem_append, List.mem_singleton]
  constructor
  · rintro ((hx | hx) | ⟨hx, _⟩)
    · exact Or.inr (h.mem_elems_of_mem hind hx)
    · exact Or.inl hx
    · exact Or.inr hx
  · rintro (hx | hx)
    · exact Or.inl (Or.inr hx)
    · by_cases hm : x ∈ (s.bucketAt (hash k % 2 ^ s.global_depth)).stored
      · exact Or.inl (Or.inl hm)
      · exact Or.inr ⟨hx, hm⟩

/-- Effect of `add` when it returns. -/
theorem Inv.add {hash : Key → Nat} {N : Nat} (k : Key) :
    ∀ (fuel : Nat) (s s' : EH_set Key), Inv hash N s → k ∉ s.elems →
      s.add hash N fuel k = some s' →
      Inv hash N s' ∧ (∀ x, x ∈ s'.elems ↔ x = k ∨ x ∈ s.elems)
        ∧ s'.curr_size = s.curr_size ∧ s.global_depth ≤ s'.global_depth := by
  intro fuel
  induction fuel with
  | zero => intro s s' _ _ h; simp [EH_set.add] at h
  | succ n ih =>
    intro s s' h hk hadd
    have hind : hash k % 2 ^ s.global_depth < 2 ^ s.global_depth := Nat.mod_lt _ (by positivity)
    rw [EH_set.add_succ] at hadd
    by_cases hc : (s.bucketAt (hash k % 2 ^ s.global_depth)).count < N
    · rw [if_pos hc] at hadd
      cases hadd
      obtain ⟨g1, g2⟩ := h.add_direct k hk hc
      exact ⟨g1, g2, by simp, by simp⟩
    · rw [if_neg hc] at hadd
      have hfull : (s.bucketAt (hash k % 2 ^ s.global_depth)).count = N :=
        le_antisymm (h.count_le _ hind) (Nat.le_of_not_lt hc)
      obtain ⟨q1, q2, q3, q4, _, _⟩ := h.split_spec k hfull
      obtain ⟨g1, g2, g3, g4⟩ := ih _ _ q1 (by rw [q2]; exact hk) hadd
      refine ⟨g1, ?_, by rw [g3, q3], ?_⟩
      · intro x; rw [g2, q2]
      · rw [q4] at g4; omega

/-- Termination of `add`: when the target bucket has room, or holds a key whose
hash differs from the hash of the new key within the low `m` bits, `add` returns
after at most `m - local_depth` splits. -/
theorem Inv.add_terminates {hash : Key → Nat} {N : Nat} (k : Key) (m : Nat) :
    ∀ (d : Nat) (s : EH_set Key), Inv hash N s →
      m - (s.bucketAt (hash k % 2 ^ s.global_depth)).local_depth ≤ d →
      ((s.bucketAt (hash k % 2 ^ s.global_depth)).count < N
        ∨ ∃ x ∈ (s.bucketAt (hash k % 2 ^ s.global_depth)).stored,
            hash x % 2 ^ m ≠ hash k % 2 ^ m) →
      ∃ s', s.add hash N (d + 1) k = some s' ∧ s'.global_depth ≤ max s.global_depth m := by
  intro d
  induction d with
  | zero =>
    intro s h hd hcond
    have hind : hash k % 2 ^ s.global_depth < 2 ^ s.global_depth := Nat.mod_lt _ (by positivity)
    rw [EH_set.add_succ]
    by_cases hc : (s.bucketAt (hash k % 2 ^ s.global_depth)).count < N
    · rw [if_pos hc]
      exact ⟨_, rfl, by simp⟩
    · exfalso
      rcases hcond with hc2 | ⟨x, hx, hne⟩
      · exact hc hc2
      · apply hne
        have r := h.route _ hind x hx
        rw [mod_mod_pow_le _ (h.ld_le _ hind)] at r
        exact mod_eq_of_mod_eq_pow (by omega) r
  | succ d ih =>
    intro s h hd hcond
    have hind : hash k % 2 ^ s.global_depth < 2 ^ s.global_depth := Nat.mod_lt _ (by positivity)
    rw [EH_set.add_succ]
    by_cases hc : (s.bucketAt (hash k % 2 ^ s.global_depth)).count < N
    · rw [if_pos hc]
      exact ⟨_, rfl, by simp⟩
    · rw [if_neg hc]
      have hfull : (s.bucketAt (hash k % 2 ^ s.global_depth)).count = N :=
        le_antisymm (h.count_le _ hind) (Nat.le_of_not_lt hc)
      rcases hcond with hc2 | ⟨x, hx, hne⟩
      · exact absurd hc2 hc
      · have r := h.route _ hind x hx
        rw [mod_mod_pow_le _ (h.ld_le _ hind)] at r
        have hmt : (s.bucketAt (hash k % 2 ^ s.global_depth)).local_depth < m := by
          by_contra hle
          exact hne (mod_eq_of_mod_eq_pow (by omega) r)
        obtain ⟨q1, q2, q3, q4, q5, q6⟩ := h.split_spec k hfull
        have hind1 : hash k % 2 ^ (s.split hash N (hash k % 2 ^ s.global_depth)).global_depth
            < 2 ^ (s.split hash N (hash k % 2 ^ s.global_depth)).global_depth :=
          Nat.mod_lt _ (by positivity)
        have hcond1 : ((s.split hash N (hash k % 2 ^ s.global_depth)).bucketAt
            (hash k % 2 ^ (s.split hash N (hash k % 2 ^ s.global_depth)).global_depth)).count < N
            ∨ ∃ x ∈ ((s.split hash N (hash k % 2 ^ s.global_depth)).bucketAt
              (hash k % 2 ^ (s.split hash N (hash k % 2 ^ s.global_depth)).global_depth)).stored,
              hash x % 2 ^ m ≠ hash k % 2 ^ m := by
          by_cases hp : (hashBit hash (s.bucketAt (hash k % 2 ^ s.global_depth)).local_depth x
              == hashBit hash (s.bucketAt (hash k % 2 ^ s.global_depth)).local_depth k) = true
          · right
            refine ⟨x, ?_, hne⟩
            rw [q5, List.mem_filter]
            exact ⟨hx, hp⟩
          · left
            rw [← q1.bucket_stored_length hind1, q5, ← hfull, ← h.bucket_stored_length hind]
            exact List.length_filter_lt_length_iff_exists.2 ⟨x, hx, hp⟩
        obtain ⟨s', g1, g2⟩ := ih _ q1 (by rw [q6]; omega) hcond1
        refine ⟨s', g1, le_trans g2 (max_le ?_ (le_max_right _ _))⟩
        rw [q4]
        exact max_le (le_max_left _ _) (le_trans hmt (le_max_right _ _))

/-- Non-termination of `add`: when the target bucket is full of keys that all
have the hash of the new key, no amount of fuel suffices. -/
theorem Inv.add_diverges {hash : Key → Nat} {N : Nat} (k : Key) :
    ∀ (fuel : Nat) (s : EH_set Key), Inv hash N s →
      (s.bucketAt (hash k % 2 ^ s.global_depth)).count = N →
      (∀ x ∈ (s.bucketAt (hash k % 2 ^ s.global_depth)).stored, hash x = hash k) →
      s.add hash N fuel k = none := by
  intro fuel
  induction fuel with
  | zero => intro s _ _ _; rfl
  | succ n ih =>
    intro s h hfull hall
    have hind : hash k % 2 ^ s.global_depth < 2 ^ s.global_depth := Nat.mod_lt _ (by positivity)
    rw [EH_set.add_succ, if_neg (by omega)]
    obtain ⟨q1, q2, q3, q4, q5, q6⟩ := h.split_spec k hfull
    have hind1 : hash k % 2 ^ (s.split hash N (hash k % 2 ^ s.global_depth)).global_depth
        < 2 ^ (s.split hash N (hash k % 2 ^ s.global_depth)).global_depth :=
      Nat.mod_lt _ (by positivity)
    have hfilter : (s.bucketAt (hash k % 2 ^ s.global_depth)).stored.filter
        (fun x => hashBit hash (s.bucketAt (hash k % 2 ^ s.global_depth)).local_depth x
          == hashBit hash (s.bucketAt (hash k % 2 ^ s.global_depth)).local_depth k)
        = (s.bucketAt (hash k % 2 ^ s.global_depth)).stored := by
      rw [List.filter_eq_self]
      intro x hx
      simp [hashBit, hall x hx]
    rw [hfilter] at q5
    apply ih _ q1
    · rw [← q1.bucket_stored_length hind1, q5, h.bucket_stored_length hind, hfull]
    · rw [q5]; exact hall

/-! ## Lookup: `find`, `count` and the iterator made from a key -/

theorem Inv.ofKey_ptr {hash : Key → Nat} {N : Nat} {s : EH_set Key} (h : Inv hash N s)
    (k : Key) {a : Nat} (ha : s.slot (hash k % 2 ^ s.global_depth) = some a) :
    (Iterator.ofKey hash s k).ptr
      = ((s.bucketAt (hash k % 2 ^ s.global_depth)).find k).map (fun j => (a, j)) := by
  have hind : hash k % 2 ^ s.global_depth < 2 ^ s.global_depth := Nat.mod_lt _ (by positivity)
  have hs : s.slot (hash k % 2 ^ s.global_depth
      % 2 ^ (s.bucketAt (hash k % 2 ^ s.global_depth)).local_depth) = some a := by
    rw [← ha, eq_comm]
    exact (h.slot_eq _ _ hind (h.canon_lt hind)).2 (by rw [Nat.mod_mod])
  simp only [Iterator.ofKey, mask_eq, hs]
  rw [EH_set.bucketAt, ha]

theorem Inv.find_ptr {hash : Key → Nat} {N : Nat} {s : EH_set Key} (h : Inv hash N s)
    (k : Key) {a : Nat} (ha : s.slot (hash k % 2 ^ s.global_depth) = some a) :
    (s.find hash k).ptr
      = ((s.bucketAt (hash k % 2 ^ s.global_depth)).find k).map (fun j => (a, j)) := by
  unfold EH_set.find
  simp only [mask_eq]
  rw [← EH_set.bucketAt]
  split
  · exact h.ofKey_ptr k ha
  · rename_i hn
    have : (s.bucketAt (hash k % 2 ^ s.global_depth)).find k = none := by
      cases hf : (s.bucketAt (hash k % 2 ^ s.global_depth)).find k with
      | none => rfl
      | some j => rw [hf] at hn; simp at hn
    rw [this]; rfl

theorem Inv.find_isSome_iff_elems {hash : Key → Nat} {N : Nat} {s : EH_set Key} (h : Inv hash N s)
    (k : Key) :
    ((s.bucketAt (hash k % 2 ^ s.global_depth)).find k).isSome ↔ k ∈ s.elems := by
  have hind : hash k % 2 ^ s.global_depth < 2 ^ s.global_depth := Nat.mod_lt _ (by positivity)
  rw [Bucket.find_isSome_iff (h.count_le_len hind), h.mem_elems_iff]

theorem Inv.count_eq {hash : Key → Nat} {N : Nat} {s : EH_set Key} (h : Inv hash N s)
    (k : Key) : s.count hash k = if k ∈ s.elems then 1 else 0 := by
  have hind : hash k % 2 ^ s.global_depth < 2 ^ s.global_depth := Nat.mod_lt _ (by positivity)
  obtain ⟨a, ha, _⟩ := h.valid _ hind
  have hiff := h.find_isSome_iff_elems k
  unfold EH_set.count Iterator.same
  rw [h.find_ptr k ha]
  cases hf : (s.bucketAt (hash k % 2 ^ s.global_depth)).find k with
  | none =>
    rw [hf] at hiff
    have : k ∉ s.elems := fun hk => by simpa using hiff.2 hk
    simp [EH_set.end_, Iterator.nil, this]
  | some j =>
    rw [hf] at hiff
    have : k ∈ s.elems := hiff.1 rfl
    simp [EH_set.end_, Iterator.nil, this]

theorem Inv.count_eq_one_iff {hash : Key → Nat} {N : Nat} {s : EH_set Key} (h : Inv hash N s)
    (k : Key) : s.count hash k = 1 ↔ k ∈ s.elems := by
  rw [h.count_eq]; split <;> simp [*]

theorem Inv.count_eq_zero_iff {hash : Key → Nat} {N : Nat} {s : EH_set Key} (h : Inv hash N s)
    (k : Key) : s.count hash k = 0 ↔ k ∉ s.elems := by
  rw [h.count_eq]; split <;> simp [*]

/-- An iterator made by `find` or by the key constructor for a stored key is not
the end iterator and dereferences to that key. -/
theorem Inv.ofKey_get {hash : Key → Nat} {N : Nat} {s : EH_set Key} (h : Inv hash N s)
    {k : Key} (hk : k ∈ s.elems) :
    (Iterator.ofKey hash s k).ptr ≠ none ∧ (Iterator.ofKey hash s k).get s = k
      ∧ (s.find hash k) = Iterator.ofKey hash s k := by
  have hind : hash k % 2 ^ s.global_depth < 2 ^ s.global_depth := Nat.mod_lt _ (by positivity)
  obtain ⟨a, ha, _⟩ := h.valid _ hind
  have hsome := (h.find_isSome_iff_elems k).2 hk
  obtain ⟨j, hj⟩ := Option.isSome_iff_exists.1 hsome
  have hp := h.ofKey_ptr k ha
  rw [hj] at hp
  refine ⟨by rw [hp]; simp, ?_, ?_⟩
  · unfold Iterator.get
    rw [hp]
    simp only [Option.map_some']
    rw [← ha, ← EH_set.bucketAt]
    exact (Bucket.find_some hj).2
  · unfold EH_set.find
    simp only [mask_eq]
    rw [← EH_set.bucketAt, if_pos hsome]

/-! ## The invariant of the whole set under each operation -/

theorem Inv.with_size {hash : Key → Nat} {N : Nat} {s : EH_set Key} (h : Inv hash N s)
    (c : Nat) : Inv hash N { s with curr_size := c } :=
  ⟨h.gd_pos, h.dir_len, h.valid, h.ld_pos, h.ld_le, h.slot_eq, h.keys_len, h.count_le,
    h.nodup, h.route⟩

theorem EH_set.elems_with_size (s : EH_set Key) (c : Nat) :
    ({ s with curr_size := c } : EH_set Key).elems = s.elems := rfl

theorem EH_set.empty_eq (N : Nat) :
    (EH_set.empty N : EH_set Key)
      = ⟨[Bucket.fresh N, Bucket.fresh N], [some 0, some 1], 0, 1⟩ := by
  rfl

theorem Inv.empty_inv (hash : Key → Nat) (N : Nat) : Inv hash N (EH_set.empty N : EH_set Key) := by
  rw [EH_set.empty_eq]
  have hcases : ∀ i, i < 2 ^ 1 → i = 0 ∨ i = 1 := by intro i hi; omega
  constructor
  · exact le_refl _
  · rfl
  · intro i hi
    rcases hcases i hi with rfl | rfl
    · exact ⟨0, rfl, by simp⟩
    · exact ⟨1, rfl, by simp⟩
  · intro i hi
    rcases hcases i hi with rfl | rfl <;> exact le_refl _
  · intro i hi
    rcases hcases i hi with rfl | rfl <;> exact le_refl _
  · intro i j hi hj
    rcases hcases i hi with rfl | rfl <;> rcases hcases j hj with rfl | rfl <;>
      simp [EH_set.slot, EH_set.bucketAt, EH_set.deref, Bucket.fresh]
  · intro i hi
    rcases hcases i hi with rfl | rfl <;>
      simp [EH_set.slot, EH_set.bucketAt, EH_set.deref, Bucket.fresh]
  · intro i hi
    rcases hcases i hi with rfl | rfl <;>
      simp [EH_set.slot, EH_set.bucketAt, EH_set.deref, Bucket.fresh]
  · intro i hi
    rcases hcases i hi with rfl | rfl <;>
      simp [EH_set.slot, EH_set.bucketAt, EH_set.deref, Bucket.fresh, Bucket.stored]
  · intro i hi
    rcases hcases i hi with rfl | rfl <;>
      simp [EH_set.slot, EH_set.bucketAt, EH_set.deref, Bucket.fresh, Bucket.stored]

theorem EH_set.empty_elems (N : Nat) : (EH_set.empty N : EH_set Key).elems = [] := by
  rw [EH_set.empty_eq]
  simp [EH_set.elems, EH_set.slot, EH_set.bucketAt, EH_set.deref, Bucket.fresh, Bucket.stored,
    List.range_succ]

theorem WF.empty_wf (hash : Key → Nat) (N : Nat) : WF hash N (EH_set.empty N : EH_set Key) :=
  ⟨Inv.empty_inv hash N, by rw [EH_set.empty_elems, EH_set.empty_eq]; rfl⟩

theorem EH_set.clear_eq_some {N : Nat} {s s' : EH_set Key} (h : s.clear N = some s') :
    s' = EH_set.empty N := by
  unfold EH_set.clear at h
  cases hd : s.destroy with
  | none => rw [hd] at h; cases h
  | some l => rw [hd] at h; cases h; rfl

theorem WF.clear (hash : Key → Nat) (N : Nat) {s s' : EH_set Key} (h : s.clear N = some s') :
    WF hash N s' := by
  rw [EH_set.clear_eq_some h]
  exact WF.empty_wf hash N

theorem WF.double_dir_wf {hash : Key → Nat} {N : Nat} {s : EH_set Key} (h : WF hash N s) :
    WF hash N s.double_dir := by
  refine ⟨h.1.double_dir_inv, ?_⟩
  rw [EH_set.double_dir_curr_size, h.2]
  exact ((h.1.elems_perm h.1.double_dir_inv h.1.double_dir_mem).length_eq).symm

/-- Calling `insert` with a key that is already stored changes nothing and returns
`false`. -/
theorem Inv.insert_present {hash : Key → Nat} {N : Nat} {s : EH_set Key} (h : Inv hash N s)
    {k : Key} (hk : k ∈ s.elems) (fuel : Nat) :
    s.insert hash N fuel k = some (s, Iterator.ofKey hash s k, false) := by
  unfold EH_set.insert
  rw [if_neg]
  rw [h.count_eq_zero_iff]
  exact fun hn => hn hk

/-- Calling `insert` with a key that is not stored is `add` followed by `curr_size++`. -/
theorem Inv.insert_absent {hash : Key → Nat} {N : Nat} {s : EH_set Key} (h : Inv hash N s)
    {k : Key} (hk : k ∉ s.elems) (fuel : Nat) :
    s.insert hash N fuel k
      = (s.add hash N fuel k).map fun s1 =>
          ({ s1 with curr_size := s1.curr_size + 1 },
            Iterator.ofKey hash { s1 with curr_size := s1.curr_size + 1 } k, true) := by
  unfold EH_set.insert
  rw [if_pos ((h.count_eq_zero_iff k).2 hk)]
  cases s.add hash N fuel k <;> rfl

theorem WF.insert {hash : Key → Nat} {N : Nat} {s : EH_set Key} (h : WF hash N s)
    {k : Key} {fuel : Nat} {r : EH_set Key × Iterator × Bool}
    (hr : s.insert hash N fuel k = some r) :
    WF hash N r.1 ∧ (∀ x, x ∈ r.1.elems ↔ x = k ∨ x ∈ s.elems)
      ∧ (r.2.2 = true ↔ k ∉ s.elems)
      ∧ (k ∉ s.elems → r.1.curr_size = s.curr_size + 1)
      ∧ (k ∈ s.elems → r.1 = s)
      ∧ r.2.1 = Iterator.ofKey hash r.1 k
      ∧ s.global_depth ≤ r.1.global_depth := by
  by_cases hk : k ∈ s.elems
  · rw [h.1.insert_present hk] at hr
    cases hr
    refine ⟨h, ?_, by simp [hk], fun hn => absurd hk hn, fun _ => rfl, rfl, le_refl _⟩
    intro x
    constructor
    · exact Or.inr
    · rintro (rfl | hx)
      · exact hk
      · exact hx
  · rw [h.1.insert_absent hk] at hr
    cases hadd : s.add hash N fuel k with
    | none => rw [hadd] at hr; cases hr
    | some s1 =>
      rw [hadd] at hr
      cases hr
      obtain ⟨g1, g2, g3, g4⟩ := Inv.add k fuel s s1 h.1 hk hadd
      have hperm : s1.elems.Perm (k :: s.elems) := by
        rw [List.perm_ext_iff_of_nodup g1.nodup_elems (List.nodup_cons.2 ⟨hk, h.1.nodup_elems⟩)]
        intro x
        rw [g2, List.mem_cons]
      refine ⟨⟨g1.with_size _, ?_⟩, g2, by simp [hk], ?_, fun hn => absurd hn hk, rfl, g4⟩
      · show s1.curr_size + 1 = s1.elems.length
        rw [hperm.length_eq, g3, h.2]; rfl
      · intro _
        show s1.curr_size + 1 = s.curr_size + 1
        rw [g3]

/-- Effect of `erase`. -/
theorem WF.erase {hash : Key → Nat} {N : Nat} {s : EH_set Key} (h : WF hash N s) (k : Key) :
    WF hash N (s.erase hash k).1
      ∧ (∀ x, x ∈ (s.erase hash k).1.elems ↔ x ∈ s.elems ∧ x ≠ k)
      ∧ (s.erase hash k).2 = (if k ∈ s.elems then 1 else 0)
      ∧ (s.erase hash k).1.curr_size + (s.erase hash k).2 = s.curr_size
      ∧ (k ∉ s.elems → (s.erase hash k).1 = s)
      ∧ (s.erase hash k).1.global_depth = s.global_depth
      ∧ (s.erase hash k).1.directory = s.directory := by
  have hind : hash k % 2 ^ s.global_depth < 2 ^ s.global_depth := Nat.mod_lt _ (by positivity)
  have herase : s.erase hash k
      = ({ s.store (s.slot (hash k % 2 ^ s.global_depth))
            ((s.bucketAt (hash k % 2 ^ s.global_depth)).erase k).1 with
          curr_size := s.curr_size - ((s.bucketAt (hash k % 2 ^ s.global_depth)).erase k).2 },
        ((s.bucketAt (hash k % 2 ^ s.global_depth)).erase k).2) := by
    simp only [EH_set.erase, mask_eq, EH_set.bucketAt]
  by_cases hk : k ∈ s.elems
  · have hk2 : k ∈ (s.bucketAt (hash k % 2 ^ s.global_depth)).stored := by
      rwa [← h.1.mem_elems_iff]
    obtain ⟨e1, e2, e3, e4, e5, e6⟩ := Bucket.erase_hit (h.1.count_le_len hind)
      (h.1.nodup _ hind) hk2
    have hnd : ((s.bucketAt (hash k % 2 ^ s.global_depth)).erase k).1.stored.Nodup :=
      (e2.nodup_iff).2 ((h.1.nodup _ hind).erase k)
    have hmem : ∀ x, x ∈ ((s.bucketAt (hash k % 2 ^ s.global_depth)).erase k).1.stored
        ↔ x ≠ k ∧ x ∈ (s.bucketAt (hash k % 2 ^ s.global_depth)).stored := by
      intro x
      rw [e2.mem_iff, (h.1.nodup _ hind).mem_erase_iff]
    have hlen : ((s.bucketAt (hash k % 2 ^ s.global_depth)).erase k).1.keys.length = N := by
      rw [e6]; exact h.1.keys_len _ hind
    have hcnt : ((s.bucketAt (hash k % 2 ^ s.global_depth)).erase k).1.count ≤ N := by
      rw [e3]; exact le_trans (Nat.sub_le _ _) (h.1.count_le _ hind)
    have hroute : ∀ x ∈ ((s.bucketAt (hash k % 2 ^ s.global_depth)).erase k).1.stored,
        hash x % 2 ^ ((s.bucketAt (hash k % 2 ^ s.global_depth)).erase k).1.local_depth
          = hash k % 2 ^ s.global_depth
            % 2 ^ ((s.bucketAt (hash k % 2 ^ s.global_depth)).erase k).1.local_depth := by
      intro x hx
      rw [e5]
      exact h.1.route _ hind x ((hmem x).1 hx).2
    have hinv := h.1.store hind _ e5 hlen hcnt hnd hroute
    have hm : ∀ x, x ∈ (s.store (s.slot (hash k % 2 ^ s.global_depth))
        ((s.bucketAt (hash k % 2 ^ s.global_depth)).erase k).1).elems ↔ x ∈ s.elems ∧ x ≠ k := by
      intro x
      rw [h.1.store_mem hind _ e5 hlen hcnt hnd hroute, hmem]
      constructor
      · rintro (⟨h1, h2⟩ | ⟨h1, h2⟩)
        · exact ⟨h.1.mem_elems_of_mem hind h2, h1⟩
        · exact ⟨h1, fun e => h2 (e ▸ hk2)⟩
      · rintro ⟨h1, h2⟩
        by_cases hx : x ∈ (s.bucketAt (hash k % 2 ^ s.global_depth)).stored
        · exact Or.inl ⟨h2, hx⟩
        · exact Or.inr ⟨h1, hx⟩
    have hperm : (s.store (s.slot (hash k % 2 ^ s.global_depth))
        ((s.bucketAt (hash k % 2 ^ s.global_depth)).erase k).1).elems.Perm (s.elems.erase k) := by
      rw [List.perm_ext_iff_of_nodup hinv.nodup_elems (h.1.nodup_elems.erase k)]
      intro x
      rw [hm, h.1.nodup_elems.mem_erase_iff, and_comm]
    have hpos : 0 < s.elems.length := List.length_pos_of_mem hk
    have hlen2 := hperm.length_eq
    rw [List.length_erase_of_mem hk] at hlen2
    rw [herase]
    refine ⟨⟨hinv.with_size _, ?_⟩, hm, by rw [e1, if_pos hk], ?_, fun hn => absurd hk hn,
      by simp, by simp⟩
    · show s.curr_size - _ = _
      rw [EH_set.elems_with_size, hlen2, e1, h.2]
    · show s.curr_size - _ + _ = _
      rw [e1, h.2]; omega
  · have hk2 : k ∉ (s.bucketAt (hash k % 2 ^ s.global_depth)).stored := by
      rwa [← h.1.mem_elems_iff]
    have e := Bucket.erase_miss (h.1.count_le_len hind) hk2
    have hsame : (s.erase hash k).1 = s := by
      rw [herase, e]
      show ({ s.store (s.slot (hash k % 2 ^ s.global_depth))
        (s.bucketAt (hash k % 2 ^ s.global_depth)) with curr_size := s.curr_size - 0 }
          : EH_set Key) = s
      rw [EH_set.bucketAt, EH_set.store_deref_self]
      rfl
    have hret : (s.erase hash k).2 = 0 := by rw [herase, e]
    rw [hsame, hret]
    refine ⟨h, ?_, by rw [if_neg hk], rfl, fun _ => rfl, rfl, rfl⟩
    intro x
    constructor
    · intro hx
      exact ⟨hx, fun e => hk (e ▸ hx)⟩
    · exact fun hx => hx.1

theorem Reachable.wf {hash : Key → Nat} {N : Nat} {s : EH_set Key}
    (h : Reachable hash N s) : WF hash N s := by
  induction h with
  | empty => exact WF.empty_wf hash N
  | insert _ hr ih => exact (ih.insert hr).1
  | erase k _ ih => exact (ih.erase k).1
  | clear _ hc _ => exact WF.clear hash N hc
  | double_dir _ ih => exact ih.double_dir_wf

/-! ## Traversal -/

theorem EH_set.elems_eq_elemsFrom (s : EH_set Key) : s.elems = s.elemsFrom 0 := by
  unfold EH_set.elems EH_set.elemsFrom
  rw [Nat.sub_zero, List.range_eq_range']
  rfl

theorem EH_set.elemsFrom_of_le (s : EH_set Key) {i : Nat} (h : 2 ^ s.global_depth ≤ i) :
    s.elemsFrom i = [] := by
  unfold EH_set.elemsFrom
  rw [Nat.sub_eq_zero_of_le h]
  rfl

theorem EH_set.elemsFrom_of_lt (s : EH_set Key) {i : Nat} (h : i < 2 ^ s.global_depth) :
    s.elemsFrom i = s.slotKeys i ++ s.elemsFrom (i + 1) := by
  unfold EH_set.elemsFrom
  have : 2 ^ s.global_depth - i = (2 ^ s.global_depth - (i + 1)) + 1 := by omega
  rw [this, List.range'_succ, List.flatMap_cons]

theorem canon_iff (i ld : Nat) : (i &&& ((1 <<< ld) - 1)) = i ↔ i < 2 ^ ld := by
  rw [mask_eq]
  constructor
  · intro h; rw [← h]; exact Nat.mod_lt _ (by positivity)
  · exact Nat.mod_eq_of_lt

/-- What `skip` finds from slot `i` on: nothing, and then no key is stored from
`i` on, or the first canonical slot with a non-empty bucket. -/
theorem Inv.skipLoop_spec {hash : Key → Nat} {N : Nat} {s : EH_set Key} (h : Inv hash N s) :
    ∀ (n : Nat) (it : Iterator), it.dir_size = 2 ^ s.global_depth → it.ptr = none →
      n = it.dir_size - it.buck_ind →
      Iterator.Valid s (Iterator.skipLoop s n it)
        ∧ Iterator.remaining s (Iterator.skipLoop s n it) = s.elemsFrom it.buck_ind := by
  intro n
  induction n with
  | zero =>
    intro it hd hp hn
    simp only [Iterator.skipLoop]
    refine ⟨Or.inl rfl, ?_⟩
    rw [EH_set.elemsFrom_of_le s (by omega)]
    rfl
  | succ n ih =>
    intro it hd hp hn
    have hlt : it.buck_ind < it.dir_size := by omega
    have hlt2 : it.buck_ind < 2 ^ s.global_depth := by omega
    obtain ⟨a, ha, _⟩ := h.valid _ hlt2
    simp only [Iterator.skipLoop]
    rw [if_pos hlt]
    by_cases hc : (s.slot it.buck_ind).isSome
          ∧ (s.bucketAt it.buck_ind).count > 0
          ∧ (it.buck_ind &&& ((1 <<< (s.bucketAt it.buck_ind).local_depth) - 1)) = it.buck_ind
          ∧ it.ptr = none
    · rw [if_pos hc]
      obtain ⟨_, c2, c3, _⟩ := hc
      rw [canon_iff] at c3
      constructor
      · right
        exact ⟨hd, hlt2, a, 0, by simp [ha], ha, c2⟩
      · simp only [Iterator.remaining, ha, Option.map_some', List.drop_zero]
        rw [EH_set.elemsFrom_of_lt s hlt2, EH_set.slotKeys, if_pos c3]
    · rw [if_neg hc]
      have hkeys : s.slotKeys it.buck_ind = [] := by
        unfold EH_set.slotKeys
        split
        · rename_i hcan
          have hcnt : (s.bucketAt it.buck_ind).count = 0 := by
            by_contra hne
            apply hc
            exact ⟨by rw [ha]; rfl, Nat.pos_of_ne_zero hne, (canon_iff _ _).2 hcan, hp⟩
          unfold Bucket.stored
          rw [hcnt]; rfl
        · rfl
      have := ih { it with buck_ind := it.buck_ind + 1 } hd hp (by simp only; omega)
      rw [EH_set.elemsFrom_of_lt s hlt2, hkeys, List.nil_append]
      exact this

theorem Inv.skip_spec {hash : Key → Nat} {N : Nat} {s : EH_set Key} (h : Inv hash N s)
    (it : Iterator) (hd : it.dir_size = 2 ^ s.global_depth) (hp : it.ptr = none) :
    Iterator.Valid s (Iterator.skip s it)
      ∧ Iterator.remaining s (Iterator.skip s it) = s.elemsFrom it.buck_ind :=
  h.skipLoop_spec _ it hd hp rfl

/-- The iterator `begin()` is valid, with every stored key yet to yield. -/
theorem WF.begin_spec {hash : Key → Nat} {N : Nat} {s : EH_set Key} (h : WF hash N s) :
    Iterator.Valid s s.begin_ ∧ Iterator.remaining s s.begin_ = s.elems := by
  unfold EH_set.begin_
  split
  · rename_i h0
    refine ⟨Or.inl rfl, ?_⟩
    have : s.elems.length = 0 := by rw [← h.2, h0]
    rw [List.length_eq_zero.1 this]
    rfl
  · have := h.1.skip_spec { dir_size := 1 <<< s.global_depth, buck_ind := 0, ptr := none }
      (by simp [Nat.one_shiftLeft]) rfl
    rw [EH_set.elems_eq_elemsFrom]
    exact this

/-- One step of a traversal: the iterator yields the head of what remains and
`operator++` leaves a valid iterator on the tail. -/
theorem Inv.iter_step {hash : Key → Nat} {N : Nat} {s : EH_set Key} (h : Inv hash N s)
    {it : Iterator} (hv : Iterator.Valid s it) (hp : it.ptr ≠ none) :
    Iterator.Valid s (it.next s)
      ∧ Iterator.remaining s it = it.get s :: Iterator.remaining s (it.next s) := by
  rcases hv with hv | ⟨hd, hlt, a, j, hptr, ha, hj⟩
  · exact absurd hv hp
  · have hlen := h.bucket_stored_length hlt
    have hcl := h.count_le_len hlt
    have hget : it.get s = (s.bucketAt it.buck_ind).keys.getD j default := by
      unfold Iterator.get
      rw [hptr]
      simp only
      rw [← ha, ← EH_set.bucketAt]
    have hdrop : (s.bucketAt it.buck_ind).stored.drop j
        = it.get s :: (s.bucketAt it.buck_ind).stored.drop (j + 1) := by
      rw [List.drop_eq_getElem_cons (by omega), hget]
      congr 1
      unfold Bucket.stored
      rw [List.getElem_take, List.getD_eq_getElem _ _ (by omega)]
    have hrem : Iterator.remaining s it
        = it.get s :: ((s.bucketAt it.buck_ind).stored.drop (j + 1)
            ++ s.elemsFrom (it.buck_ind + 1)) := by
      unfold Iterator.remaining
      rw [hptr]
      simp only
      rw [hdrop]; rfl
    rw [hrem]
    unfold Iterator.next
    rw [hptr]
    simp only
    by_cases hlast : j + 1 ≥ (s.bucketAt it.buck_ind).count
    · rw [if_pos hlast]
      obtain ⟨g1, g2⟩ := h.skip_spec { it with buck_ind := it.buck_ind + 1, ptr := none } hd rfl
      refine ⟨g1, ?_⟩
      rw [g2, List.drop_of_length_le (by omega)]
      rfl
    · rw [if_neg hlast]
      refine ⟨Or.inr ⟨hd, hlt, a, j + 1, rfl, ha,
        (show j + 1 < (s.bucketAt it.buck_ind).count by omega)⟩, ?_⟩
      rfl

theorem EH_set.traverse_end (s : EH_set Key) (fuel : Nat) {it : Iterator}
    (hp : it.ptr = none) : s.traverse (fuel + 1) it = some [] := by
  simp [EH_set.traverse, Iterator.same, hp, EH_set.end_, Iterator.nil]

theorem Inv.traverse_spec {hash : Key → Nat} {N : Nat} {s : EH_set Key} (h : Inv hash N s) :
    ∀ (fuel : Nat) (it : Iterator), Iterator.Valid s it →
      (Iterator.remaining s it).length < fuel →
      s.traverse fuel it = some (Iterator.remaining s it) := by
  intro fuel
  induction fuel with
  | zero => intro it _ hl; omega
  | succ n ih =>
    intro it hv hl
    by_cases hp : it.ptr = none
    · rw [EH_set.traverse_end s n hp]
      unfold Iterator.remaining
      rw [hp]
    · obtain ⟨g1, g2⟩ := h.iter_step hv hp
      rw [g2] at hl ⊢
      simp only [List.length_cons] at hl
      simp only [EH_set.traverse, Iterator.same, EH_set.end_, Iterator.nil]
      rw [if_neg (by simpa using hp), ih _ g1 (by omega)]
      rfl

/-- A full traversal yields `elems`, with `size() + 1` comparisons against
`end()`. -/
theorem WF.traverse_begin {hash : Key → Nat} {N : Nat} {s : EH_set Key} (h : WF hash N s)
    {fuel : Nat} (hf : s.curr_size < fuel) : s.traverse fuel s.begin_ = some s.elems := by
  obtain ⟨g1, g2⟩ := h.begin_spec
  rw [← g2]
  exact h.1.traverse_spec fuel _ g1 (by rw [g2, ← h.2]; exact hf)

/-! ## Equality of sets -/

theorem Inv.eqLoop_spec {hash : Key → Nat} {N : Nat} {lhs rhs : EH_set Key}
    (hl : Inv hash N lhs) (hr : Inv hash N rhs) :
    ∀ (fuel : Nat) (it : Iterator), Iterator.Valid rhs it →
      (Iterator.remaining rhs it).length < fuel →
      EH_set.eqLoop hash lhs rhs fuel it
        = some ((Iterator.remaining rhs it).all fun x => decide (x ∈ lhs.elems)) := by
  intro fuel
  induction fuel with
  | zero => intro it _ hlen; omega
  | succ n ih =>
    intro it hv hlen
    by_cases hp : it.ptr = none
    · simp [EH_set.eqLoop, Iterator.same, hp, EH_set.end_, Iterator.nil, Iterator.remaining]
    · obtain ⟨g1, g2⟩ := hr.iter_step hv hp
      rw [g2] at hlen ⊢
      simp only [List.length_cons] at hlen
      simp only [EH_set.eqLoop, Iterator.same, EH_set.end_, Iterator.nil]
      rw [if_neg (by simpa using hp)]
      by_cases hm : it.get rhs ∈ lhs.elems
      · rw [if_neg (by rw [hl.count_eq_zero_iff]; exact fun hn => hn hm), ih _ g1 (by omega)]
        simp [hm]
      · rw [if_pos ((hl.count_eq_zero_iff _).2 hm)]
        simp [hm]

/-- What `operator==` computes. -/
theorem WF.operator_eq_spec {hash : Key → Nat} {N : Nat} {lhs rhs : EH_set Key}
    (hl : WF hash N lhs) (hr : WF hash N rhs) {fuel : Nat} (hf : rhs.curr_size < fuel) :
    EH_set.operator_eq hash fuel lhs rhs
      = some (decide (lhs.curr_size = rhs.curr_size)
          && rhs.elems.all fun x => decide (x ∈ lhs.elems)) := by
  unfold EH_set.operator_eq
  by_cases hs : lhs.curr_size = rhs.curr_size
  · rw [if_neg (by simpa using hs)]
    obtain ⟨g1, g2⟩ := hr.begin_spec
    rw [hl.1.eqLoop_spec hr.1 fuel _ g1 (by rw [g2, ← hr.2]; exact hf), g2]
    simp [hs]
  · rw [if_pos hs]
    simp [hs]

/-- Two duplicate-free lists of the same length, one contained in the other,
have the same members. -/
theorem mem_iff_of_subset_of_length {l1 l2 : List Key} (h1 : l1.Nodup)
    (hlen : l2.length = l1.length) (hsub : ∀ x ∈ l1, x ∈ l2) (x : Key) :
    x ∈ l2 ↔ x ∈ l1 := by
  have hsp : l1.Subperm l2 := List.subperm_of_subset h1 hsub
  have hperm : l1.Perm l2 := hsp.perm_of_length_le (by omega)
  exact hperm.mem_iff.symm

theorem WF.same_elems_iff {hash : Key → Nat} {N : Nat} {lhs rhs : EH_set Key}
    (hl : WF hash N lhs) (hr : WF hash N rhs) :
    (lhs.curr_size = rhs.curr_size ∧ ∀ x ∈ rhs.elems, x ∈ lhs.elems)
      ↔ ∀ x, x ∈ lhs.elems ↔ x ∈ rhs.elems := by
  constructor
  · rintro ⟨hs, hsub⟩ x
    exact mem_iff_of_subset_of_length hr.1.nodup_elems (by rw [← hl.2, ← hr.2, hs]) hsub x
  · intro hm
    refine ⟨?_, fun x hx => (hm x).2 hx⟩
    rw [hl.2, hr.2]
    exact ((List.perm_ext_iff_of_nodup hl.1.nodup_elems hr.1.nodup_elems).2 hm).length_eq

/-! ## Sequences of calls -/

theorem WF.step_wf {hash : Key → Nat} {N : Nat} {fuel : Nat} {s s' : EH_set Key}
    (h : WF hash N s) (op : Op Key) (hs : s.step hash N fuel op = some s')
    (m : Finset Key) (hm : ∀ x, x ∈ s.elems ↔ x ∈ m) :
    WF hash N s' ∧ ∀ x, x ∈ s'.elems ↔ x ∈ Op.model m op := by
  cases op with
  | insert k =>
    simp only [EH_set.step, Option.map_eq_some'] at hs
    obtain ⟨r, hr, rfl⟩ := hs
    obtain ⟨g1, g2, _⟩ := h.insert hr
    refine ⟨g1, fun x => ?_⟩
    rw [g2, hm]
    simp [Op.model]
  | erase k =>
    simp only [EH_set.step, Option.some.injEq] at hs
    subst hs
    obtain ⟨g1, g2, _⟩ := h.erase k
    refine ⟨g1, fun x => ?_⟩
    rw [g2, hm]
    simp [Op.model, and_comm]
  | clear =>
    simp only [EH_set.step] at hs
    refine ⟨WF.clear hash N hs, fun x => ?_⟩
    rw [EH_set.clear_eq_some hs]
    simp [Op.model, EH_set.empty_elems]

theorem WF.run_wf {hash : Key → Nat} {N : Nat} {fuel : Nat} :
    ∀ (ops : List (Op Key)) (s s' : EH_set Key), WF hash N s →
      EH_set.run hash N fuel s ops = some s' →
      ∀ (m : Finset Key), (∀ x, x ∈ s.elems ↔ x ∈ m) →
        WF hash N s' ∧ ∀ x, x ∈ s'.elems ↔ x ∈ modelRun m ops := by
  intro ops
  induction ops with
  | nil =>
    intro s s' h hr m hm
    simp only [EH_set.run, Option.some.injEq] at hr
    subst hr
    exact ⟨h, hm⟩
  | cons op ops ih =>
    intro s s' h hr m hm
    simp only [EH_set.run] at hr
    cases hs : s.step hash N fuel op with
    | none => rw [hs] at hr; cases hr
    | some s1 =>
      rw [hs] at hr
      obtain ⟨g1, g2⟩ := h.step_wf op hs m hm
      exact ih s1 s' g1 hr _ g2

theorem Reachable.step_reachable {hash : Key → Nat} {N : Nat} {fuel : Nat} {s s' : EH_set Key}
    (h : Reachable hash N s) (op : Op Key) (hs : s.step hash N fuel op = some s') :
    Reachable hash N s' := by
  cases op with
  | insert k =>
    simp only [EH_set.step, Option.map_eq_some'] at hs
    obtain ⟨r, hr, rfl⟩ := hs
    exact Reachable.insert h hr
  | erase k =>
    simp only [EH_set.step, Option.some.injEq] at hs
    subst hs
    exact Reachable.erase k h
  | clear =>
    simp only [EH_set.step] at hs
    exact Reachable.clear h hs

theorem Reachable.run_reachable {hash : Key → Nat} {N : Nat} {fuel : Nat} :
    ∀ (ops : List (Op Key)) (s s' : EH_set Key), Reachable hash N s →
      EH_set.run hash N fuel s ops = some s' → Reachable hash N s' := by
  intro ops
  induction ops with
  | nil =>
    intro s s' h hr
    simp only [EH_set.run, Option.some.injEq] at hr
    subst hr
    exact h
  | cons op ops ih =>
    intro s s' h hr
    simp only [EH_set.run] at hr
    cases hs : s.step hash N fuel op with
    | none => rw [hs] at hr; cases hr
    | some s1 =>
      rw [hs] at hr
      exact ih s1 s' (h.step_reachable op hs) hr

theorem Reachable.insertRange {hash : Key → Nat} {N : Nat} (fuel : Nat) :
    ∀ (ks : List Key) (s s' : EH_set Key), Reachable hash N s →
      s.insertRange hash N fuel ks = some s' →
      Reachable hash N s' ∧ ∀ x, x ∈ s'.elems ↔ x ∈ ks ∨ x ∈ s.elems := by
  intro ks
  induction ks with
  | nil =>
    intro s s' h hr
    simp only [EH_set.insertRange, Option.some.injEq] at hr
    subst hr
    exact ⟨h, by simp⟩
  | cons k ks ih =>
    intro s s' h hr
    simp only [EH_set.insertRange] at hr
    cases hs : s.insert hash N fuel k with
    | none => rw [hs] at hr; cases hr
    | some r =>
      rw [hs] at hr
      obtain ⟨g1, g2⟩ := ih r.1 s' (Reachable.insert h hs) hr
      refine ⟨g1, fun x => ?_⟩
      rw [g2, (h.wf.insert hs).2.1, List.mem_cons]
      tauto

theorem WF.size_eq_card {hash : Key → Nat} {N : Nat} {s : EH_set Key} (h : WF hash N s)
    (m : Finset Key) (hm : ∀ x, x ∈ s.elems ↔ x ∈ m) : s.size = m.card := by
  have : s.elems.toFinset = m := by
    ext x
    rw [List.mem_toFinset, hm]
  rw [← this, List.toFinset_card_of_nodup h.1.nodup_elems]
  exact h.2

theorem WF.count_congr {hash : Key → Nat} {N : Nat} {s s' : EH_set Key} (h : WF hash N s)
    (h' : WF hash N s') {k : Key} (hm : k ∈ s'.elems ↔ k ∈ s.elems) :
    s'.count hash k = s.count hash k := by
  rw [h.1.count_eq, h'.1.count_eq]
  by_cases hk : k ∈ s.elems
  · rw [if_pos hk, if_pos (hm.2 hk)]
  · rw [if_neg hk, if_neg (fun x => hk (hm.1 x))]

/-! ## The concrete instances are reachable -/

theorem exSet_reachable : Reachable exHash 2 exSet :=
  (Reachable.insertRange 3 [0, 4, 2, 6, 1] _ _ Reachable.empty (by decide)).1

theorem exSetRev_reachable : Reachable exHash 2 exSetRev :=
  (Reachable.insertRange 3 [1, 6, 4, 2, 0] _ _ Reachable.empty (by decide)).1

theorem exSetTen_reachable : Reachable exHash 2 exSetTen :=
  (Reachable.insertRange 3 [10] _ _ exSet_reachable (by decide)).1

theorem collideSet_reachable : Reachable constHash 1 collideSet :=
  (Reachable.insertRange 1 [0] _ _ Reachable.empty (by decide)).1

theorem collideSet_reachable_ex : Reachable exHash 1 collideSet :=
  (Reachable.insertRange 1 [0] _ _ Reachable.empty (by decide)).1

/-- C1: the container refines a finite set.  After any sequence of `insert`,
`erase` and `clear` calls on a freshly constructed set, all of which return (an
`insert` whose `add` stops and a `clear` whose destructor reads no deleted
bucket),
`count(k)` is 1 exactly for the keys of the model set obtained by the same calls
on the empty set and 0 for all other keys, and `size()` is the cardinality of the
model set; moreover an insertion, whatever splits and doublings it performs,
leaves `count` of every other key as it was. -/
theorem C1_refines_finite_set {hash : Key → Nat} {N fuel : Nat} (ops : List (Op Key))
    (s : EH_set Key) (h : EH_set.run hash N fuel (EH_set.empty N) ops = some s) :
    (∀ k, s.count hash k = 1 ↔ k ∈ modelRun ∅ ops)
      ∧ (∀ k, k ∉ modelRun ∅ ops → s.count hash k = 0)
      ∧ s.size = (modelRun ∅ ops).card
      ∧ ∀ (k0 : Key) (fuel1 : Nat) (r : EH_set Key × Iterator × Bool),
          s.insert hash N fuel1 k0 = some r →
          ∀ k, k ≠ k0 → r.1.count hash k = s.count hash k := by
  obtain ⟨hwf, hm⟩ := WF.run_wf ops _ s (WF.empty_wf hash N) h ∅
    (by intro x; rw [EH_set.empty_elems]; simp)
  refine ⟨fun k => ?_, fun k hk => ?_, hwf.size_eq_card _ hm, ?_⟩
  · rw [hwf.1.count_eq_one_iff, hm]
  · rw [hwf.1.count_eq_zero_iff, hm]; exact hk
  · intro k0 fuel1 r hr k hk
    obtain ⟨g1, g2, _⟩ := hwf.insert hr
    apply hwf.count_congr g1
    rw [g2]
    constructor
    · rintro (e | e)
      · exact absurd e hk
      · exact e
    · exact Or.inr

theorem C1_witness :
    EH_set.run exHash 2 3 (EH_set.empty 2) exOpsClear = some exRunClearSet
      ∧ ((∀ k, exRunClearSet.count exHash k = 1 ↔ k ∈ modelRun ∅ exOpsClear)
        ∧ (∀ k, k ∉ modelRun ∅ exOpsClear → exRunClearSet.count exHash k = 0)
        ∧ exRunClearSet.size = (modelRun ∅ exOpsClear).card
        ∧ ∀ (k0 : Nat) (fuel1 : Nat) (r : EH_set Nat × Iterator × Bool),
            exRunClearSet.insert exHash 2 fuel1 k0 = some r →
            ∀ k, k ≠ k0 → r.1.count exHash k = exRunClearSet.count exHash k) :=
  ⟨by decide, C1_refines_finite_set exOpsClear exRunClearSet
    (show EH_set.run exHash 2 3 (EH_set.empty 2) exOpsClear = some exRunClearSet by decide)⟩

/-- C2: membership after insert.  When `insert(k)` returns on a reachable set,
then afterwards `count(k)` is 1, `find(k)` is not the end iterator and
dereferences to `k`, and the iterator returned by `insert` dereferences to `k`
as well, with or without splits and doublings. -/
theorem C2_membership_after_insert {hash : Key → Nat} {N fuel : Nat} {s : EH_set Key}
    {k : Key} {r : EH_set Key × Iterator × Bool} (hR : Reachable hash N s)
    (h : s.insert hash N fuel k = some r) :
    r.1.count hash k = 1
      ∧ Iterator.same (r.1.find hash k) r.1.end_ = false
      ∧ (r.1.find hash k).get r.1 = k
      ∧ r.2.1.get r.1 = k := by
  obtain ⟨g1, g2, _, _, _, g6, _⟩ := hR.wf.insert h
  have hk : k ∈ r.1.elems := (g2 k).2 (Or.inl rfl)
  obtain ⟨p1, p2, p3⟩ := g1.1.ofKey_get hk
  refine ⟨(g1.1.count_eq_one_iff k).2 hk, ?_, by rw [p3]; exact p2, by rw [g6]; exact p2⟩
  rw [p3]
  simpa [Iterator.same, EH_set.end_, Iterator.nil] using p1

theorem C2_witness :
    Reachable exHash 2 exSet
      ∧ exSet.insert exHash 2 3 10 = some (exSetTen, ⟨8, 2, some (2, 1)⟩, true)
      ∧ (exSetTen.count exHash 10 = 1
        ∧ Iterator.same (exSetTen.find exHash 10) exSetTen.end_ = false
        ∧ (exSetTen.find exHash 10).get exSetTen = 10
        ∧ (⟨8, 2, some (2, 1)⟩ : Iterator).get exSetTen = 10) :=
  ⟨exSet_reachable, by decide,
    C2_membership_after_insert exSet_reachable
      (show exSet.insert exHash 2 3 10 = some (exSetTen, ⟨8, 2, some (2, 1)⟩, true) by decide)⟩

/-- C3: deduplicated complete traversal.  In a reachable state the loop from
`begin()` with `operator++` up to `end()` stops after `size()` steps and yields
the keys of the buckets read at their canonical slots only: every key with
`count(k) == 1` occurs exactly once and no other key occurs. -/
theorem C3_traversal_complete_dedup {hash : Key → Nat} {N : Nat} {s : EH_set Key}
    (hR : Reachable hash N s) :
    ∃ l, s.traverse (s.size + 1) s.begin_ = some l
      ∧ l = s.elems
      ∧ (∀ k, s.count hash k = 1 → l.count k = 1)
      ∧ (∀ k, s.count hash k ≠ 1 → l.count k = 0) := by
  have hwf := hR.wf
  refine ⟨s.elems, hwf.traverse_begin (Nat.lt_succ_self _), rfl, ?_, ?_⟩
  · intro k hk
    exact List.count_eq_one_of_mem hwf.1.nodup_elems ((hwf.1.count_eq_one_iff k).1 hk)
  · intro k hk
    exact List.count_eq_zero_of_not_mem (fun hm => hk ((hwf.1.count_eq_one_iff k).2 hm))

theorem C3_witness :
    Reachable exHash 2 exSetTen
      ∧ ∃ l, exSetTen.traverse (exSetTen.size + 1) exSetTen.begin_ = some l
        ∧ l = exSetTen.elems
        ∧ (∀ k, exSetTen.count exHash k = 1 → l.count k = 1)
        ∧ (∀ k, exSetTen.count exHash k ≠ 1 → l.count k = 0) :=
  ⟨exSetTen_reachable, C3_traversal_complete_dedup exSetTen_reachable⟩

/-- C4: traversal length equals size.  In a reachable state a full traversal
from `begin()` to `end()` terminates (any fuel above `size()` is enough) and
yields exactly `size()` elements, none when `size()` is 0. -/
theorem C4_traversal_length {hash : Key → Nat} {N : Nat} {s : EH_set Key}
    (hR : Reachable hash N s) {fuel : Nat} (hf : s.size < fuel) :
    ∃ l, s.traverse fuel s.begin_ = some l ∧ l.length = s.size
      ∧ (s.size = 0 → l = []) := by
  have hwf := hR.wf
  refine ⟨s.elems, hwf.traverse_begin hf, hwf.2.symm, fun h0 => ?_⟩
  apply List.length_eq_zero.1
  rw [← hwf.2]; exact h0

theorem C4_witness :
    Reachable exHash 2 exSetTen ∧ exSetTen.size < 7
      ∧ ∃ l, exSetTen.traverse 7 exSetTen.begin_ = some l ∧ l.length = exSetTen.size
        ∧ (exSetTen.size = 0 → l = []) :=
  ⟨exSetTen_reachable, by decide, C4_traversal_length exSetTen_reachable (by decide)⟩

/-- C5: contract of `erase`.  On a reachable set `erase(k)` returns 1 when
`count(k)` was 1 and 0 otherwise, `size()` decreases by the returned value,
afterwards `count(k)` is 0 and `find(k)` is `end()`, `count` of every other key
is unchanged, and when `k` was absent the whole state is unchanged. -/
theorem C5_erase_contract {hash : Key → Nat} {N : Nat} {s : EH_set Key}
    (hR : Reachable hash N s) (k : Key) :
    (s.count hash k = 1 → (s.erase hash k).2 = 1)
      ∧ (s.count hash k ≠ 1 → (s.erase hash k).2 = 0)
      ∧ (s.erase hash k).1.size + (s.erase hash k).2 = s.size
      ∧ (s.erase hash k).1.count hash k = 0
      ∧ Iterator.same ((s.erase hash k).1.find hash k) (s.erase hash k).1.end_ = true
      ∧ (∀ k1, k1 ≠ k → (s.erase hash k).1.count hash k1 = s.count hash k1)
      ∧ (s.count hash k = 0 → (s.erase hash k).1 = s) := by
  have hwf := hR.wf
  obtain ⟨g1, g2, g3, g4, g5, _, _⟩ := hwf.erase k
  have hc0 : (s.erase hash k).1.count hash k = 0 := by
    rw [g1.1.count_eq_zero_iff, g2]
    exact fun hx => hx.2 rfl
  refine ⟨?_, ?_, g4, hc0, ?_, ?_, ?_⟩
  · intro h1
    rw [g3, if_pos ((hwf.1.count_eq_one_iff k).1 h1)]
  · intro h1
    rw [g3, if_neg (fun hm => h1 ((hwf.1.count_eq_one_iff k).2 hm))]
  · unfold EH_set.count at hc0
    by_contra hne
    rw [if_pos (by simpa using hne)] at hc0
    cases hc0
  · intro k1 hk1
    apply hwf.count_congr g1
    rw [g2]
    exact ⟨fun hx => hx.1, fun hx => ⟨hx, hk1⟩⟩
  · intro h0
    exact g5 ((hwf.1.count_eq_zero_iff k).1 h0)

theorem C5_witness :
    Reachable exHash 2 exSetTen
      ∧ ((exSetTen.count exHash 6 = 1 → (exSetTen.erase exHash 6).2 = 1)
        ∧ (exSetTen.count exHash 6 ≠ 1 → (exSetTen.erase exHash 6).2 = 0)
        ∧ (exSetTen.erase exHash 6).1.size + (exSetTen.erase exHash 6).2 = exSetTen.size
        ∧ (exSetTen.erase exHash 6).1.count exHash 6 = 0
        ∧ Iterator.same ((exSetTen.erase exHash 6).1.find exHash 6)
            (exSetTen.erase exHash 6).1.end_ = true
        ∧ (∀ k1, k1 ≠ 6 → (exSetTen.erase exHash 6).1.count exHash k1
            = exSetTen.count exHash k1)
        ∧ (exSetTen.count exHash 6 = 0 → (exSetTen.erase exHash 6).1 = exSetTen)) :=
  ⟨exSetTen_reachable, C5_erase_contract exSetTen_reachable 6⟩

/-- C6: erase undoes insert.  For a reachable set and a key `k` not in it for
which `insert(k)` returns, `erase(k)` right afterwards returns 1 and restores the
membership: `size()` is what it was before the insertion and `count` of every
key, `k` included, is what it was before. -/
theorem C6_erase_after_insert {hash : Key → Nat} {N fuel : Nat} {s : EH_set Key} {k : Key}
    {r : EH_set Key × Iterator × Bool} (hR : Reachable hash N s)
    (hk : s.count hash k = 0) (h : s.insert hash N fuel k = some r) :
    (r.1.erase hash k).2 = 1
      ∧ (r.1.erase hash k).1.size = s.size
      ∧ (r.1.erase hash k).1.count hash k = 0
      ∧ ∀ k1, (r.1.erase hash k).1.count hash k1 = s.count hash k1 := by
  have hwf := hR.wf
  have hk0 : k ∉ s.elems := (hwf.1.count_eq_zero_iff k).1 hk
  obtain ⟨g1, g2, _, g4, _, _, _⟩ := hwf.insert h
  obtain ⟨e1, e2, e3, e4, _, _, _⟩ := g1.erase k
  have hin : k ∈ r.1.elems := (g2 k).2 (Or.inl rfl)
  have hret : (r.1.erase hash k).2 = 1 := by rw [e3, if_pos hin]
  have hall : ∀ k1, (r.1.erase hash k).1.count hash k1 = s.count hash k1 := by
    intro k1
    apply hwf.count_congr e1
    rw [e2, g2]
    constructor
    · rintro ⟨hx | hx, hne⟩
      · exact absurd hx hne
      · exact hx
    · intro hx
      exact ⟨Or.inr hx, fun e => hk0 (e ▸ hx)⟩
  refine ⟨hret, ?_, by rw [hall, hk], hall⟩
  have h4 := g4 hk0
  rw [hret] at e4
  simp only [EH_set.size]
  omega

theorem C6_witness :
    Reachable exHash 2 exSet ∧ exSet.count exHash 10 = 0
      ∧ exSet.insert exHash 2 3 10 = some (exSetTen, ⟨8, 2, some (2, 1)⟩, true)
      ∧ ((exSetTen.erase exHash 10).2 = 1
        ∧ (exSetTen.erase exHash 10).1.size = exSet.size
        ∧ (exSetTen.erase exHash 10).1.count exHash 10 = 0
        ∧ ∀ k1, (exSetTen.erase exHash 10).1.count exHash k1 = exSet.count exHash k1) :=
  ⟨exSet_reachable, by decide, by decide,
    C6_erase_after_insert exSet_reachable (by decide)
      (show exSet.insert exHash 2 3 10 = some (exSetTen, ⟨8, 2, some (2, 1)⟩, true) by decide)⟩

/-- C7, as stated, fails: with capacity 1 and a hash under which the keys 0 and 1
collide, the set holding 0 is reachable and the key 1 is absent from it, yet
`insert(1)` returns for no number of activations of `add`; so no call returns
`true` with `size()` increased by 1. -/
theorem C7_counterexample :
    Reachable constHash 1 collideSet
      ∧ collideSet.count constHash 1 = 0
      ∧ (∀ fuel, collideSet.insert constHash 1 fuel 1 = none)
      ∧ ¬ ∃ fuel r, collideSet.insert constHash 1 fuel 1 = some r
          ∧ r.2.2 = true ∧ r.1.size = collideSet.size + 1 := by
  have hdiv : ∀ fuel, collideSet.add constHash 1 fuel 1 = none := fun fuel =>
    Inv.add_diverges 1 fuel collideSet collideSet_reachable.wf.1 (by decide)
      (fun _ _ => rfl)
  have hins : ∀ fuel, collideSet.insert constHash 1 fuel 1 = none := by
    intro fuel
    unfold EH_set.insert
    rw [if_pos (by decide), hdiv]
  refine ⟨collideSet_reachable, by decide, hins, ?_⟩
  rintro ⟨fuel, r, hr, _⟩
  rw [hins fuel] at hr
  cases hr

/-- C7, amended: idempotence of insert.  On a reachable set `insert(k)` returns
(for some number of activations of `add`) exactly when `k` is present, or the
target bucket of `k` is not full, or that bucket stores a key whose hash differs
from `hash(k)`.  Whenever it returns, a second `insert(k)` returns `false` and
leaves the entire state as the first insertion left it; the first call returns
`true` and increases `size()` by exactly 1 if and only if `k` was absent before
it, otherwise it returns `false` and changes nothing; and the call returns the
same result with any larger number of activations. -/
theorem C7_insert_idempotent {hash : Key → Nat} {N : Nat} {s : EH_set Key}
    (hR : Reachable hash N s) (k : Key) :
    ((∃ fuel r, s.insert hash N fuel k = some r)
        ↔ (s.count hash k = 1
          ∨ (s.bucketAt (hash k &&& ((1 <<< s.global_depth) - 1))).count < N
          ∨ ∃ x ∈ (s.bucketAt (hash k &&& ((1 <<< s.global_depth) - 1))).stored,
              hash x ≠ hash k))
      ∧ ∀ (fuel : Nat) (r : EH_set Key × Iterator × Bool),
          s.insert hash N fuel k = some r →
          (∀ fuel1, r.1.insert hash N fuel1 k = some (r.1, Iterator.ofKey hash r.1 k, false))
            ∧ ((r.2.2 = true ∧ r.1.size = s.size + 1) ↔ s.count hash k = 0)
            ∧ (r.2.2 = true ↔ s.count hash k = 0)
            ∧ (r.2.2 = false → r.1 = s)
            ∧ ∀ fuel2, fuel ≤ fuel2 → s.insert hash N fuel2 k = some r := by
  have hwf := hR.wf
  have hi := hwf.1
  have hind : hash k % 2 ^ s.global_depth < 2 ^ s.global_depth := Nat.mod_lt _ (by positivity)
  rw [mask_eq]
  refine ⟨⟨?_, ?_⟩, ?_⟩
  · rintro ⟨fuel, r, hr⟩
    by_cases hk : k ∈ s.elems
    · exact Or.inl ((hi.count_eq_one_iff k).2 hk)
    · right
      rw [hi.insert_absent hk] at hr
      cases hadd : s.add hash N fuel k with
      | none => rw [hadd] at hr; cases hr
      | some s1 =>
        by_contra hcon
        rw [not_or] at hcon
        have hfull : (s.bucketAt (hash k % 2 ^ s.global_depth)).count = N :=
          le_antisymm (hi.count_le _ hind) (not_lt.1 hcon.1)
        have hall : ∀ x ∈ (s.bucketAt (hash k % 2 ^ s.global_depth)).stored,
            hash x = hash k := by
          intro x hx
          by_contra hne
          exact hcon.2 ⟨x, hx, hne⟩
        rw [hi.add_diverges k fuel s hfull hall] at hadd
        cases hadd
  · intro hsep
    by_cases hk : k ∈ s.elems
    · exact ⟨0, _, hi.insert_present hk 0⟩
    · have hsep2 : (s.bucketAt (hash k % 2 ^ s.global_depth)).count < N
          ∨ ∃ x ∈ (s.bucketAt (hash k % 2 ^ s.global_depth)).stored,
              ∃ m, hash x % 2 ^ m ≠ hash k % 2 ^ m := by
        rcases hsep with h0 | h1 | ⟨x, hx, hne⟩
        · exact absurd ((hi.count_eq_one_iff k).1 h0) hk
        · exact Or.inl h1
        · exact Or.inr ⟨x, hx, _, exists_pow_separates hne⟩
      rcases hsep2 with h1 | ⟨x, hx, m, hm⟩
      · obtain ⟨s1, h2, _⟩ := Inv.add_terminates k 0 _ s hi (le_refl _) (Or.inl h1)
        have e := hi.insert_absent hk
          (0 - (s.bucketAt (hash k % 2 ^ s.global_depth)).local_depth + 1)
        rw [h2] at e
        exact ⟨_, _, e⟩
      · obtain ⟨s1, h2, _⟩ := Inv.add_terminates k m _ s hi (le_refl _)
          (Or.inr ⟨x, hx, hm⟩)
        have e := hi.insert_absent hk
          (m - (s.bucketAt (hash k % 2 ^ s.global_depth)).local_depth + 1)
        rw [h2] at e
        exact ⟨_, _, e⟩
  · intro fuel r h
    obtain ⟨g1, g2, g3, g4, g5, _, _⟩ := hwf.insert h
    have hin : k ∈ r.1.elems := (g2 k).2 (Or.inl rfl)
    refine ⟨fun fuel1 => g1.1.insert_present hin fuel1, ?_, ?_, ?_, ?_⟩
    · rw [hi.count_eq_zero_iff]
      exact ⟨fun hx => g3.1 hx.1, fun hx => ⟨g3.2 hx, g4 hx⟩⟩
    · rw [hi.count_eq_zero_iff]; exact g3
    · intro hf
      apply g5
      by_contra hn
      rw [g3.2 hn] at hf
      cases hf
    · intro fuel2 hle
      by_cases hk : k ∈ s.elems
      · rw [hi.insert_present hk] at h ⊢
        exact h
      · rw [hi.insert_absent hk] at h ⊢
        cases hadd : s.add hash N fuel k with
        | none => rw [hadd] at h; cases h
        | some s1 =>
          rw [hadd] at h
          rw [EH_set.add_fuel_mono hash N k hle hadd]
          exact h

theorem C7_witness :
    Reachable exHash 2 exSet
      ∧ exSet.insert exHash 2 3 10 = some (exSetTen, ⟨8, 2, some (2, 1)⟩, true)
      ∧ ((∀ fuel1, exSetTen.insert exHash 2 fuel1 10
            = some (exSetTen, Iterator.ofKey exHash exSetTen 10, false))
        ∧ ((true = true ∧ exSetTen.size = exSet.size + 1) ↔ exSet.count exHash 10 = 0)
        ∧ (true = true ↔ exSet.count exHash 10 = 0)
        ∧ (true = false → exSetTen = exSet)
        ∧ ∀ fuel2, 3 ≤ fuel2 →
            exSet.insert exHash 2 fuel2 10 = some (exSetTen, ⟨8, 2, some (2, 1)⟩, true)) :=
  ⟨exSet_reachable, by decide,
    (C7_insert_idempotent exSet_reachable 10).2 3 (exSetTen, ⟨8, 2, some (2, 1)⟩, true)
      (by decide)⟩

/-- C8: `operator==` decides set equality.  For reachable sets `A` and `B` the
comparison returns (after `size(B)` loop steps at most), and it returns `true`
exactly when the sizes agree and every element of each is found in the other,
that is, exactly when `A.count(k) == B.count(k)` for every key; so `B == A`
returns the same value, and `A != B` returns its negation. -/
theorem C8_operator_eq_decides_equality {hash : Key → Nat} {N : Nat} {A B : EH_set Key}
    (hA : Reachable hash N A) (hB : Reachable hash N B) {fuel fuel1 : Nat}
    (hf : B.size < fuel) (hf1 : A.size < fuel1) :
    ∃ b, EH_set.operator_eq hash fuel A B = some b
      ∧ (b = true ↔
          (A.size = B.size ∧ (∀ k, B.count hash k = 1 → A.count hash k = 1)
            ∧ (∀ k, A.count hash k = 1 → B.count hash k = 1)))
      ∧ (b = true ↔ ∀ k, A.count hash k = B.count hash k)
      ∧ EH_set.operator_eq hash fuel1 B A = some b
      ∧ EH_set.operator_ne hash fuel A B = some (!b) := by
  have wA := hA.wf
  have wB := hB.wf
  have e1 := wA.operator_eq_spec wB hf
  have e2 := wB.operator_eq_spec wA hf1
  have hb : ∀ (X Y : EH_set Key), WF hash N X → WF hash N Y →
      ((decide (X.curr_size = Y.curr_size) && Y.elems.all fun x => decide (x ∈ X.elems)) = true
        ↔ ∀ x, x ∈ X.elems ↔ x ∈ Y.elems) := by
    intro X Y wX wY
    rw [← wX.same_elems_iff wY]
    simp
  have hcount : (∀ x, x ∈ A.elems ↔ x ∈ B.elems) ↔ ∀ k, A.count hash k = B.count hash k := by
    constructor
    · intro hm k
      exact wB.count_congr wA (hm k)
    · intro hc x
      rw [← wA.1.count_eq_one_iff, ← wB.1.count_eq_one_iff, hc]
  refine ⟨_, e1, ?_, ?_, ?_, ?_⟩
  · rw [hb A B wA wB]
    constructor
    · intro hm
      refine ⟨?_, fun k hk => ?_, fun k hk => ?_⟩
      · exact ((wA.same_elems_iff wB).2 hm).1
      · rw [wA.1.count_eq_one_iff, hm, ← wB.1.count_eq_one_iff]; exact hk
      · rw [wB.1.count_eq_one_iff, ← hm, ← wA.1.count_eq_one_iff]; exact hk
    · rintro ⟨hs, h1, _⟩
      apply (wA.same_elems_iff wB).1
      refine ⟨hs, fun x hx => ?_⟩
      rw [← wA.1.count_eq_one_iff]
      exact h1 x ((wB.1.count_eq_one_iff x).2 hx)
  · rw [hb A B wA wB, hcount]
  · rw [e2]
    congr 1
    rw [Bool.eq_iff_iff, hb A B wA wB, hb B A wB wA]
    exact ⟨fun hm x => (hm x).symm, fun hm x => (hm x).symm⟩
  · unfold EH_set.operator_ne
    rw [e1]
    rfl

theorem C8_witness :
    Reachable exHash 2 exSet ∧ Reachable exHash 2 exSetRev ∧ exSetRev.size < 6
      ∧ exSet.size < 6
      ∧ ∃ b, EH_set.operator_eq exHash 6 exSet exSetRev = some b
        ∧ (b = true ↔
            (exSet.size = exSetRev.size
              ∧ (∀ k, exSetRev.count exHash k = 1 → exSet.count exHash k = 1)
              ∧ (∀ k, exSet.count exHash k = 1 → exSetRev.count exHash k = 1)))
        ∧ (b = true ↔ ∀ k, exSet.count exHash k = exSetRev.count exHash k)
        ∧ EH_set.operator_eq exHash 6 exSetRev exSet = some b
        ∧ EH_set.operator_ne exHash 6 exSet exSetRev = some (!b) :=
  ⟨exSet_reachable, exSetRev_reachable, by decide, by decide,
    C8_operator_eq_decides_equality exSet_reachable exSetRev_reachable
      (show exSetRev.size < 6 by decide) (show exSet.size < 6 by decide)⟩

/-- C9: equality does not depend on the insertion order.  When the keys of a
list and of a permutation of it are inserted into two empty sets (all
insertions returning), the two sets compare equal under `operator==`, whatever
their directories and buckets look like. -/
theorem C9_equal_in_any_order {hash : Key → Nat} {N fuelA fuelB : Nat} {L L1 : List Key}
    (hp : L.Perm L1) {A B : EH_set Key}
    (hA : (EH_set.empty N).insertRange hash N fuelA L = some A)
    (hB : (EH_set.empty N).insertRange hash N fuelB L1 = some B)
    {fuel : Nat} (hf : B.size < fuel) :
    EH_set.operator_eq hash fuel A B = some true := by
  obtain ⟨rA, mA⟩ := Reachable.insertRange fuelA L _ _ Reachable.empty hA
  obtain ⟨rB, mB⟩ := Reachable.insertRange fuelB L1 _ _ Reachable.empty hB
  have wA := rA.wf
  have wB := rB.wf
  rw [wA.operator_eq_spec wB hf]
  have hm : ∀ x, x ∈ A.elems ↔ x ∈ B.elems := by
    intro x
    rw [mA, mB, hp.mem_iff]
  obtain ⟨hs, hsub⟩ := (wA.same_elems_iff wB).2 hm
  congr 1
  simp only [Bool.and_eq_true, decide_eq_true_eq, List.all_eq_true]
  exact ⟨hs, hsub⟩

theorem C9_witness :
    List.Perm [0, 4, 2, 6, 1] [1, 6, 4, 2, 0]
      ∧ (EH_set.empty 2).insertRange exHash 2 3 [0, 4, 2, 6, 1] = some exSet
      ∧ (EH_set.empty 2).insertRange exHash 2 3 [1, 6, 4, 2, 0] = some exSetRev
      ∧ exSetRev.size < 6
      ∧ EH_set.operator_eq exHash 6 exSet exSetRev = some true :=
  ⟨by decide, by decide, by decide, by decide,
    C9_equal_in_any_order (show List.Perm [0, 4, 2, 6, 1] [1, 6, 4, 2, 0] by decide)
      (show (EH_set.empty 2).insertRange exHash 2 3 [0, 4, 2, 6, 1] = some exSet by decide)
      (show (EH_set.empty 2).insertRange exHash 2 3 [1, 6, 4, 2, 0] = some exSetRev by decide)
      (show exSetRev.size < 6 by decide)⟩

/-- C10, as stated, fails: with capacity 1 and a hash under which the keys 0
and 1 collide, the set holding 0 is reachable and 1 is not in it, yet `add(1)`,
and with it `insert(1)`, does not return whatever the fuel: every split leaves
the target bucket full. -/
theorem C10_counterexample :
    Reachable constHash 1 collideSet
      ∧ collideSet.count constHash 1 = 0
      ∧ (∀ x ∈ collideSet.elems, x ≠ 1)
      ∧ (∀ fuel, collideSet.add constHash 1 fuel 1 = none)
      ∧ (∀ fuel, collideSet.insert constHash 1 fuel 1 = none) := by
  have hdiv : ∀ fuel, collideSet.add constHash 1 fuel 1 = none := fun fuel =>
    Inv.add_diverges 1 fuel collideSet collideSet_reachable.wf.1 (by decide)
      (fun _ _ => rfl)
  refine ⟨collideSet_reachable, by decide, by decide, hdiv, fun fuel => ?_⟩
  unfold EH_set.insert
  rw [if_pos (by decide), hdiv]

/-- C10, amended: termination of insertion.  On a reachable set, when the hash
values are below `2 ^ w` and the target bucket of the key has room or holds a
key whose hash differs from the hash of the new key, `add(key)` returns after at
most `max w 1` activations, hence fewer than `max w 1` splits, with a directory
depth of at most `max global_depth w`; and `insert(key)` returns. -/
theorem C10_add_terminates {hash : Key → Nat} {N : Nat} {s : EH_set Key}
    (hR : Reachable hash N s) {w : Nat} (hw : ∀ x, hash x < 2 ^ w) (k : Key)
    (hsep : (s.bucketAt (hash k &&& ((1 <<< s.global_depth) - 1))).count < N
      ∨ ∃ x ∈ (s.bucketAt (hash k &&& ((1 <<< s.global_depth) - 1))).stored,
          hash x ≠ hash k) :
    (∃ s1, s.add hash N (max w 1) k = some s1
        ∧ s1.global_depth ≤ max s.global_depth w)
      ∧ ∃ r, s.insert hash N (max w 1) k = some r := by
  have hwf := hR.wf
  rw [mask_eq] at hsep
  have hind : hash k % 2 ^ s.global_depth < 2 ^ s.global_depth := Nat.mod_lt _ (by positivity)
  have hpos := hwf.1.ld_pos _ hind
  have hsep2 : (s.bucketAt (hash k % 2 ^ s.global_depth)).count < N
      ∨ ∃ x ∈ (s.bucketAt (hash k % 2 ^ s.global_depth)).stored,
          hash x % 2 ^ w ≠ hash k % 2 ^ w := by
    rcases hsep with h1 | ⟨x, hx, hne⟩
    · exact Or.inl h1
    · exact Or.inr ⟨x, hx, by rw [Nat.mod_eq_of_lt (hw x), Nat.mod_eq_of_lt (hw k)]; exact hne⟩
  obtain ⟨s1, h1, h2⟩ := Inv.add_terminates k w _ s hwf.1 (le_refl _) hsep2
  have hadd : s.add hash N (max w 1) k = some s1 :=
    EH_set.add_fuel_mono hash N k (by omega) h1
  refine ⟨⟨s1, hadd, h2⟩, ?_⟩
  by_cases hk : k ∈ s.elems
  · exact ⟨_, hwf.1.insert_present hk _⟩
  · rw [hwf.1.insert_absent hk, hadd]
    exact ⟨_, rfl⟩

theorem C10_witness :
    Reachable exHash 2 exSet ∧ (∀ x, exHash x < 2 ^ 3)
      ∧ ((exSet.bucketAt (exHash 10 &&& ((1 <<< exSet.global_depth) - 1))).count < 2
        ∨ ∃ x ∈ (exSet.bucketAt (exHash 10 &&& ((1 <<< exSet.global_depth) - 1))).stored,
            exHash x ≠ exHash 10)
      ∧ ((∃ s1, exSet.add exHash 2 (max 3 1) 10 = some s1
          ∧ s1.global_depth ≤ max exSet.global_depth 3)
        ∧ ∃ r, exSet.insert exHash 2 (max 3 1) 10 = some r) :=
  ⟨exSet_reachable, fun x => Nat.mod_lt x (by decide), Or.inr ⟨6, by decide, by decide⟩,
    C10_add_terminates exSet_reachable (fun x => Nat.mod_lt x (by decide)) 10
      (Or.inr ⟨6, by decide, by decide⟩)⟩

/-! ## Every bucket of the heap is referenced -/

theorem EH_set.allReferenced_empty (N : Nat) :
    (EH_set.empty N : EH_set Key).AllReferenced := by
  rw [EH_set.empty_eq]
  intro a ha
  simp only [List.length_cons, List.length_nil] at ha
  have : a = 0 ∨ a = 1 := by omega
  rcases this with rfl | rfl
  · exact ⟨0, (by norm_num : (0 : Nat) < 2 ^ 1), rfl⟩
  · exact ⟨1, (by norm_num : (1 : Nat) < 2 ^ 1), rfl⟩

theorem EH_set.allReferenced_double_dir {s : EH_set Key} (h : s.AllReferenced) :
    s.double_dir.AllReferenced := by
  intro a ha
  obtain ⟨i, hi, hs⟩ := h a ha
  refine ⟨i, ?_, ?_⟩
  · rw [EH_set.double_dir_global_depth, pow_succ]; omega
  · rw [EH_set.double_dir_slot, if_pos hi, hs]

theorem EH_set.allReferenced_store {s : EH_set Key} (h : s.AllReferenced) (p : Option Nat)
    (b : Bucket Key) : (s.store p b).AllReferenced := by
  intro a ha
  rw [EH_set.store_buckets_length] at ha
  obtain ⟨i, hi, hs⟩ := h a ha
  exact ⟨i, by simpa using hi, by simpa using hs⟩

theorem EH_set.allReferenced_with_size {s : EH_set Key} (h : s.AllReferenced) (c : Nat) :
    ({ s with curr_size := c } : EH_set Key).AllReferenced := h

theorem Inv.allReferenced_splitBucket {hash : Key → Nat} {N : Nat} {s : EH_set Key}
    (h : Inv hash N s) (hr : s.AllReferenced) {ind : Nat} (hind : ind < 2 ^ s.global_depth)
    (hlt : (s.bucketAt ind).local_depth < s.global_depth) :
    (s.splitBucket hash N ind).AllReferenced := by
  obtain ⟨a, hslot, ha⟩ := h.valid ind hind
  obtain ⟨f1, _, f3, _⟩ := splitBucket_fields h hind
  have hG : 0 < 2 ^ (s.bucketAt ind).local_depth := by positivity
  have bc := Nat.mod_lt ind hG
  have hpow : 2 ^ ((s.bucketAt ind).local_depth + 1) ≤ 2 ^ s.global_depth :=
    Nat.pow_le_pow_right (by decide) hlt
  have hpow2 : 2 ^ ((s.bucketAt ind).local_depth + 1)
      = 2 ^ (s.bucketAt ind).local_depth + 2 ^ (s.bucketAt ind).local_depth := by
    rw [pow_succ]; omega
  intro a0 ha0
  rw [f3] at ha0
  rw [f1]
  by_cases e1 : a0 = s.buckets.length
  · -- the new bucket, referenced at its first slot
    have hj : ind % 2 ^ (s.bucketAt ind).local_depth + 2 ^ (s.bucketAt ind).local_depth
        < 2 ^ s.global_depth := by omega
    have hmod : (ind % 2 ^ (s.bucketAt ind).local_depth + 2 ^ (s.bucketAt ind).local_depth)
        % 2 ^ ((s.bucketAt ind).local_depth + 1)
        = ind % 2 ^ (s.bucketAt ind).local_depth + 2 ^ (s.bucketAt ind).local_depth :=
      Nat.mod_eq_of_lt (by omega)
    refine ⟨_, hj, ?_⟩
    rcases h.split_cases hind hslot _ rfl hj with ⟨_, _, e, _⟩ | ⟨_, j2, _, _⟩ | ⟨j1, _, _⟩
    · rw [e, e1]
    · rw [hmod] at j2; omega
    · exfalso
      apply j1
      rw [← hslot, eq_comm, h.slot_eq ind _ hind hj, Nat.add_mod_right, Nat.mod_mod]
  · by_cases e2 : a0 = a
    · have hj : ind % 2 ^ (s.bucketAt ind).local_depth < 2 ^ s.global_depth := by omega
      have hmod : ind % 2 ^ (s.bucketAt ind).local_depth
          % 2 ^ ((s.bucketAt ind).local_depth + 1) = ind % 2 ^ (s.bucketAt ind).local_depth :=
        Nat.mod_eq_of_lt (by omega)
      refine ⟨_, hj, ?_⟩
      rcases h.split_cases hind hslot _ rfl hj with ⟨_, j2, _, _⟩ | ⟨_, _, e, _⟩ | ⟨j1, _, _⟩
      · rw [hmod] at j2; omega
      · rw [e, e2]
      · exfalso
        apply j1
        rw [← hslot, eq_comm, h.slot_eq ind _ hind hj, Nat.mod_mod]
    · obtain ⟨i, hi, hs⟩ := hr a0 (by omega)
      refine ⟨i, hi, ?_⟩
      rcases h.split_cases hind hslot _ rfl hi with ⟨j1, _, _, _⟩ | ⟨j1, _, _, _⟩ | ⟨_, e, _⟩
      · rw [hs] at j1; cases j1; exact absurd rfl e2
      · rw [hs] at j1; cases j1; exact absurd rfl e2
      · rw [e, hs]

theorem Inv.allReferenced_split {hash : Key → Nat} {N : Nat} {s : EH_set Key}
    (h : Inv hash N s) (hr : s.AllReferenced) (k : Key) :
    (s.split hash N (hash k % 2 ^ s.global_depth)).AllReferenced := by
  have hind : hash k % 2 ^ s.global_depth < 2 ^ s.global_depth := Nat.mod_lt _ (by positivity)
  have hle := h.ld_le _ hind
  unfold EH_set.split
  rw [← EH_set.bucketAt]
  by_cases hd : (s.bucketAt (hash k % 2 ^ s.global_depth)).local_depth ≥ s.global_depth
  · rw [if_pos hd]
    have hind1 : hash k % 2 ^ s.global_depth < 2 ^ s.double_dir.global_depth := by
      rw [EH_set.double_dir_global_depth, pow_succ]; omega
    have hb1 : s.double_dir.bucketAt (hash k % 2 ^ s.global_depth)
        = s.bucketAt (hash k % 2 ^ s.global_depth) := by
      rw [EH_set.double_dir_bucketAt s hind1, Nat.mod_mod]
    exact h.double_dir_inv.allReferenced_splitBucket (EH_set.allReferenced_double_dir hr) hind1
      (by rw [hb1, EH_set.double_dir_global_depth]; omega)
  · rw [if_neg hd]
    exact h.allReferenced_splitBucket hr hind (by omega)

theorem Inv.allReferenced_add {hash : Key → Nat} {N : Nat} (k : Key) :
    ∀ (fuel : Nat) (s s' : EH_set Key), Inv hash N s → s.AllReferenced →
      s.add hash N fuel k = some s' → s'.AllReferenced := by
  intro fuel
  induction fuel with
  | zero => intro s s' _ _ h; simp [EH_set.add] at h
  | succ n ih =>
    intro s s' h hr hadd
    have hind : hash k % 2 ^ s.global_depth < 2 ^ s.global_depth := Nat.mod_lt _ (by positivity)
    rw [EH_set.add_succ] at hadd
    by_cases hc : (s.bucketAt (hash k % 2 ^ s.global_depth)).count < N
    · rw [if_pos hc] at hadd
      cases hadd
      exact EH_set.allReferenced_store hr _ _
    · rw [if_neg hc] at hadd
      have hfull : (s.bucketAt (hash k % 2 ^ s.global_depth)).count = N :=
        le_antisymm (h.count_le _ hind) (Nat.le_of_not_lt hc)
      exact ih _ _ (h.split_spec k hfull).1 (h.allReferenced_split hr k) hadd

theorem Reachable.allReferenced {hash : Key → Nat} {N : Nat} {s : EH_set Key}
    (h : Reachable hash N s) : s.AllReferenced := by
  induction h with
  | empty => exact EH_set.allReferenced_empty N
  | @insert s fuel k r hs hr ih =>
    by_cases hk : k ∈ s.elems
    · rw [hs.wf.1.insert_present hk] at hr
      cases hr
      exact ih
    · rw [hs.wf.1.insert_absent hk] at hr
      cases hadd : s.add hash N fuel k with
      | none => rw [hadd] at hr; cases hr
      | some s1 =>
        rw [hadd] at hr
        cases hr
        exact EH_set.allReferenced_with_size (Inv.allReferenced_add k fuel s s1 hs.wf.1 ih hadd) _
  | erase k _ ih =>
    unfold EH_set.erase
    exact EH_set.allReferenced_with_size (EH_set.allReferenced_store ih _ _) _
  | clear _ hc _ =>
    rw [EH_set.clear_eq_some hc]
    exact EH_set.allReferenced_empty N
  | double_dir _ ih => exact EH_set.allReferenced_double_dir ih

/-! ## The destructor run by `clear` -/

/-- C12: bucket routing invariant.  In every reachable state every key `x` among
the first `count` keys of the bucket at a slot `i` has the low `local_depth` hash
bits of `i`; and the slot `hash(x) & (2 ^ global_depth - 1)` used by `find`,
`count` and `erase` references that very bucket. -/
theorem C12_bucket_routing {hash : Key → Nat} {N : Nat} {s : EH_set Key}
    (hR : Reachable hash N s) (i : Nat) (hi : i < 2 ^ s.global_depth) (x : Key)
    (hx : x ∈ (s.bucketAt i).stored) :
    hash x % 2 ^ (s.bucketAt i).local_depth = i % 2 ^ (s.bucketAt i).local_depth
      ∧ s.slot (hash x &&& ((1 <<< s.global_depth) - 1)) = s.slot i
      ∧ x ∈ (s.bucketAt (hash x &&& ((1 <<< s.global_depth) - 1))).stored := by
  have h := hR.wf.1
  rw [mask_eq]
  refine ⟨h.route i hi x hx, (h.slot_home hi hx).symm, ?_⟩
  rw [h.home hi hx]
  exact hx

theorem C12_witness :
    Reachable exHash 2 exSetTen ∧ 6 < 2 ^ exSetTen.global_depth
      ∧ 6 ∈ (exSetTen.bucketAt 6).stored
      ∧ (exHash 6 % 2 ^ (exSetTen.bucketAt 6).local_depth
          = 6 % 2 ^ (exSetTen.bucketAt 6).local_depth
        ∧ exSetTen.slot (exHash 6 &&& ((1 <<< exSetTen.global_depth) - 1)) = exSetTen.slot 6
        ∧ 6 ∈ (exSetTen.bucketAt
            (exHash 6 &&& ((1 <<< exSetTen.global_depth) - 1))).stored) :=
  ⟨exSetTen_reachable, by decide, by decide,
    C12_bucket_routing exSetTen_reachable 6 (by decide) 6 (by decide)⟩

/-- The slots that reference the bucket at address `a` are those with one low-bit
pattern `p`, which is the only canonical one among them. -/
theorem Inv.slots_of_bucket {hash : Key → Nat} {N : Nat} {s : EH_set Key} (h : Inv hash N s)
    (hr : s.AllReferenced) {a : Nat} (ha : a < s.buckets.length) :
    ∃ p, p < 2 ^ (s.deref (some a)).local_depth ∧ p < 2 ^ s.global_depth
      ∧ s.slot p = some a
      ∧ ∀ j, j < 2 ^ s.global_depth →
          (s.slot j = some a ↔ j % 2 ^ (s.deref (some a)).local_depth = p) := by
  obtain ⟨i, hi, hs⟩ := hr a ha
  have hb : s.bucketAt i = s.deref (some a) := by rw [EH_set.bucketAt, hs]
  have hG : 0 < 2 ^ (s.deref (some a)).local_depth := by positivity
  refine ⟨i % 2 ^ (s.deref (some a)).local_depth, Nat.mod_lt _ hG,
    lt_of_le_of_lt (Nat.mod_le _ _) hi, ?_, ?_⟩
  · rw [← hb, ← hs]
    exact ((h.slot_eq i _ hi (h.canon_lt hi)).2 (by rw [Nat.mod_mod])).symm
  · intro j hj
    rw [← hb, ← hs, eq_comm, h.slot_eq i j hi hj, eq_comm]

theorem slots_finset_eq (G m p : Nat) (hG : 0 < G) (hp : p < G) :
    (Finset.range (G * m)).filter (fun j => j % G = p)
      = (Finset.range m).image (fun q => p + q * G) := by
  ext j
  simp only [Finset.mem_filter, Finset.mem_range, Finset.mem_image]
  constructor
  · rintro ⟨hj, hmod⟩
    refine ⟨j / G, (Nat.div_lt_iff_lt_mul hG).2 (by rw [Nat.mul_comm]; exact hj), ?_⟩
    have := Nat.mod_add_div j G
    rw [hmod] at this
    rw [Nat.mul_comm]; exact this
  · rintro ⟨q, hq, rfl⟩
    constructor
    · have h1 : (q + 1) * G ≤ m * G := Nat.mul_le_mul_right G hq
      rw [Nat.succ_mul] at h1
      rw [Nat.mul_comm G m]
      omega
    · rw [Nat.add_mul_mod_self_right, Nat.mod_eq_of_lt hp]

theorem slots_card (G m p : Nat) (hG : 0 < G) (hp : p < G) :
    ((Finset.range (G * m)).filter (fun j => j % G = p)).card = m := by
  rw [slots_finset_eq G m p hG hp, Finset.card_image_of_injective, Finset.card_range]
  intro q1 q2 hq
  simp only at hq
  have : q1 * G = q2 * G := by omega
  exact Nat.eq_of_mul_eq_mul_right hG this

/-- C13: aliasing stride.  In every reachable state each physical bucket, of
local depth `t`, is referenced by exactly `2 ^ (global_depth - t)` directory
slots: the indices `p + q * 2 ^ t` with `q < 2 ^ (global_depth - t)`, for one
`p < 2 ^ t`.  Exactly one slot that references the bucket is canonical
(`(i & (2 ^ t - 1)) == i`, that is `i < 2 ^ t`), and a slot that is canonical for two
buckets makes them the same bucket. -/
theorem C13_aliasing_stride {hash : Key → Nat} {N : Nat} {s : EH_set Key}
    (hR : Reachable hash N s) (a : Nat) (ha : a < s.buckets.length) :
    ∃ p, p < 2 ^ (s.deref (some a)).local_depth
      ∧ (s.deref (some a)).local_depth ≤ s.global_depth
      ∧ (Finset.range (2 ^ s.global_depth)).filter (fun j => s.slot j = some a)
          = (Finset.range (2 ^ (s.global_depth - (s.deref (some a)).local_depth))).image
              (fun q => p + q * 2 ^ (s.deref (some a)).local_depth)
      ∧ ((Finset.range (2 ^ s.global_depth)).filter (fun j => s.slot j = some a)).card
          = 2 ^ (s.global_depth - (s.deref (some a)).local_depth)
      ∧ (∀ i, i < 2 ^ s.global_depth →
          ((s.slot i = some a
              ∧ (i &&& ((1 <<< (s.deref (some a)).local_depth) - 1)) = i) ↔ i = p))
      ∧ (∀ i, (i &&& ((1 <<< (s.deref (some a)).local_depth) - 1)) = i
          ↔ i < 2 ^ (s.deref (some a)).local_depth)
      ∧ ∀ b i, s.slot i = some a → s.slot i = some b → a = b := by
  have h := hR.wf.1
  obtain ⟨p, hp, hp2, hsp, hiff⟩ := h.slots_of_bucket hR.allReferenced ha
  have hb : s.bucketAt p = s.deref (some a) := by rw [EH_set.bucketAt, hsp]
  have hle : (s.deref (some a)).local_depth ≤ s.global_depth := by
    rw [← hb]; exact h.ld_le p hp2
  have hG : 0 < 2 ^ (s.deref (some a)).local_depth := by positivity
  have hpow : 2 ^ s.global_depth = 2 ^ (s.deref (some a)).local_depth
      * 2 ^ (s.global_depth - (s.deref (some a)).local_depth) := by
    rw [← pow_add]; congr 1; omega
  have hfilter : (Finset.range (2 ^ s.global_depth)).filter (fun j => s.slot j = some a)
      = (Finset.range (2 ^ s.global_depth)).filter
          (fun j => j % 2 ^ (s.deref (some a)).local_depth = p) := by
    apply Finset.filter_congr
    intro j hj
    exact hiff j (Finset.mem_range.1 hj)
  refine ⟨p, hp, hle, ?_, ?_, ?_, fun i => canon_iff i _, ?_⟩
  · rw [hfilter, hpow]
    exact slots_finset_eq _ _ p hG hp
  · rw [hfilter, hpow]
    exact slots_card _ _ p hG hp
  · intro i hi
    rw [canon_iff, hiff i hi]
    constructor
    · rintro ⟨h1, h2⟩
      rw [← h1, Nat.mod_eq_of_lt h2]
    · rintro rfl
      exact ⟨Nat.mod_eq_of_lt hp, hp⟩
  · intro b i h1 h2
    rw [h1] at h2
    exact Option.some.inj h2

theorem C13_witness :
    Reachable exHash 2 exSetTen ∧ 0 < exSetTen.buckets.length
      ∧ ∃ p, p < 2 ^ (exSetTen.deref (some 0)).local_depth
        ∧ (exSetTen.deref (some 0)).local_depth ≤ exSetTen.global_depth
        ∧ (Finset.range (2 ^ exSetTen.global_depth)).filter (fun j => exSetTen.slot j = some 0)
            = (Finset.range
                (2 ^ (exSetTen.global_depth - (exSetTen.deref (some 0)).local_depth))).image
                (fun q => p + q * 2 ^ (exSetTen.deref (some 0)).local_depth)
        ∧ ((Finset.range (2 ^ exSetTen.global_depth)).filter
              (fun j => exSetTen.slot j = some 0)).card
            = 2 ^ (exSetTen.global_depth - (exSetTen.deref (some 0)).local_depth)
        ∧ (∀ i, i < 2 ^ exSetTen.global_depth →
            ((exSetTen.slot i = some 0
                ∧ (i &&& ((1 <<< (exSetTen.deref (some 0)).local_depth) - 1)) = i) ↔ i = p))
        ∧ (∀ i, (i &&& ((1 <<< (exSetTen.deref (some 0)).local_depth) - 1)) = i
            ↔ i < 2 ^ (exSetTen.deref (some 0)).local_depth)
        ∧ ∀ b i, exSetTen.slot i = some 0 → exSetTen.slot i = some b → 0 = b :=
  ⟨exSetTen_reachable, by decide, C13_aliasing_stride exSetTen_reachable 0 (by decide)⟩

/-! ## Size bookkeeping -/

theorem Inv.double_dir_find {hash : Key → Nat} {N : Nat} {s : EH_set Key} (h : Inv hash N s)
    (k : Key) :
    (s.double_dir.find hash k).ptr = (s.find hash k).ptr
      ∧ (s.double_dir.find hash k).buck_ind = (s.find hash k).buck_ind
      ∧ (s.double_dir.find hash k).get s.double_dir = (s.find hash k).get s := by
  have hind : hash k % 2 ^ s.global_depth < 2 ^ s.global_depth := Nat.mod_lt _ (by positivity)
  obtain ⟨a, ha, _⟩ := h.valid _ hind
  obtain ⟨t1, t2⟩ := h.double_dir_target (hash k)
  have ha' : s.double_dir.slot (hash k % 2 ^ s.double_dir.global_depth) = some a := by
    rw [EH_set.double_dir_global_depth, t2, ha]
  have hptr : (s.double_dir.find hash k).ptr = (s.find hash k).ptr := by
    rw [h.double_dir_inv.find_ptr k ha', h.find_ptr k ha, EH_set.double_dir_global_depth, t1]
  refine ⟨hptr, ?_, ?_⟩
  · unfold EH_set.find
    simp only [mask_eq]
    rw [← EH_set.bucketAt, ← EH_set.bucketAt, EH_set.double_dir_global_depth, t1]
    split
    · simp only [Iterator.ofKey, mask_eq, EH_set.double_dir_global_depth, t1]
      rw [mod_mod_pow_le _ (Nat.le_succ_of_le (h.ld_le _ hind)),
        mod_mod_pow_le _ (h.ld_le _ hind)]
    · rfl
  · unfold Iterator.get
    rw [hptr]
    rfl

/-- Doubling the directory does not change the cursor that `Iterator(d, key)`
computes, whatever the state; the slot it records is the same when the bucket of
the key is at most as deep as the directory. -/
theorem EH_set.double_dir_ofKey (hash : Key → Nat) (s : EH_set Key) (k : Key) :
    (Iterator.ofKey hash s.double_dir k).ptr = (Iterator.ofKey hash s k).ptr
      ∧ ((s.bucketAt (hash k % 2 ^ s.global_depth)).local_depth ≤ s.global_depth →
          (Iterator.ofKey hash s.double_dir k).buck_ind = (Iterator.ofKey hash s k).buck_ind) := by
  have hG : 0 < 2 ^ s.global_depth := by positivity
  have h1 : hash k % 2 ^ (s.global_depth + 1) < 2 ^ (s.global_depth + 1) :=
    Nat.mod_lt _ (by positivity)
  have hb : s.double_dir.bucketAt (hash k % 2 ^ (s.global_depth + 1))
      = s.bucketAt (hash k % 2 ^ s.global_depth) := by
    rw [EH_set.double_dir_bucketAt s h1, mod_mod_pow_le _ (Nat.le_succ _)]
  have hidx : hash k % 2 ^ (s.global_depth + 1)
        % 2 ^ (s.bucketAt (hash k % 2 ^ s.global_depth)).local_depth % 2 ^ s.global_depth
      = hash k % 2 ^ s.global_depth
        % 2 ^ (s.bucketAt (hash k % 2 ^ s.global_depth)).local_depth := by
    rcases Nat.lt_or_ge s.global_depth
      (s.bucketAt (hash k % 2 ^ s.global_depth)).local_depth with hgt | hle
    · have hp : 2 ^ (s.global_depth + 1)
          ≤ 2 ^ (s.bucketAt (hash k % 2 ^ s.global_depth)).local_depth :=
        Nat.pow_le_pow_right (by norm_num) hgt
      have hp2 : 2 ^ s.global_depth
          ≤ 2 ^ (s.bucketAt (hash k % 2 ^ s.global_depth)).local_depth :=
        Nat.pow_le_pow_right (by norm_num) (Nat.le_of_lt hgt)
      rw [Nat.mod_eq_of_lt (lt_of_lt_of_le h1 hp), mod_mod_pow_le _ (Nat.le_succ _),
        Nat.mod_eq_of_lt (lt_of_lt_of_le (Nat.mod_lt _ hG) hp2)]
    · rw [mod_mod_pow_le _ (Nat.le_succ_of_le hle), mod_mod_pow_le _ hle]
      exact Nat.mod_eq_of_lt (lt_of_lt_of_le (Nat.mod_lt _ (by positivity))
        (Nat.pow_le_pow_right (by norm_num) hle))
  have hlt : hash k % 2 ^ (s.global_depth + 1)
        % 2 ^ (s.bucketAt (hash k % 2 ^ s.global_depth)).local_depth
      < 2 ^ (s.global_depth + 1) :=
    lt_of_le_of_lt (Nat.mod_le _ _) h1
  constructor
  · simp only [Iterator.ofKey, mask_eq, EH_set.double_dir_global_depth, hb,
      EH_set.double_dir_slot_mod s hlt, hidx, EH_set.double_dir_deref]
  · intro hle
    simp only [Iterator.ofKey, mask_eq, EH_set.double_dir_global_depth, hb]
    rw [mod_mod_pow_le _ (Nat.le_succ_of_le hle), mod_mod_pow_le _ hle]

/-- Doubling the directory does not change what `find` returns, whatever the
state. -/
theorem EH_set.double_dir_find_frame (hash : Key → Nat) (s : EH_set Key) (k : Key) :
    (s.double_dir.find hash k).ptr = (s.find hash k).ptr
      ∧ (s.double_dir.find hash k).get s.double_dir = (s.find hash k).get s
      ∧ s.double_dir.count hash k = s.count hash k
      ∧ ((s.bucketAt (hash k % 2 ^ s.global_depth)).local_depth ≤ s.global_depth →
          (s.double_dir.find hash k).buck_ind = (s.find hash k).buck_ind) := by
  have h1 : hash k % 2 ^ (s.global_depth + 1) < 2 ^ (s.global_depth + 1) :=
    Nat.mod_lt _ (by positivity)
  have hb : s.double_dir.bucketAt (hash k % 2 ^ (s.global_depth + 1))
      = s.bucketAt (hash k % 2 ^ s.global_depth) := by
    rw [EH_set.double_dir_bucketAt s h1, mod_mod_pow_le _ (Nat.le_succ _)]
  obtain ⟨p1, p2⟩ := EH_set.double_dir_ofKey hash s k
  have hfind : (s.double_dir.find hash k).ptr = (s.find hash k).ptr
      ∧ ((s.bucketAt (hash k % 2 ^ s.global_depth)).local_depth ≤ s.global_depth →
          (s.double_dir.find hash k).buck_ind = (s.find hash k).buck_ind) := by
    unfold EH_set.bucketAt at hb
    simp only [EH_set.find, mask_eq, EH_set.double_dir_global_depth, hb]
    by_cases hf : ((s.deref (s.slot (hash k % 2 ^ s.global_depth))).find k).isSome = true
    · rw [if_pos hf, if_pos hf]
      exact ⟨p1, p2⟩
    · rw [if_neg hf, if_neg hf]
      exact ⟨rfl, fun _ => rfl⟩
  refine ⟨hfind.1, ?_, ?_, hfind.2⟩
  · unfold Iterator.get
    rw [hfind.1]
    rfl
  · unfold EH_set.count Iterator.same
    rw [hfind.1]
    rfl


/-- C16: directory doubling.  On a state with global depth `g` and a directory of
length `2 ^ g`, `double_dir` yields global depth `g + 1` and a directory of length
`2 ^ (g + 1)`, twice the former, in which the slots `i` and `i + 2 ^ g` both hold
the former pointer of slot `i`, for every `i < 2 ^ g`; the heap of buckets (keys,
counts, local depths) and `curr_size` are untouched; and for every key `count`
returns the same value and `find` returns an iterator with the same cursor, which
dereferences to the same element, and with the same slot when the bucket of the
key is at most as deep as the directory was. -/
theorem C16_double_dir_frame (hash : Key → Nat) (s : EH_set Key)
    (hlen : s.directory.length = 2 ^ s.global_depth) :
    s.double_dir.global_depth = s.global_depth + 1
      ∧ s.double_dir.directory.length = 2 ^ (s.global_depth + 1)
      ∧ s.double_dir.directory.length = 2 * s.directory.length
      ∧ (∀ i, i < 2 ^ s.global_depth →
          s.double_dir.slot i = s.slot i
            ∧ s.double_dir.slot (i + 2 ^ s.global_depth) = s.slot i)
      ∧ s.double_dir.buckets = s.buckets
      ∧ s.double_dir.curr_size = s.curr_size
      ∧ ∀ k, s.double_dir.count hash k = s.count hash k
          ∧ Iterator.same (s.double_dir.find hash k) (s.find hash k) = true
          ∧ (s.double_dir.find hash k).get s.double_dir = (s.find hash k).get s
          ∧ ((s.bucketAt (hash k &&& ((1 <<< s.global_depth) - 1))).local_depth
                ≤ s.global_depth →
              (s.double_dir.find hash k).buck_ind = (s.find hash k).buck_ind) := by
  refine ⟨rfl, EH_set.double_dir_length s, ?_, ?_, rfl, rfl, ?_⟩
  · rw [EH_set.double_dir_length, hlen, pow_succ, Nat.mul_comm]
  · intro i hi
    constructor
    · rw [EH_set.double_dir_slot, if_pos hi]
    · rw [EH_set.double_dir_slot, if_neg (by omega), if_pos (by rw [pow_succ]; omega),
        Nat.add_sub_cancel]
  · intro k
    obtain ⟨p1, p2, p3, p4⟩ := EH_set.double_dir_find_frame hash s k
    rw [mask_eq]
    refine ⟨p3, ?_, p2, p4⟩
    simp [Iterator.same, p1]

theorem C16_witness :
    nestedSet.directory.length = 2 ^ nestedSet.global_depth
      ∧ (nestedSet.double_dir.global_depth = nestedSet.global_depth + 1
        ∧ nestedSet.double_dir.directory.length = 2 ^ (nestedSet.global_depth + 1)
        ∧ nestedSet.double_dir.directory.length = 2 * nestedSet.directory.length
        ∧ (∀ i, i < 2 ^ nestedSet.global_depth →
            nestedSet.double_dir.slot i = nestedSet.slot i
              ∧ nestedSet.double_dir.slot (i + 2 ^ nestedSet.global_depth) = nestedSet.slot i)
        ∧ nestedSet.double_dir.buckets = nestedSet.buckets
        ∧ nestedSet.double_dir.curr_size = nestedSet.curr_size
        ∧ ∀ k, nestedSet.double_dir.count exHash k = nestedSet.count exHash k
            ∧ Iterator.same (nestedSet.double_dir.find exHash k) (nestedSet.find exHash k) = true
            ∧ (nestedSet.double_dir.find exHash k).get nestedSet.double_dir
                = (nestedSet.find exHash k).get nestedSet
            ∧ ((nestedSet.bucketAt (exHash k &&& ((1 <<< nestedSet.global_depth) - 1))).local_depth
                  ≤ nestedSet.global_depth →
                (nestedSet.double_dir.find exHash k).buck_ind
                  = (nestedSet.find exHash k).buck_ind)) :=
  ⟨by decide, C16_double_dir_frame exHash nestedSet (by decide)⟩

/-! ## The split step, bucket by bucket and slot by slot -/

theorem splitBucket_deref (hash : Key → Nat) (N : Nat) (s : EH_set Key) (ind a : Nat)
    (hslot : s.slot ind = some a) (ha : a < s.buckets.length)
    (r : Bucket Key × Bucket Key)
    (hr : redistribute hash N N 0 ⟨(s.deref (some a)).keys, (s.deref (some a)).local_depth + 1, 0⟩
      ⟨List.replicate N default, (s.deref (some a)).local_depth + 1, 0⟩ = r) :
    (s.splitBucket hash N ind).deref (some a) = r.1
      ∧ (s.splitBucket hash N ind).deref (some s.buckets.length) = r.2
      ∧ ∀ q, q < s.buckets.length → q ≠ a →
          (s.splitBucket hash N ind).deref (some q) = s.deref (some q) := by
  have heq := splitBucket_eq hash N s ind a hslot ha _ rfl r hr
  rw [heq]
  refine ⟨?_, ?_, ?_⟩
  · simp [EH_set.deref, List.getD_eq_getElem?_getD, List.getElem?_append, ha,
      List.getElem?_set]
  · simp [EH_set.deref, List.getD_eq_getElem?_getD, List.getElem?_append]
  · intro q hq hqa
    simp [EH_set.deref, List.getD_eq_getElem?_getD, List.getElem?_append, hq,
      List.getElem?_set, Ne.symm hqa]

theorem Inv.splitBucket_slot {hash : Key → Nat} {N : Nat} {s : EH_set Key} (h : Inv hash N s)
    {ind a : Nat} (hind : ind < 2 ^ s.global_depth) (hslot : s.slot ind = some a)
    {j : Nat} (hj : j < 2 ^ s.global_depth) :
    (s.splitBucket hash N ind).slot j
      = if s.slot j = some a ∧ j / 2 ^ (s.bucketAt ind).local_depth % 2 = 1 then
          some s.buckets.length
        else s.slot j := by
  have hG : 0 < 2 ^ (s.bucketAt ind).local_depth := by positivity
  have bc := Nat.mod_lt ind hG
  have bj := Nat.mod_lt j hG
  have mj := mod_succ_cases j (s.bucketAt ind).local_depth
  have hsj : s.slot j = some a →
      j % 2 ^ (s.bucketAt ind).local_depth = ind % 2 ^ (s.bucketAt ind).local_depth := by
    intro e
    rw [← hslot, eq_comm, h.slot_eq ind j hind hj, eq_comm] at e
    exact e
  rcases h.split_cases hind hslot _ rfl hj with ⟨j1, j2, e, _⟩ | ⟨j1, j2, e, _⟩ | ⟨j1, e, _⟩
  · have := hsj j1
    rw [e, if_pos ⟨j1, by omega⟩]
  · have := hsj j1
    rw [e, if_neg (by rintro ⟨_, hb⟩; omega), j1]
  · rw [e, if_neg (fun hc => j1 hc.1)]

/-- The split step of `add` in terms of the state it starts from. -/
theorem Inv.split_step {hash : Key → Nat} {N : Nat} {s : EH_set Key} (h : Inv hash N s)
    (k : Key) (hfull : (s.bucketAt (hash k % 2 ^ s.global_depth)).count = N) {a : Nat}
    (hslot : s.slot (hash k % 2 ^ s.global_depth) = some a) :
    (s.split hash N (hash k % 2 ^ s.global_depth)).buckets.length = s.buckets.length + 1
      ∧ ((s.split hash N (hash k % 2 ^ s.global_depth)).deref (some a)).local_depth
          = (s.bucketAt (hash k % 2 ^ s.global_depth)).local_depth + 1
      ∧ ((s.split hash N (hash k % 2 ^ s.global_depth)).deref
            (some s.buckets.length)).local_depth
          = (s.bucketAt (hash k % 2 ^ s.global_depth)).local_depth + 1
      ∧ ((s.split hash N (hash k % 2 ^ s.global_depth)).deref (some a)).stored
          = (s.bucketAt (hash k % 2 ^ s.global_depth)).stored.filter
              (fun x => !hashBit hash (s.bucketAt (hash k % 2 ^ s.global_depth)).local_depth x)
      ∧ ((s.split hash N (hash k % 2 ^ s.global_depth)).deref (some s.buckets.length)).stored
          = (s.bucketAt (hash k % 2 ^ s.global_depth)).stored.filter
              (fun x => hashBit hash (s.bucketAt (hash k % 2 ^ s.global_depth)).local_depth x)
      ∧ ((s.split hash N (hash k % 2 ^ s.global_depth)).deref (some a)).count
          = ((s.split hash N (hash k % 2 ^ s.global_depth)).deref (some a)).stored.length
      ∧ ((s.split hash N (hash k % 2 ^ s.global_depth)).deref (some s.buckets.length)).count
          = ((s.split hash N (hash k % 2 ^ s.global_depth)).deref
              (some s.buckets.length)).stored.length
      ∧ (∀ q, q < s.buckets.length → q ≠ a →
          (s.split hash N (hash k % 2 ^ s.global_depth)).deref (some q) = s.deref (some q))
      ∧ ∀ j, j < 2 ^ (s.split hash N (hash k % 2 ^ s.global_depth)).global_depth →
          (s.split hash N (hash k % 2 ^ s.global_depth)).slot j
            = if s.slot (j % 2 ^ s.global_depth) = some a
                ∧ j / 2 ^ (s.bucketAt (hash k % 2 ^ s.global_depth)).local_depth % 2 = 1 then
                some s.buckets.length
              else s.slot (j % 2 ^ s.global_depth) := by
  have hind : hash k % 2 ^ s.global_depth < 2 ^ s.global_depth := Nat.mod_lt _ (by positivity)
  obtain ⟨a', hslot', ha⟩ := h.valid _ hind
  rw [hslot] at hslot'
  cases hslot'
  have hle := h.ld_le _ hind
  have hb : s.deref (some a) = s.bucketAt (hash k % 2 ^ s.global_depth) := by
    rw [EH_set.bucketAt, hslot]
  obtain ⟨p1, p2, p3, p4, p5, p6, p7, p8⟩ := split_parts hash N
    (s.bucketAt (hash k % 2 ^ s.global_depth)) (h.keys_len _ hind) hfull _ rfl
  -- both branches reduce to a split of a state `s1` with the same heap
  have main : ∀ s1 : EH_set Key, Inv hash N s1 → s1.buckets = s.buckets →
      hash k % 2 ^ s.global_depth < 2 ^ s1.global_depth →
      s1.slot (hash k % 2 ^ s.global_depth) = some a →
      (∀ j, j < 2 ^ s1.global_depth → s1.slot j = s.slot (j % 2 ^ s.global_depth)) →
      (s1.splitBucket hash N (hash k % 2 ^ s.global_depth)).buckets.length
          = s.buckets.length + 1
        ∧ (s1.splitBucket hash N (hash k % 2 ^ s.global_depth)).deref (some a)
            = (redistribute hash N N 0
                ⟨(s.bucketAt (hash k % 2 ^ s.global_depth)).keys,
                  (s.bucketAt (hash k % 2 ^ s.global_depth)).local_depth + 1, 0⟩
                ⟨List.replicate N default,
                  (s.bucketAt (hash k % 2 ^ s.global_depth)).local_depth + 1, 0⟩).1
        ∧ (s1.splitBucket hash N (hash k % 2 ^ s.global_depth)).deref (some s.buckets.length)
            = (redistribute hash N N 0
                ⟨(s.bucketAt (hash k % 2 ^ s.global_depth)).keys,
                  (s.bucketAt (hash k % 2 ^ s.global_depth)).local_depth + 1, 0⟩
                ⟨List.replicate N default,
                  (s.bucketAt (hash k % 2 ^ s.global_depth)).local_depth + 1, 0⟩).2
        ∧ (∀ q, q < s.buckets.length → q ≠ a →
            (s1.splitBucket hash N (hash k % 2 ^ s.global_depth)).deref (some q)
              = s.deref (some q))
        ∧ ∀ j, j < 2 ^ (s1.splitBucket hash N (hash k % 2 ^ s.global_depth)).global_depth →
            (s1.splitBucket hash N (hash k % 2 ^ s.global_depth)).slot j
              = if s.slot (j % 2 ^ s.global_depth) = some a
                  ∧ j / 2 ^ (s.bucketAt (hash k % 2 ^ s.global_depth)).local_depth % 2 = 1 then
                  some s.buckets.length
                else s.slot (j % 2 ^ s.global_depth) := by
    intro s1 h1 hbk hind1 hslot1 hslots
    have hd1 : ∀ p, s1.deref p = s.deref p := by
      intro p; unfold EH_set.deref; rw [hbk]
    have hb1 : s1.bucketAt (hash k % 2 ^ s.global_depth)
        = s.bucketAt (hash k % 2 ^ s.global_depth) := by
      rw [EH_set.bucketAt, hslot1, hd1, hb]
    have ha1 : a < s1.buckets.length := by rw [hbk]; exact ha
    obtain ⟨f1, _, f3, _⟩ := splitBucket_fields h1 hind1
    obtain ⟨d1, d2, d3⟩ := splitBucket_deref hash N s1 _ a hslot1 ha1 _ rfl
    rw [hd1, hb] at d1 d2
    rw [hbk] at d2
    refine ⟨by rw [f3, hbk], d1, d2, ?_, ?_⟩
    · intro q hq hqa
      rw [d3 q (by rw [hbk]; exact hq) hqa, hd1]
    · intro j hj
      rw [f1] at hj
      rw [h1.splitBucket_slot hind1 hslot1 hj, hb1, hslots j hj, hbk]
  have finish : ∀ s2 : EH_set Key, Inv hash N s2 →
      s2.deref (some a) = (redistribute hash N N 0
                ⟨(s.bucketAt (hash k % 2 ^ s.global_depth)).keys,
                  (s.bucketAt (hash k % 2 ^ s.global_depth)).local_depth + 1, 0⟩
                ⟨List.replicate N default,
                  (s.bucketAt (hash k % 2 ^ s.global_depth)).local_depth + 1, 0⟩).1 →
      s2.deref (some s.buckets.length) = (redistribute hash N N 0
                ⟨(s.bucketAt (hash k % 2 ^ s.global_depth)).keys,
                  (s.bucketAt (hash k % 2 ^ s.global_depth)).local_depth + 1, 0⟩
                ⟨List.replicate N default,
                  (s.bucketAt (hash k % 2 ^ s.global_depth)).local_depth + 1, 0⟩).2 →
      (s2.deref (some a)).count = (s2.deref (some a)).stored.length
        ∧ (s2.deref (some s.buckets.length)).count
            = (s2.deref (some s.buckets.length)).stored.length := by
    intro s2 _ e1 e2
    rw [e1, e2]
    exact ⟨(Bucket.stored_length (by rw [p5]; exact p7)).symm,
      (Bucket.stored_length (by rw [p6]; exact p8)).symm⟩
  have inv' := (h.split_spec k hfull).1
  unfold EH_set.split at inv' ⊢
  rw [← EH_set.bucketAt] at inv' ⊢
  by_cases hd : (s.bucketAt (hash k % 2 ^ s.global_depth)).local_depth ≥ s.global_depth
  · rw [if_pos hd] at inv' ⊢
    have hind1 : hash k % 2 ^ s.global_depth < 2 ^ s.double_dir.global_depth := by
      rw [EH_set.double_dir_global_depth, pow_succ]; omega
    obtain ⟨m1, m2, m3, m4, m5⟩ := main s.double_dir h.double_dir_inv rfl hind1
      (by rw [EH_set.double_dir_slot_mod s hind1, Nat.mod_mod, hslot])
      (fun j hj => EH_set.double_dir_slot_mod s hj)
    obtain ⟨c1, c2⟩ := finish _ inv' m2 m3
    exact ⟨m1, by rw [m2, p3], by rw [m3, p4], by rw [m2, p1], by rw [m3, p2], c1, c2, m4, m5⟩
  · rw [if_neg hd] at inv' ⊢
    obtain ⟨m1, m2, m3, m4, m5⟩ := main s h rfl hind hslot
      (fun j hj => by rw [Nat.mod_eq_of_lt hj])
    obtain ⟨c1, c2⟩ := finish _ inv' m2 m3
    exact ⟨m1, by rw [m2, p3], by rw [m3, p4], by rw [m2, p1], by rw [m3, p2], c1, c2, m4, m5⟩

theorem filter_length_add (p : Key → Bool) (l : List Key) :
    (l.filter fun x => !p x).length + (l.filter p).length = l.length := by
  have := (List.filter_append_perm p l).length_eq
  rw [List.length_append] at this
  omega

/-- The split step of `add` on any state with the invariant, in terms of the
address of the full bucket. -/
theorem Inv.split_step_addr {hash : Key → Nat} {N : Nat} {s : EH_set Key}
    (h : Inv hash N s) (key : Key) {a : Nat}
    (hslot : s.slot (hash key % 2 ^ s.global_depth) = some a)
    (hfull : (s.deref (some a)).count = N) :
    (s.split hash N (hash key % 2 ^ s.global_depth)).buckets.length = s.buckets.length + 1
      ∧ ((s.split hash N (hash key % 2 ^ s.global_depth)).deref (some a)).local_depth
          = (s.deref (some a)).local_depth + 1
      ∧ ((s.split hash N (hash key % 2 ^ s.global_depth)).deref
            (some s.buckets.length)).local_depth = (s.deref (some a)).local_depth + 1
      ∧ ((s.split hash N (hash key % 2 ^ s.global_depth)).deref (some a)).stored
          = (s.deref (some a)).stored.filter
              (fun x => !hashBit hash (s.deref (some a)).local_depth x)
      ∧ ((s.split hash N (hash key % 2 ^ s.global_depth)).deref
            (some s.buckets.length)).stored
          = (s.deref (some a)).stored.filter
              (fun x => hashBit hash (s.deref (some a)).local_depth x)
      ∧ ((s.split hash N (hash key % 2 ^ s.global_depth)).deref (some a)).count
          + ((s.split hash N (hash key % 2 ^ s.global_depth)).deref
              (some s.buckets.length)).count = N
      ∧ (∀ q, q < s.buckets.length → q ≠ a →
          (s.split hash N (hash key % 2 ^ s.global_depth)).deref (some q)
            = s.deref (some q))
      ∧ (s.split hash N (hash key % 2 ^ s.global_depth)).global_depth
          = max s.global_depth ((s.deref (some a)).local_depth + 1)
      ∧ ∀ j, j < 2 ^ (s.split hash N (hash key % 2 ^ s.global_depth)).global_depth →
          (s.split hash N (hash key % 2 ^ s.global_depth)).slot j
            = if s.slot (j % 2 ^ s.global_depth) = some a
                ∧ j / 2 ^ (s.deref (some a)).local_depth % 2 = 1 then
                some s.buckets.length
              else s.slot (j % 2 ^ s.global_depth) := by
  have hind : hash key % 2 ^ s.global_depth < 2 ^ s.global_depth :=
    Nat.mod_lt _ (by positivity)
  have hb : s.bucketAt (hash key % 2 ^ s.global_depth) = s.deref (some a) := by
    rw [EH_set.bucketAt, hslot]
  have hfull' : (s.bucketAt (hash key % 2 ^ s.global_depth)).count = N := by
    rw [hb]; exact hfull
  obtain ⟨g1, g2, g3, g4, g5, g6, g7, g8, g9⟩ := h.split_step key hfull' hslot
  obtain ⟨_, _, _, q4, _, _⟩ := h.split_spec key hfull'
  rw [hb] at g2 g3 g4 g5 g9 q4
  refine ⟨g1, g2, g3, g4, g5, ?_, g8, q4, g9⟩
  rw [g6, g7, g4, g5, filter_length_add, ← hb, h.bucket_stored_length hind, hfull']

/-! ## Every `Bucket::insert` inside `add` succeeds -/

theorem redistributeTrace_spec (hash : Key → Nat) (N : Nat) :
    ∀ (n i : Nat) (b nb : Bucket Key), i + n = N → b.keys.length = N → nb.keys.length = N →
      b.count ≤ i → nb.count ≤ i →
      redistributeTrace hash N n i b nb = (b.keys.drop i).map fun x => (x, true) := by
  intro n
  induction n with
  | zero =>
    intro i b nb hin hb _ _ _
    rw [List.drop_of_length_le (by omega)]
    rfl
  | succ n ih =>
    intro i b nb hin hb hnb hbc hnbc
    have hi : i < b.keys.length := by omega
    have hdrop : b.keys.drop i = b.keys.getD i default :: b.keys.drop (i + 1) := by
      rw [List.drop_eq_getElem_cons hi, List.getD_eq_getElem _ _ hi]
    simp only [redistributeTrace]
    by_cases hbit : ((hash (b.keys.getD i default)) >>> (b.local_depth - 1)) &&& 1 ≠ 0
    · rw [if_pos hbit]
      obtain ⟨_, _, e3, e4, e5⟩ := Bucket.insert_spec (b := nb)
        (b.keys.getD i default) hnb (by omega)
      rw [ih (i + 1) b _ (by omega) hb e3 (by omega) (by omega), e5, hdrop]
      rfl
    · rw [if_neg hbit]
      obtain ⟨_, _, e3, e4, e5⟩ := Bucket.insert_spec (b := b)
        (b.keys.getD i default) hb (by omega)
      have hk : (b.insert N (b.keys.getD i default)).1.keys.drop (i + 1)
          = b.keys.drop (i + 1) := by
        unfold Bucket.insert
        rw [if_neg (by omega)]
        exact List.drop_set_of_lt _ _ (by omega)
      rw [ih (i + 1) _ nb (by omega) e3 hnb (by omega) (by omega), e5, hk, hdrop]
      rfl

theorem splitBucketTrace_eq (hash : Key → Nat) (N : Nat) (s : EH_set Key) (ind a : Nat)
    (hslot : s.slot ind = some a) (ha : a < s.buckets.length)
    (b : Bucket Key) (hb : s.deref (some a) = b) :
    s.splitBucketTrace hash N ind
      = redistributeTrace hash N N 0 ⟨b.keys, b.local_depth + 1, 0⟩
          ⟨List.replicate N default, b.local_depth + 1, 0⟩ := by
  have hne : a ≠ s.buckets.length := by omega
  have hne2 : s.buckets.length ≠ a := by omega
  have ha1 : a < s.buckets.length + 1 := by omega
  have hL1 : s.buckets.length < s.buckets.length + 1 := by omega
  have d2a : ({ s with buckets := s.buckets ++ [Bucket.fresh N] } : EH_set Key).deref (some a)
      = b := by
    rw [← hb]
    simp [EH_set.deref, List.getD_eq_getElem?_getD, List.getElem?_append, ha]
  have d2L : ({ s with buckets := s.buckets ++ [Bucket.fresh N] } : EH_set Key).deref
      (some s.buckets.length) = Bucket.fresh N := by
    simp [EH_set.deref, List.getD_eq_getElem?_getD, List.getElem?_append]
  unfold EH_set.splitBucketTrace
  simp only [hslot, d2a, d2L, EH_set.deref_store_same, EH_set.deref_store_ne,
    EH_set.store_buckets_length, List.length_append, List.length_singleton, ha1, hL1, ne_eq,
    Option.some.injEq, hne, hne2, not_false_eq_true]
  rfl

/-- The redistribution loop of a split reads the keys of the full bucket as they
were before the loop, in order, and each of its insertions succeeds. -/
theorem Inv.splitTrace_eq {hash : Key → Nat} {N : Nat} {s : EH_set Key} (h : Inv hash N s)
    {ind : Nat} (hind : ind < 2 ^ s.global_depth) :
    s.splitTrace hash N ind = (s.bucketAt ind).keys.map fun x => (x, true) := by
  obtain ⟨a, hslot, ha⟩ := h.valid ind hind
  have hb : s.deref (some a) = s.bucketAt ind := by rw [EH_set.bucketAt, hslot]
  have key : ∀ s1 : EH_set Key, s1.slot ind = some a → s1.buckets = s.buckets →
      s1.splitBucketTrace hash N ind = (s.bucketAt ind).keys.map fun x => (x, true) := by
    intro s1 hs1 hbk
    have hb1 : s1.deref (some a) = s.bucketAt ind := by
      rw [← hb]; unfold EH_set.deref; rw [hbk]
    rw [splitBucketTrace_eq hash N s1 ind a hs1 (by rw [hbk]; exact ha) _ hb1]
    exact redistributeTrace_spec hash N N 0
      ⟨(s.bucketAt ind).keys, (s.bucketAt ind).local_depth + 1, 0⟩
      ⟨List.replicate N default, (s.bucketAt ind).local_depth + 1, 0⟩ (by omega)
      (h.keys_len ind hind) (by simp) (Nat.zero_le _) (Nat.zero_le _)
  unfold EH_set.splitTrace
  split
  · exact key s.double_dir (by rw [EH_set.double_dir_slot, if_pos hind, hslot]) rfl
  · exact key s hslot rfl

/-! ## The states of the nested activations of `add` -/

theorem EH_set.addState_succ (hash : Key → Nat) (N : Nat) (k : Key) (n : Nat)
    (s : EH_set Key) :
    EH_set.addState hash N k (n + 1) s
      = EH_set.addState hash N k n (s.split hash N (hash k % 2 ^ s.global_depth)) := by
  simp only [EH_set.addState, mask_eq]

theorem EH_set.addState_succ_right (hash : Key → Nat) (N : Nat) (k : Key) :
    ∀ (n : Nat) (s : EH_set Key),
      EH_set.addState hash N k (n + 1) s
        = (EH_set.addState hash N k n s).split hash N
            (hash k % 2 ^ (EH_set.addState hash N k n s).global_depth) := by
  intro n
  induction n with
  | zero => intro s; rw [EH_set.addState_succ]; rfl
  | succ n ih =>
    intro s
    rw [EH_set.addState_succ, ih, ← EH_set.addState_succ]

/-- As long as the activations find their target bucket full, the invariant holds
in the state of each and every bucket of its heap is referenced. -/
theorem Inv.addState_inv {hash : Key → Nat} {N : Nat} (k : Key) :
    ∀ (n : Nat) (s : EH_set Key), Inv hash N s → s.AllReferenced →
      (∀ m, m < n →
        ¬ ((EH_set.addState hash N k m s).bucketAt
          (hash k % 2 ^ (EH_set.addState hash N k m s).global_depth)).count < N) →
      Inv hash N (EH_set.addState hash N k n s)
        ∧ (EH_set.addState hash N k n s).AllReferenced := by
  intro n
  induction n with
  | zero => intro s h hr _; exact ⟨h, hr⟩
  | succ n ih =>
    intro s h hr hfull
    obtain ⟨g1, g2⟩ := ih s h hr (fun m hm => hfull m (Nat.lt_succ_of_lt hm))
    have hc := g1.count_le _ (Nat.mod_lt (hash k) (by positivity :
      0 < 2 ^ (EH_set.addState hash N k n s).global_depth))
    have hf := hfull n (Nat.lt_succ_self n)
    rw [EH_set.addState_succ_right]
    exact ⟨(g1.split_spec k (by omega)).1, g1.allReferenced_split g2 k⟩

/-- The `n`-th nested activation of `add` runs in the state `addState n`. -/
theorem EH_set.add_eq_addState (hash : Key → Nat) (N : Nat) (k : Key) :
    ∀ (n fuel : Nat) (s : EH_set Key),
      (∀ m, m < n →
        ¬ ((EH_set.addState hash N k m s).bucketAt
          (hash k % 2 ^ (EH_set.addState hash N k m s).global_depth)).count < N) →
      s.add hash N (n + fuel) k = (EH_set.addState hash N k n s).add hash N fuel k := by
  intro n
  induction n with
  | zero => intro fuel s _; rw [Nat.zero_add]; rfl
  | succ n ih =>
    intro fuel s hfull
    have h0 : ¬ (s.bucketAt (hash k % 2 ^ s.global_depth)).count < N :=
      hfull 0 (Nat.succ_pos n)
    have e : n + 1 + fuel = (n + fuel) + 1 := by omega
    rw [e, EH_set.add_succ, if_neg h0, EH_set.addState_succ]
    apply ih
    intro m hm
    have := hfull (m + 1) (by omega)
    rw [EH_set.addState_succ] at this
    exact this

/-- C15: split step of `add`.  Take `add(key)` called on a reachable state `s0`
and its `n`-th nested activation, reached because the earlier ones found their
target bucket full (`n = 0` is the call itself); `s` is the state of that
activation.  When it splits the full bucket `B` (at address `a`, `count == N`,
local depth `t`), the recursive retry runs on the state after the split, in which
one bucket has been allocated (`B'`, at the next address), `B` and `B'` both have
local depth `t + 1`, `B` holds the former keys of `B` whose hash has bit `t` clear
and `B'` those whose hash has bit `t` set, each group in its former order, the two
counts add up to `N`, no other bucket has changed, and a slot holds `B'` exactly
when it referenced `B` (in the directory as doubled, when it was) and its index
has bit `t` set, every other slot keeping its pointer. -/
theorem C15_split_step {hash : Key → Nat} {N : Nat} {s0 : EH_set Key}
    (hR : Reachable hash N s0) (key : Key) (n : Nat)
    (hchain : ∀ m, m < n →
      ¬ ((EH_set.addState hash N key m s0).bucketAt
        (hash key &&& ((1 <<< (EH_set.addState hash N key m s0).global_depth) - 1))).count < N)
    (s : EH_set Key) (hs : s = EH_set.addState hash N key n s0) {a : Nat}
    (hslot : s.slot (hash key &&& ((1 <<< s.global_depth) - 1)) = some a)
    (hfull : (s.deref (some a)).count = N) :
    (∀ fuel, s0.add hash N (n + 1 + fuel) key
        = (s.split hash N (hash key &&& ((1 <<< s.global_depth) - 1))).add hash N fuel key)
      ∧ (s.split hash N (hash key &&& ((1 <<< s.global_depth) - 1))).buckets.length
        = s.buckets.length + 1
      ∧ ((s.split hash N (hash key &&& ((1 <<< s.global_depth) - 1))).deref
            (some a)).local_depth = (s.deref (some a)).local_depth + 1
      ∧ ((s.split hash N (hash key &&& ((1 <<< s.global_depth) - 1))).deref
            (some s.buckets.length)).local_depth = (s.deref (some a)).local_depth + 1
      ∧ ((s.split hash N (hash key &&& ((1 <<< s.global_depth) - 1))).deref (some a)).stored
          = (s.deref (some a)).stored.filter
              (fun x => !hashBit hash (s.deref (some a)).local_depth x)
      ∧ ((s.split hash N (hash key &&& ((1 <<< s.global_depth) - 1))).deref
            (some s.buckets.length)).stored
          = (s.deref (some a)).stored.filter
              (fun x => hashBit hash (s.deref (some a)).local_depth x)
      ∧ (∀ x, hashBit hash (s.deref (some a)).local_depth x = true
          ↔ hash x / 2 ^ (s.deref (some a)).local_depth % 2 = 1)
      ∧ ((s.split hash N (hash key &&& ((1 <<< s.global_depth) - 1))).deref (some a)).count
          + ((s.split hash N (hash key &&& ((1 <<< s.global_depth) - 1))).deref
              (some s.buckets.length)).count = N
      ∧ (∀ q, q < s.buckets.length → q ≠ a →
          (s.split hash N (hash key &&& ((1 <<< s.global_depth) - 1))).deref (some q)
            = s.deref (some q))
      ∧ (s.split hash N (hash key &&& ((1 <<< s.global_depth) - 1))).global_depth
          = max s.global_depth ((s.deref (some a)).local_depth + 1)
      ∧ ∀ j, j < 2 ^ (s.split hash N (hash key &&& ((1 <<< s.global_depth) - 1))).global_depth →
          (s.split hash N (hash key &&& ((1 <<< s.global_depth) - 1))).slot j
            = if s.slot (j % 2 ^ s.global_depth) = some a
                ∧ j / 2 ^ (s.deref (some a)).local_depth % 2 = 1 then
                some s.buckets.length
              else s.slot (j % 2 ^ s.global_depth) := by
  simp only [mask_eq] at hchain
  rw [mask_eq] at hslot ⊢
  subst hs
  obtain ⟨hi, _⟩ := Inv.addState_inv key n s0 hR.wf.1 hR.allReferenced hchain
  obtain ⟨g1, g2, g3, g4, g5, g6, g7, g8, g9⟩ := hi.split_step_addr key hslot hfull
  refine ⟨fun fuel => ?_, g1, g2, g3, g4, g5, ?_, g6, g7, g8, g9⟩
  · have hchain1 : ∀ m, m < n + 1 →
        ¬ ((EH_set.addState hash N key m s0).bucketAt
          (hash key % 2 ^ (EH_set.addState hash N key m s0).global_depth)).count < N := by
      intro m hm
      rcases Nat.eq_or_lt_of_le (Nat.lt_succ_iff.1 hm) with e | hlt
      · rw [e, EH_set.bucketAt, hslot, hfull]
        exact lt_irrefl N
      · exact hchain m hlt
    rw [EH_set.add_eq_addState hash N key (n + 1) fuel s0 hchain1,
      EH_set.addState_succ_right]
  · intro x
    rw [hashBit_eq, decide_eq_true_eq]

theorem C15_witness :
    Reachable exHash 1 collideSet
      ∧ (∀ m, m < 1 →
          ¬ ((EH_set.addState exHash 1 4 m collideSet).bucketAt
            (exHash 4
              &&& ((1 <<< (EH_set.addState exHash 1 4 m collideSet).global_depth) - 1))).count
            < 1)
      ∧ nestedSet = EH_set.addState exHash 1 4 1 collideSet
      ∧ nestedSet.slot (exHash 4 &&& ((1 <<< nestedSet.global_depth) - 1)) = some 0
      ∧ (nestedSet.deref (some 0)).count = 1
      ∧ ((∀ fuel, collideSet.add exHash 1 (1 + 1 + fuel) 4
            = (nestedSet.split exHash 1 (exHash 4 &&& ((1 <<< nestedSet.global_depth) - 1))).add exHash 1 fuel 4)
          ∧ (nestedSet.split exHash 1 (exHash 4 &&& ((1 <<< nestedSet.global_depth) - 1))).buckets.length
            = nestedSet.buckets.length + 1
          ∧ ((nestedSet.split exHash 1 (exHash 4 &&& ((1 <<< nestedSet.global_depth) - 1))).deref
                (some 0)).local_depth = (nestedSet.deref (some 0)).local_depth + 1
          ∧ ((nestedSet.split exHash 1 (exHash 4 &&& ((1 <<< nestedSet.global_depth) - 1))).deref
                (some nestedSet.buckets.length)).local_depth = (nestedSet.deref (some 0)).local_depth + 1
          ∧ ((nestedSet.split exHash 1 (exHash 4 &&& ((1 <<< nestedSet.global_depth) - 1))).deref (some 0)).stored
              = (nestedSet.deref (some 0)).stored.filter
                  (fun x => !hashBit exHash (nestedSet.deref (some 0)).local_depth x)
          ∧ ((nestedSet.split exHash 1 (exHash 4 &&& ((1 <<< nestedSet.global_depth) - 1))).deref
                (some nestedSet.buckets.length)).stored
              = (nestedSet.deref (some 0)).stored.filter
                  (fun x => hashBit exHash (nestedSet.deref (some 0)).local_depth x)
          ∧ (∀ x, hashBit exHash (nestedSet.deref (some 0)).local_depth x = true
              ↔ exHash x / 2 ^ (nestedSet.deref (some 0)).local_depth % 2 = 1)
          ∧ ((nestedSet.split exHash 1 (exHash 4 &&& ((1 <<< nestedSet.global_depth) - 1))).deref (some 0)).count
              + ((nestedSet.split exHash 1 (exHash 4 &&& ((1 <<< nestedSet.global_depth) - 1))).deref
                  (some nestedSet.buckets.length)).count = 1
          ∧ (∀ q, q < nestedSet.buckets.length → q ≠ 0 →
              (nestedSet.split exHash 1 (exHash 4 &&& ((1 <<< nestedSet.global_depth) - 1))).deref (some q)
                = nestedSet.deref (some q))
          ∧ (nestedSet.split exHash 1 (exHash 4 &&& ((1 <<< nestedSet.global_depth) - 1))).global_depth
              = max nestedSet.global_depth ((nestedSet.deref (some 0)).local_depth + 1)
          ∧ ∀ j, j < 2 ^ (nestedSet.split exHash 1 (exHash 4 &&& ((1 <<< nestedSet.global_depth) - 1))).global_depth →
              (nestedSet.split exHash 1 (exHash 4 &&& ((1 <<< nestedSet.global_depth) - 1))).slot j
                = if nestedSet.slot (j % 2 ^ nestedSet.global_depth) = some 0
                    ∧ j / 2 ^ (nestedSet.deref (some 0)).local_depth % 2 = 1 then
                    some nestedSet.buckets.length
                  else nestedSet.slot (j % 2 ^ nestedSet.global_depth)) :=
  ⟨collideSet_reachable_ex, by decide, by decide, by decide, by decide,
    C15_split_step collideSet_reachable_ex 4 1 (by decide) nestedSet (by decide)
      (show nestedSet.slot (exHash 4 &&& ((1 <<< nestedSet.global_depth) - 1)) = some 0
        by decide)
      (by decide)⟩

/-- C19: capacity safety.  Take `add(key)` called on a reachable state `s` and
its `n`-th nested activation, reached because the earlier ones found their target
bucket full (`n = 0` is the call itself); `sn` is the state of that activation and
`ind` its slot `hash(key) & (2 ^ global_depth - 1)`.  Every bucket of the heap of
`sn` has `count <= N`.  If the target bucket has room, the direct `Bucket::insert`
returns the address of `keys[count]`, not null.  Otherwise the redistribution loop
reads, at its `N` iterations, the `N` keys of the full bucket as they were before
the loop (no slot is read after it was overwritten), each `Bucket::insert` it
calls returns non-null, and the keys of the two buckets after the split are a
rearrangement of the keys of the full bucket. -/
theorem C19_capacity_safety {hash : Key → Nat} {N : Nat} {s : EH_set Key}
    (hR : Reachable hash N s) (key : Key) (n : Nat)
    (hfull : ∀ m, m < n →
      ¬ ((EH_set.addState hash N key m s).bucketAt
        (hash key &&& ((1 <<< (EH_set.addState hash N key m s).global_depth) - 1))).count < N)
    (sn : EH_set Key) (hsn : sn = EH_set.addState hash N key n s)
    (ind : Nat) (hind : ind = hash key &&& ((1 <<< sn.global_depth) - 1)) :
    (∀ fuel, s.add hash N (n + fuel) key = sn.add hash N fuel key)
      ∧ (∀ a, a < sn.buckets.length → (sn.deref (some a)).count ≤ N)
      ∧ ((sn.bucketAt ind).count < N →
          ((sn.bucketAt ind).insert N key).2 = some (sn.bucketAt ind).count)
      ∧ (¬ (sn.bucketAt ind).count < N →
          sn.splitTrace hash N ind = (sn.bucketAt ind).keys.map (fun x => (x, true))
            ∧ (sn.bucketAt ind).keys.length = N
            ∧ (sn.bucketAt ind).stored = (sn.bucketAt ind).keys
            ∧ ∃ a, sn.slot ind = some a
                ∧ (((sn.split hash N ind).deref (some a)).stored
                    ++ ((sn.split hash N ind).deref (some sn.buckets.length)).stored).Perm
                    (sn.bucketAt ind).stored) := by
  simp only [mask_eq] at hfull
  rw [mask_eq] at hind
  subst hsn
  subst hind
  obtain ⟨hi, hr⟩ := Inv.addState_inv key n s hR.wf.1 hR.allReferenced hfull
  have hlt : hash key % 2 ^ (EH_set.addState hash N key n s).global_depth
      < 2 ^ (EH_set.addState hash N key n s).global_depth := Nat.mod_lt _ (by positivity)
  refine ⟨fun fuel => EH_set.add_eq_addState hash N key n fuel s hfull, ?_, ?_, ?_⟩
  · intro a ha
    obtain ⟨i, hil, hs⟩ := hr a ha
    rw [← hs, ← EH_set.bucketAt]
    exact hi.count_le i hil
  · intro hc
    exact (Bucket.insert_spec key (hi.keys_len _ hlt) hc).2.2.2.2
  · intro hc
    have hcnt : ((EH_set.addState hash N key n s).bucketAt
        (hash key % 2 ^ (EH_set.addState hash N key n s).global_depth)).count = N :=
      le_antisymm (hi.count_le _ hlt) (Nat.le_of_not_lt hc)
    obtain ⟨a, ha, _⟩ := hi.valid _ hlt
    obtain ⟨_, _, _, g4, g5, _, _, _, _⟩ := hi.split_step key hcnt ha
    refine ⟨hi.splitTrace_eq hlt, hi.keys_len _ hlt, ?_, a, ha, ?_⟩
    · unfold Bucket.stored
      rw [hcnt]
      exact List.take_of_length_le (le_of_eq (hi.keys_len _ hlt))
    · rw [g4, g5]
      exact List.perm_append_comm.trans (List.filter_append_perm _ _)

theorem C19_witness :
    Reachable exHash 2 exSet
      ∧ (∀ m, m < 1 →
          ¬ ((EH_set.addState exHash 2 10 m exSet).bucketAt
            (exHash 10 &&& ((1 <<< (EH_set.addState exHash 2 10 m exSet).global_depth) - 1))).count
              < 2)
      ∧ EH_set.addState exHash 2 10 1 exSet = EH_set.addState exHash 2 10 1 exSet
      ∧ 2 = exHash 10 &&& ((1 <<< (EH_set.addState exHash 2 10 1 exSet).global_depth) - 1)
      ∧ ((∀ fuel, exSet.add exHash 2 (1 + fuel) 10
            = (EH_set.addState exHash 2 10 1 exSet).add exHash 2 fuel 10)
        ∧ (∀ a, a < (EH_set.addState exHash 2 10 1 exSet).buckets.length →
            ((EH_set.addState exHash 2 10 1 exSet).deref (some a)).count ≤ 2)
        ∧ (((EH_set.addState exHash 2 10 1 exSet).bucketAt 2).count < 2 →
            (((EH_set.addState exHash 2 10 1 exSet).bucketAt 2).insert 2 10).2
              = some ((EH_set.addState exHash 2 10 1 exSet).bucketAt 2).count)
        ∧ (¬ ((EH_set.addState exHash 2 10 1 exSet).bucketAt 2).count < 2 →
            (EH_set.addState exHash 2 10 1 exSet).splitTrace exHash 2 2
                = ((EH_set.addState exHash 2 10 1 exSet).bucketAt 2).keys.map
                    (fun x => (x, true))
              ∧ ((EH_set.addState exHash 2 10 1 exSet).bucketAt 2).keys.length = 2
              ∧ ((EH_set.addState exHash 2 10 1 exSet).bucketAt 2).stored
                  = ((EH_set.addState exHash 2 10 1 exSet).bucketAt 2).keys
              ∧ ∃ a, (EH_set.addState exHash 2 10 1 exSet).slot 2 = some a
                  ∧ ((((EH_set.addState exHash 2 10 1 exSet).split exHash 2 2).deref
                        (some a)).stored
                      ++ (((EH_set.addState exHash 2 10 1 exSet).split exHash 2 2).deref
                          (some (EH_set.addState exHash 2 10 1 exSet).buckets.length)).stored).Perm
                      ((EH_set.addState exHash 2 10 1 exSet).bucketAt 2).stored)) :=
  ⟨exSet_reachable, by decide, rfl, by decide,
    C19_capacity_safety exSet_reachable 10 1 (by decide)
      (EH_set.addState exHash 2 10 1 exSet) rfl 2 (by decide)⟩

/-! ## The exact number of splits of `add` -/

theorem hashBit_beq_iff (hash : Key → Nat) (t : Nat) (x k : Key)
    (hlow : hash x % 2 ^ t = hash k % 2 ^ t) :
    (hashBit hash t x == hashBit hash t k) = true
      ↔ hash x % 2 ^ (t + 1) = hash k % 2 ^ (t + 1) := by
  have mx := mod_succ_cases (hash x) t
  have mk := mod_succ_cases (hash k) t
  have hG : 0 < 2 ^ t := by positivity
  rw [hashBit_eq, hashBit_eq, beq_iff_eq, decide_eq_decide]
  constructor
  · intro h; omega
  · intro h; omega

theorem Inv.add_exact {hash : Key → Nat} {N : Nat} (k : Key) (p : Nat) :
    ∀ (d : Nat) (s : EH_set Key), Inv hash N s →
      (s.bucketAt (hash k % 2 ^ s.global_depth)).count = N →
      p = (s.bucketAt (hash k % 2 ^ s.global_depth)).local_depth + d →
      (∀ x ∈ (s.bucketAt (hash k % 2 ^ s.global_depth)).stored,
        hash x % 2 ^ p = hash k % 2 ^ p) →
      (∃ x ∈ (s.bucketAt (hash k % 2 ^ s.global_depth)).stored,
        hash x % 2 ^ (p + 1) ≠ hash k % 2 ^ (p + 1)) →
      ∃ s', s.add hash N (d + 2) k = some s' ∧ s.add hash N (d + 1) k = none
        ∧ s'.buckets.length = s.buckets.length + (d + 1)
        ∧ s'.global_depth = max s.global_depth (p + 1)
        ∧ (∀ m, m ≤ d → ((EH_set.addState hash N k m s).bucketAt
            (hash k % 2 ^ (EH_set.addState hash N k m s).global_depth)).count = N)
        ∧ ((EH_set.addState hash N k (d + 1) s).bucketAt
            (hash k % 2 ^ (EH_set.addState hash N k (d + 1) s).global_depth)).count < N := by
  intro d
  induction d with
  | zero =>
    intro s h hfull hp hp1 hp2
    have hind : hash k % 2 ^ s.global_depth < 2 ^ s.global_depth := Nat.mod_lt _ (by positivity)
    obtain ⟨a, ha, _⟩ := h.valid _ hind
    obtain ⟨q1, _, _, q4, q5, _⟩ := h.split_spec k hfull
    obtain ⟨l1, _⟩ := h.split_step k hfull ha
    have hind1 : hash k % 2 ^ (s.split hash N (hash k % 2 ^ s.global_depth)).global_depth
        < 2 ^ (s.split hash N (hash k % 2 ^ s.global_depth)).global_depth :=
      Nat.mod_lt _ (by positivity)
    obtain ⟨x, hx, hne⟩ := hp2
    have hlow := hp1 x hx
    rw [Nat.add_zero] at hp
    subst hp
    have hbit : ¬ (hashBit hash (s.bucketAt (hash k % 2 ^ s.global_depth)).local_depth x
        == hashBit hash (s.bucketAt (hash k % 2 ^ s.global_depth)).local_depth k) = true :=
      fun hb => hne ((hashBit_beq_iff hash _ x k hlow).1 hb)
    have hroom : ((s.split hash N (hash k % 2 ^ s.global_depth)).bucketAt
        (hash k % 2 ^ (s.split hash N (hash k % 2 ^ s.global_depth)).global_depth)).count
        < N := by
      rw [← q1.bucket_stored_length hind1, q5, ← hfull, ← h.bucket_stored_length hind]
      exact List.length_filter_lt_length_iff_exists.2 ⟨x, hx, hbit⟩
    have e1 := EH_set.add_succ hash N 0 (s.split hash N (hash k % 2 ^ s.global_depth)) k
    rw [if_pos hroom] at e1
    have e2 : s.add hash N (0 + 2) k = (s.split hash N (hash k % 2 ^ s.global_depth)).add
        hash N (0 + 1) k := by
      rw [EH_set.add_succ, if_neg (by omega)]
    have e3 : s.add hash N (0 + 1) k = none := by
      rw [EH_set.add_succ, if_neg (by omega)]
      rfl
    refine ⟨_, e2.trans e1, e3, by rw [EH_set.store_buckets_length, l1],
      by rw [EH_set.store_global_depth, q4], ?_, ?_⟩
    · intro m hm
      rw [Nat.le_zero.1 hm]
      exact hfull
    · rw [EH_set.addState_succ]
      exact hroom
  | succ d ih =>
    intro s h hfull hp hp1 hp2
    have hind : hash k % 2 ^ s.global_depth < 2 ^ s.global_depth := Nat.mod_lt _ (by positivity)
    obtain ⟨a, ha, _⟩ := h.valid _ hind
    obtain ⟨q1, _, _, q4, q5, q6⟩ := h.split_spec k hfull
    obtain ⟨l1, _⟩ := h.split_step k hfull ha
    have hind1 : hash k % 2 ^ (s.split hash N (hash k % 2 ^ s.global_depth)).global_depth
        < 2 ^ (s.split hash N (hash k % 2 ^ s.global_depth)).global_depth :=
      Nat.mod_lt _ (by positivity)
    have hkeep : (s.bucketAt (hash k % 2 ^ s.global_depth)).stored.filter
        (fun x => hashBit hash (s.bucketAt (hash k % 2 ^ s.global_depth)).local_depth x
          == hashBit hash (s.bucketAt (hash k % 2 ^ s.global_depth)).local_depth k)
        = (s.bucketAt (hash k % 2 ^ s.global_depth)).stored := by
      rw [List.filter_eq_self]
      intro x hx
      have e1 := hp1 x hx
      rw [hashBit_beq_iff hash _ x k (mod_eq_of_mod_eq_pow (by omega) e1)]
      exact mod_eq_of_mod_eq_pow (by omega) e1
    rw [hkeep] at q5
    have hfull1 : ((s.split hash N (hash k % 2 ^ s.global_depth)).bucketAt
        (hash k % 2 ^ (s.split hash N (hash k % 2 ^ s.global_depth)).global_depth)).count
        = N := by
      rw [← q1.bucket_stored_length hind1, q5, h.bucket_stored_length hind, hfull]
    obtain ⟨s', g1, g2, g3, g4, g5, g6⟩ := ih _ q1 hfull1 (by rw [q6]; omega)
      (by rw [q5]; exact hp1) (by rw [q5]; exact hp2)
    refine ⟨s', ?_, ?_, ?_, ?_, ?_, ?_⟩
    · rw [EH_set.add_succ, if_neg (by omega)]; exact g1
    · rw [EH_set.add_succ, if_neg (by omega)]; exact g2
    · rw [g3, l1]; omega
    · rw [g4, q4, max_assoc, max_eq_right (show
        (s.bucketAt (hash k % 2 ^ s.global_depth)).local_depth + 1 ≤ p + 1 by omega)]
    · intro m hm
      cases m with
      | zero => exact hfull
      | succ m =>
        rw [EH_set.addState_succ]
        exact g5 m (by omega)
    · rw [EH_set.addState_succ]
      exact g6

/-- C20: exact termination condition of `add`.  In a reachable state, with `B` the
target bucket of the key, `add(key)` returns (for some number of activations) iff
`B` is not full or some key stored in `B` has a hash different from `hash(key)`.
When `B` is full with local depth `t` and `p` is the lowest bit position at which
a stored hash differs from `hash(key)`, then `t ≤ p`, the first `p - t + 1`
activations all find their target full and split it, the next one finds room, so
`add` returns with exactly `p - t + 2` activations and not with fewer, the heap
has grown by exactly `p - t + 1` buckets and `global_depth` is
`max(old global_depth, p + 1)`.  When `B` is full and all stored hashes equal
`hash(key)`, `add` returns for no number of activations. -/
theorem C20_add_exact_termination {hash : Key → Nat} {N : Nat} {s : EH_set Key}
    (hR : Reachable hash N s) (key : Key) (B : Bucket Key)
    (hB : B = s.bucketAt (hash key &&& ((1 <<< s.global_depth) - 1))) :
    ((∃ fuel s', s.add hash N fuel key = some s')
        ↔ (B.count < N ∨ ∃ x ∈ B.stored, hash x ≠ hash key))
      ∧ (∀ p, B.count = N →
          (∀ x ∈ B.stored, hash x % 2 ^ p = hash key % 2 ^ p) →
          (∃ x ∈ B.stored, hash x % 2 ^ (p + 1) ≠ hash key % 2 ^ (p + 1)) →
          B.local_depth ≤ p
            ∧ ∃ s', s.add hash N (p - B.local_depth + 2) key = some s'
              ∧ s.add hash N (p - B.local_depth + 1) key = none
              ∧ s'.buckets.length = s.buckets.length + (p - B.local_depth + 1)
              ∧ s'.global_depth = max s.global_depth (p + 1)
              ∧ (∀ m, m ≤ p - B.local_depth →
                  ((EH_set.addState hash N key m s).bucketAt
                    (hash key &&& ((1 <<< (EH_set.addState hash N key m s).global_depth) - 1))).count
                    = N)
              ∧ ((EH_set.addState hash N key (p - B.local_depth + 1) s).bucketAt
                  (hash key &&& ((1 <<<
                    (EH_set.addState hash N key (p - B.local_depth + 1) s).global_depth) - 1))).count
                  < N)
      ∧ (B.count = N → (∀ x ∈ B.stored, hash x = hash key) →
          ∀ fuel, s.add hash N fuel key = none) := by
  have hi := hR.wf.1
  rw [mask_eq] at hB
  have hind : hash key % 2 ^ s.global_depth < 2 ^ s.global_depth := Nat.mod_lt _ (by positivity)
  subst hB
  refine ⟨⟨?_, ?_⟩, ?_, ?_⟩
  · rintro ⟨fuel, s', hs'⟩
    by_contra hcon
    rw [not_or] at hcon
    have hfull : (s.bucketAt (hash key % 2 ^ s.global_depth)).count = N :=
      le_antisymm (hi.count_le _ hind) (not_lt.1 hcon.1)
    have hall : ∀ x ∈ (s.bucketAt (hash key % 2 ^ s.global_depth)).stored,
        hash x = hash key := by
      intro x hx
      by_contra hne
      exact hcon.2 ⟨x, hx, hne⟩
    rw [hi.add_diverges key fuel s hfull hall] at hs'
    exact Option.noConfusion hs'
  · intro hsep
    have hsep2 : (s.bucketAt (hash key % 2 ^ s.global_depth)).count < N
        ∨ ∃ x ∈ (s.bucketAt (hash key % 2 ^ s.global_depth)).stored,
            ∃ m, hash x % 2 ^ m ≠ hash key % 2 ^ m := by
      rcases hsep with h1 | ⟨x, hx, hne⟩
      · exact Or.inl h1
      · exact Or.inr ⟨x, hx, _, exists_pow_separates hne⟩
    rcases hsep2 with h1 | ⟨x, hx, m, hm⟩
    · obtain ⟨s', h2, _⟩ := Inv.add_terminates key 0 _ s hi (le_refl _) (Or.inl h1)
      exact ⟨_, s', h2⟩
    · obtain ⟨s', h2, _⟩ := Inv.add_terminates key m _ s hi (le_refl _)
        (Or.inr ⟨x, hx, hm⟩)
      exact ⟨_, s', h2⟩
  · intro p hfull hp1 hp2
    have htp : (s.bucketAt (hash key % 2 ^ s.global_depth)).local_depth ≤ p := by
      by_contra hlt
      obtain ⟨x, hx, hne⟩ := hp2
      apply hne
      have r1 := hi.route _ hind x hx
      rw [mod_mod_pow_le _ (hi.ld_le _ hind)] at r1
      exact mod_eq_of_mod_eq_pow (by omega) r1
    refine ⟨htp, ?_⟩
    obtain ⟨s', g1, g2, g3, g4, g5, g6⟩ := hi.add_exact key p
      (p - (s.bucketAt (hash key % 2 ^ s.global_depth)).local_depth) s hfull
      (by omega) hp1 hp2
    refine ⟨s', g1, g2, g3, g4, ?_, ?_⟩
    · intro m hm
      rw [mask_eq]
      exact g5 m hm
    · rw [mask_eq]
      exact g6
  · intro hfull hall fuel
    exact hi.add_diverges key fuel s hfull hall

theorem C20_witness :
    Reachable exHash 2 exSet
      ∧ (exSet.bucketAt 2).count = 2
      ∧ (∀ x ∈ (exSet.bucketAt 2).stored, exHash x % 2 ^ 2 = exHash 10 % 2 ^ 2)
      ∧ (∃ x ∈ (exSet.bucketAt 2).stored, exHash x % 2 ^ (2 + 1) ≠ exHash 10 % 2 ^ (2 + 1))
      ∧ ((exSet.bucketAt 2).local_depth ≤ 2
        ∧ ∃ s', exSet.add exHash 2 (2 - (exSet.bucketAt 2).local_depth + 2) 10 = some s'
          ∧ exSet.add exHash 2 (2 - (exSet.bucketAt 2).local_depth + 1) 10 = none
          ∧ s'.buckets.length = exSet.buckets.length + (2 - (exSet.bucketAt 2).local_depth + 1)
          ∧ s'.global_depth = max exSet.global_depth (2 + 1)
          ∧ (∀ m, m ≤ 2 - (exSet.bucketAt 2).local_depth →
              ((EH_set.addState exHash 2 10 m exSet).bucketAt
                (exHash 10 &&& ((1 <<< (EH_set.addState exHash 2 10 m exSet).global_depth) - 1))).count
                = 2)
          ∧ ((EH_set.addState exHash 2 10 (2 - (exSet.bucketAt 2).local_depth + 1) exSet).bucketAt
              (exHash 10 &&& ((1 <<<
                (EH_set.addState exHash 2 10 (2 - (exSet.bucketAt 2).local_depth + 1)
                  exSet).global_depth) - 1))).count
              < 2) :=
  ⟨exSet_reachable, by decide, by decide, by decide,
    (C20_add_exact_termination exSet_reachable 10 (exSet.bucketAt 2) (by decide)).2.1 2
      (by decide) (by decide) (by decide)⟩

/-! ## The scenario of five keys with hashes 0 to 4 -/

/-- C17, as stated, fails: with capacity 2 and the keys 0, 1, 2 of hashes 0, 1, 2,
the first two insertions leave one key in each of the two buckets (the bucket at
slot 0 holds one key and is not full), and the insertion of the third key puts
it into the bucket at slot 0 with no doubling and no split: `global_depth` is
still 1, the directory has 2 slots and the heap 2 buckets. -/
theorem C17_counterexample :
    exHash 0 = 0 ∧ exHash 1 = 1 ∧ exHash 2 = 2
      ∧ (EH_set.empty 2).insertRange exHash 2 1 [0, 1] = some (scenTwo 0 1)
      ∧ ((scenTwo 0 1).bucketAt 0).stored = [0]
      ∧ ((scenTwo 0 1).bucketAt 0).count ≠ 2
      ∧ ((scenTwo 0 1).bucketAt 1).stored = [1]
      ∧ (EH_set.empty 2).insertRange exHash 2 1 [0, 1, 2] = some (scenThree 0 1 2)
      ∧ (scenThree 0 1 2).global_depth = 1
      ∧ (scenThree 0 1 2).directory.length = 2
      ∧ (scenThree 0 1 2).buckets.length = 2
      ∧ ((scenThree 0 1 2).bucketAt 0).stored = [0, 2] := by
  decide

/-- C17, amended: the scenario with capacity 2 and five keys of hashes 0, 1, 2, 3,
4 inserted in this order into `EH_set()`.  The first two keys go to the buckets
at slots 0 and 1, one each; the third and fourth fill these two buckets; up to
here every `add` returns in its first activation, `global_depth` is 1 and the
directory has 2 slots.  The fifth key finds the bucket at slot 0 full: `add`
needs a second activation, doubles the directory to 4 slots and splits that
bucket into two buckets of depth 2 at slots 0 and 2, while slots 1 and 3 share
the other bucket of depth 1.  Afterwards `size()` is 5 and `find` succeeds for
each of the five keys. -/
theorem C17_scenario (hash : Key → Nat) (k0 k1 k2 k3 k4 : Key)
    (h0 : hash k0 = 0) (h1 : hash k1 = 1) (h2 : hash k2 = 2) (h3 : hash k3 = 3)
    (h4 : hash k4 = 4) :
    ((EH_set.empty 2).insertRange hash 2 1 [k0, k1] = some (scenTwo k0 k1)
        ∧ (scenTwo k0 k1).global_depth = 1 ∧ (scenTwo k0 k1).directory.length = 2
        ∧ ((scenTwo k0 k1).bucketAt 0).stored = [k0]
        ∧ ((scenTwo k0 k1).bucketAt 1).stored = [k1])
      ∧ ((EH_set.empty 2).insertRange hash 2 1 [k0, k1, k2, k3] = some (scenFour k0 k1 k2 k3)
        ∧ (scenFour k0 k1 k2 k3).global_depth = 1
        ∧ (scenFour k0 k1 k2 k3).directory.length = 2
        ∧ (scenFour k0 k1 k2 k3).buckets.length = 2
        ∧ ((scenFour k0 k1 k2 k3).bucketAt 0).stored = [k0, k2]
        ∧ ((scenFour k0 k1 k2 k3).bucketAt 1).stored = [k1, k3])
      ∧ ((scenFour k0 k1 k2 k3).insert hash 2 1 k4 = none
        ∧ (scenFour k0 k1 k2 k3).insert hash 2 2 k4
            = some (scenFive k0 k1 k2 k3 k4,
                Iterator.ofKey hash (scenFive k0 k1 k2 k3 k4) k4, true)
        ∧ (scenFive k0 k1 k2 k3 k4).global_depth = 2
        ∧ (scenFive k0 k1 k2 k3 k4).directory.length = 4
        ∧ (scenFive k0 k1 k2 k3 k4).buckets.length = 3
        ∧ (scenFive k0 k1 k2 k3 k4).slot 0 ≠ (scenFive k0 k1 k2 k3 k4).slot 2
        ∧ ((scenFive k0 k1 k2 k3 k4).bucketAt 0).local_depth = 2
        ∧ ((scenFive k0 k1 k2 k3 k4).bucketAt 2).local_depth = 2
        ∧ ((scenFive k0 k1 k2 k3 k4).bucketAt 0).stored = [k0, k4]
        ∧ ((scenFive k0 k1 k2 k3 k4).bucketAt 2).stored = [k2]
        ∧ (scenFive k0 k1 k2 k3 k4).slot 1 = (scenFive k0 k1 k2 k3 k4).slot 3
        ∧ ((scenFive k0 k1 k2 k3 k4).bucketAt 1).local_depth = 1
        ∧ ((scenFive k0 k1 k2 k3 k4).bucketAt 1).stored = [k1, k3])
      ∧ (EH_set.empty 2).insertRange hash 2 2 [k0, k1, k2, k3, k4]
          = some (scenFive k0 k1 k2 k3 k4)
      ∧ (scenFive k0 k1 k2 k3 k4).size = 5
      ∧ ∀ k ∈ [k0, k1, k2, k3, k4],
          (scenFive k0 k1 k2 k3 k4).count hash k = 1
            ∧ Iterator.same ((scenFive k0 k1 k2 k3 k4).find hash k)
                (scenFive k0 k1 k2 k3 k4).end_ = false
            ∧ ((scenFive k0 k1 k2 k3 k4).find hash k).get (scenFive k0 k1 k2 k3 k4) = k := by
  have n01 : k0 ≠ k1 := fun e => by rw [e, h1] at h0; omega
  have n02 : k0 ≠ k2 := fun e => by rw [e, h2] at h0; omega
  have n03 : k0 ≠ k3 := fun e => by rw [e, h3] at h0; omega
  have n04 : k0 ≠ k4 := fun e => by rw [e, h4] at h0; omega
  have n12 : k1 ≠ k2 := fun e => by rw [e, h2] at h1; omega
  have n13 : k1 ≠ k3 := fun e => by rw [e, h3] at h1; omega
  have n14 : k1 ≠ k4 := fun e => by rw [e, h4] at h1; omega
  have n23 : k2 ≠ k3 := fun e => by rw [e, h3] at h2; omega
  have n24 : k2 ≠ k4 := fun e => by rw [e, h4] at h2; omega
  have n34 : k3 ≠ k4 := fun e => by rw [e, h4] at h3; omega
  refine ⟨⟨?_, ?_, ?_, ?_, ?_⟩, ⟨?_, ?_, ?_, ?_, ?_, ?_⟩,
    ⟨?_, ?_, ?_, ?_, ?_, ?_, ?_, ?_, ?_, ?_, ?_, ?_, ?_⟩, ?_, ?_, ?_⟩ <;>
    simp [scenTwo, scenThree, scenFour, scenFive, EH_set.insertRange, EH_set.insert,
      EH_set.count, EH_set.find, EH_set.end_, EH_set.size, Bucket.stored,
      Iterator.same, Iterator.ofKey, Iterator.nil, Iterator.get, EH_set.bucketAt,
      EH_set.empty, EH_set.add, EH_set.split, EH_set.splitBucket, EH_set.double_dir,
      redistribute, repoint, EH_set.deref, EH_set.slot, EH_set.store, Bucket.insert,
      Bucket.fresh, Bucket.find, Bucket.findLoop, h0, h1, h2, h3, h4, List.range,
      List.range.loop, n01, n01.symm, n02, n02.symm, n03, n03.symm, n04, n04.symm,
      n12, n12.symm, n13, n13.symm, n14, n14.symm, n23, n23.symm, n24, n24.symm,
      n34, n34.symm, (by decide : (1 : Nat) &&& 3 = 1), (by decide : (2 : Nat) &&& 3 = 2),
      (by decide : (3 : Nat) &&& 3 = 3), (by decide : (4 : Nat) &&& 3 = 0),
      (by decide : (1 : Nat) &&& 1 = 1), (by decide : (2 : Nat) &&& 1 = 0),
      (by decide : (3 : Nat) &&& 1 = 1), (by decide : (4 : Nat) &&& 1 = 0)]
  rfl

theorem C17_witness :
    exHash 0 = 0 ∧ exHash 1 = 1 ∧ exHash 2 = 2 ∧ exHash 3 = 3 ∧ exHash 4 = 4
      ∧ (EH_set.empty 2).insertRange exHash 2 2 [0, 1, 2, 3, 4] = some (scenFive 0 1 2 3 4)
      ∧ (scenFive (0 : Nat) 1 2 3 4).size = 5
      ∧ ∀ k ∈ [0, 1, 2, 3, 4],
          (scenFive 0 1 2 3 4).count exHash k = 1
            ∧ Iterator.same ((scenFive 0 1 2 3 4).find exHash k)
                (scenFive 0 1 2 3 4).end_ = false
            ∧ ((scenFive 0 1 2 3 4).find exHash k).get (scenFive 0 1 2 3 4) = k :=
  ⟨rfl, rfl, rfl, rfl, rfl, (C17_scenario exHash 0 1 2 3 4 rfl rfl rfl rfl rfl).2.2.2⟩

/-! ## Growth under keys that share their low hash bits -/

theorem Reachable.insertRange_returns {hash : Key → Nat} {N : Nat} (hN : 1 ≤ N) (w : Nat) :
    ∀ (ks : List Key) (s : EH_set Key), Reachable hash N s →
      (ks.map hash).Nodup → (∀ k ∈ ks, ∀ x ∈ s.elems, hash x ≠ hash k) →
      (∀ k ∈ ks, hash k < 2 ^ w) → (∀ x ∈ s.elems, hash x < 2 ^ w) →
      ∃ s', ∀ f, max w 1 ≤ f → s.insertRange hash N f ks = some s' := by
  intro ks
  induction ks with
  | nil => intro s _ _ _ _ _; exact ⟨s, fun f _ => rfl⟩
  | cons k ks ih =>
    intro s hR hnd hne hbk hbs
    have hi := hR.wf.1
    have hk : k ∉ s.elems := fun hm => hne k (List.mem_cons_self _ _) k hm rfl
    have hind : hash k % 2 ^ s.global_depth < 2 ^ s.global_depth := Nat.mod_lt _ (by positivity)
    have hkw := hbk k (List.mem_cons_self _ _)
    have hsep : (s.bucketAt (hash k % 2 ^ s.global_depth)).count < N
        ∨ ∃ x ∈ (s.bucketAt (hash k % 2 ^ s.global_depth)).stored,
            hash x % 2 ^ w ≠ hash k % 2 ^ w := by
      by_cases hc : (s.bucketAt (hash k % 2 ^ s.global_depth)).count < N
      · exact Or.inl hc
      · right
        have hlen : 0 < (s.bucketAt (hash k % 2 ^ s.global_depth)).stored.length := by
          rw [hi.bucket_stored_length hind]; omega
        obtain ⟨x, hx⟩ := List.exists_mem_of_length_pos hlen
        have hxe := hi.mem_elems_of_mem hind hx
        refine ⟨x, hx, ?_⟩
        rw [Nat.mod_eq_of_lt (hbs x hxe), Nat.mod_eq_of_lt hkw]
        exact hne k (List.mem_cons_self _ _) x hxe
    obtain ⟨s1, h1, _⟩ := Inv.add_terminates k w _ s hi (le_refl _) hsep
    have hpos := hi.ld_pos _ hind
    have hins : ∀ f, max w 1 ≤ f → s.insert hash N f k
        = some ({ s1 with curr_size := s1.curr_size + 1 },
            Iterator.ofKey hash { s1 with curr_size := s1.curr_size + 1 } k, true) := by
      intro f hf
      have hw : w ≤ f := le_trans (le_max_left _ _) hf
      have h1f : 1 ≤ f := le_trans (le_max_right _ _) hf
      rw [hi.insert_absent hk, EH_set.add_fuel_mono hash N k (by omega) h1]
      rfl
    have hR1 : Reachable hash N { s1 with curr_size := s1.curr_size + 1 } :=
      Reachable.insert hR (hins _ (le_refl _))
    obtain ⟨_, hel, _⟩ := hR.wf.insert (hins _ (le_refl _))
    rw [List.map_cons, List.nodup_cons] at hnd
    obtain ⟨s', hs'⟩ := ih _ hR1 hnd.2
      (by
        intro k' hk' x hx
        rcases (hel x).1 hx with e | hx'
        · rw [e]
          intro he
          exact hnd.1 (by rw [he]; exact List.mem_map_of_mem hash hk')
        · exact hne k' (List.mem_cons_of_mem _ hk') x hx')
      (fun k' hk' => hbk k' (List.mem_cons_of_mem _ hk'))
      (by
        intro x hx
        rcases (hel x).1 hx with e | hx'
        · rw [e]; exact hkw
        · exact hbs x hx')
    refine ⟨s', fun f hf => ?_⟩
    simp only [EH_set.insertRange, hins f hf]
    exact hs' f hf

theorem Inv.growth_bound {hash : Key → Nat} {N : Nat} {s : EH_set Key} (h : Inv hash N s)
    (hN : 1 ≤ N) (L : List Key) (hnd : L.Nodup) (hlen : N * 4 ≤ L.length)
    (hmem : ∀ k ∈ L, k ∈ s.elems) (c : Nat) (hpar : ∀ k ∈ L, hash k % 2 = c) :
    3 ≤ s.global_depth ∧ 5 ≤ s.buckets.length := by
  have hG : 2 ≤ 2 ^ s.global_depth := by
    calc 2 = 2 ^ 1 := rfl
      _ ≤ 2 ^ s.global_depth := Nat.pow_le_pow_right (by norm_num) h.gd_pos
  have hhome : ∀ k, hash k % 2 ^ s.global_depth < 2 ^ s.global_depth :=
    fun k => Nat.mod_lt _ (by positivity)
  have hhome2 : ∀ k ∈ L, hash k % 2 ^ s.global_depth % 2 = c := by
    intro k hk
    have := mod_mod_pow_le (hash k) h.gd_pos
    rw [pow_one] at this
    rw [this]
    exact hpar k hk
  have hfib : ∀ v ∈ L.toFinset.image (fun k => s.slot (hash k % 2 ^ s.global_depth)),
      (L.toFinset.filter
        (fun k => (fun k => s.slot (hash k % 2 ^ s.global_depth)) k = v)).card ≤ N := by
    intro v hv
    obtain ⟨k0, _, rfl⟩ := Finset.mem_image.1 hv
    have hsub : L.toFinset.filter
        (fun k => s.slot (hash k % 2 ^ s.global_depth) = s.slot (hash k0 % 2 ^ s.global_depth))
        ⊆ (s.bucketAt (hash k0 % 2 ^ s.global_depth)).stored.toFinset := by
      intro k hk
      rw [Finset.mem_filter, List.mem_toFinset] at hk
      rw [List.mem_toFinset]
      have hke := (h.mem_elems_iff k).1 (hmem k hk.1)
      unfold EH_set.bucketAt at hke ⊢
      rw [← hk.2]
      exact hke
    calc _ ≤ (s.bucketAt (hash k0 % 2 ^ s.global_depth)).stored.toFinset.card :=
          Finset.card_le_card hsub
      _ ≤ (s.bucketAt (hash k0 % 2 ^ s.global_depth)).stored.length := List.toFinset_card_le _
      _ = (s.bucketAt (hash k0 % 2 ^ s.global_depth)).count := h.bucket_stored_length (hhome k0)
      _ ≤ N := h.count_le _ (hhome k0)
  have hcard := Finset.card_le_mul_card_image L.toFinset N hfib
  rw [List.toFinset_card_of_nodup hnd] at hcard
  have h4 : 4 ≤ (L.toFinset.image (fun k => s.slot (hash k % 2 ^ s.global_depth))).card := by
    have : N * 4 ≤ N * (L.toFinset.image
        (fun k => s.slot (hash k % 2 ^ s.global_depth))).card := le_trans hlen hcard
    exact Nat.le_of_mul_le_mul_left this hN
  have hc2 : c < 2 := by
    have hpos : 0 < L.length := by omega
    obtain ⟨k, hk⟩ := List.exists_mem_of_length_pos hpos
    rw [← hpar k hk]
    exact Nat.mod_lt _ (by norm_num)
  constructor
  · by_contra hlt
    have hgd : s.global_depth = 1 ∨ s.global_depth = 2 := by
      have := h.gd_pos
      omega
    have hsub : L.toFinset.image (fun k => s.slot (hash k % 2 ^ s.global_depth))
        ⊆ {s.slot c, s.slot (c + 2)} := by
      intro v hv
      obtain ⟨k, hk, rfl⟩ := Finset.mem_image.1 hv
      rw [List.mem_toFinset] at hk
      have e1 := hhome2 k hk
      have e2 := hhome k
      rw [Finset.mem_insert, Finset.mem_singleton]
      have e3 : 2 ^ s.global_depth ≤ 4 := by
        rcases hgd with e | e <;> rw [e] <;> norm_num
      have : hash k % 2 ^ s.global_depth = c ∨ hash k % 2 ^ s.global_depth = c + 2 := by
        omega
      rcases this with e | e
      · left; rw [e]
      · right; rw [e]
    have := Finset.card_le_card hsub
    have h2 : ({s.slot c, s.slot (c + 2)} : Finset (Option Nat)).card ≤ 2 := Finset.card_le_two
    omega
  · obtain ⟨a0, ha0, hlt0⟩ := h.valid (1 - c) (by omega)
    have hnot : s.slot (1 - c) ∉ L.toFinset.image
        (fun k => s.slot (hash k % 2 ^ s.global_depth)) := by
      intro hin
      obtain ⟨k, hk, e⟩ := Finset.mem_image.1 hin
      rw [List.mem_toFinset] at hk
      have e1 := hhome2 k hk
      have e2 := (h.slot_eq (1 - c) _ (by omega) (hhome k)).1 e.symm
      have e3 := mod_eq_of_mod_eq_pow (h.ld_pos (1 - c) (by omega)) e2
      rw [pow_one] at e3
      omega
    have hsub : insert (s.slot (1 - c))
        (L.toFinset.image (fun k => s.slot (hash k % 2 ^ s.global_depth)))
        ⊆ (Finset.range s.buckets.length).image some := by
      intro v hv
      rw [Finset.mem_insert] at hv
      rw [Finset.mem_image]
      rcases hv with e | hv
      · exact ⟨a0, Finset.mem_range.2 hlt0, by rw [e, ha0]⟩
      · obtain ⟨k, _, rfl⟩ := Finset.mem_image.1 hv
        obtain ⟨a, ha, hlt⟩ := h.valid _ (hhome k)
        exact ⟨a, Finset.mem_range.2 hlt, ha.symm⟩
    have c1 := Finset.card_le_card hsub
    rw [Finset.card_insert_of_not_mem hnot] at c1
    have c2 : ((Finset.range s.buckets.length).image some).card ≤ s.buckets.length := by
      calc _ ≤ (Finset.range s.buckets.length).card := Finset.card_image_le
        _ = s.buckets.length := Finset.card_range _
    omega

theorem exists_hash_bound (hash : Key → Nat) (L : List Key) :
    ∃ w, ∀ k ∈ L, hash k < 2 ^ w := by
  induction L with
  | nil => exact ⟨0, fun k hk => absurd hk (List.not_mem_nil k)⟩
  | cons a L ih =>
    obtain ⟨w, hw⟩ := ih
    refine ⟨max w (hash a), fun k hk => ?_⟩
    rcases List.mem_cons.1 hk with e | hk'
    · rw [e]
      exact lt_of_lt_of_le (Nat.lt_two_pow _)
        (Nat.pow_le_pow_right (by norm_num) (le_max_right _ _))
    · exact lt_of_lt_of_le (hw k hk')
        (Nat.pow_le_pow_right (by norm_num) (le_max_left _ _))


/-- C18: growth correctness.  For every capacity `N ≥ 1` and every list of `N * 4`
keys with pairwise distinct hashes that all share their low `d` hash bits for
some `d ≥ 1` (no upper bound on `d` is needed), the range insertion into
`EH_set()` returns for every large enough fuel, and in the resulting set
`global_depth ≥ 3` (the directory, which starts with depth 1 and gains one per
doubling, has been doubled at least twice), the heap holds at least five buckets
(it starts with two and gains one per split, so at least three splits were
made), every bucket of the heap has `local_depth ≤ global_depth`, `size()` is
`N * 4`, and `find` succeeds for every one of the keys. -/
theorem C18_growth_correctness {hash : Key → Nat} {N : Nat} (hN : 1 ≤ N) (L : List Key)
    (hlen : L.length = N * 4) (hdist : (L.map hash).Nodup) (d : Nat) (hd : 1 ≤ d)
    (hlow : ∀ k ∈ L, ∀ k' ∈ L, hash k % 2 ^ d = hash k' % 2 ^ d) :
    ∃ fuel s, (∀ f, fuel ≤ f → (EH_set.empty N).insertRange hash N f L = some s)
      ∧ 3 ≤ s.global_depth ∧ 5 ≤ s.buckets.length
      ∧ (∀ a, a < s.buckets.length → (s.deref (some a)).local_depth ≤ s.global_depth)
      ∧ s.size = N * 4
      ∧ ∀ k ∈ L, s.count hash k = 1
          ∧ Iterator.same (s.find hash k) s.end_ = false
          ∧ (s.find hash k).get s = k := by
  obtain ⟨w, hw⟩ := exists_hash_bound hash L
  have hemp : ∀ x, x ∉ (EH_set.empty N : EH_set Key).elems := by
    intro x hx
    rw [EH_set.empty_elems] at hx
    exact List.not_mem_nil x hx
  obtain ⟨s, hs⟩ := Reachable.insertRange_returns hN w L (EH_set.empty N) Reachable.empty
    hdist (fun k _ x hx => absurd hx (hemp x)) hw (fun x hx => absurd hx (hemp x))
  obtain ⟨hR, hel⟩ := Reachable.insertRange (max w 1) L _ s Reachable.empty (hs _ (le_refl _))
  have hmem : ∀ x, x ∈ s.elems ↔ x ∈ L := by
    intro x
    rw [hel x]
    exact ⟨fun h => h.resolve_right (hemp x), Or.inl⟩
  have hnd : L.Nodup := List.Nodup.of_map hash hdist
  have hpos : 0 < L.length := by omega
  obtain ⟨k0, hk0⟩ := List.exists_mem_of_length_pos hpos
  have hpar : ∀ k ∈ L, hash k % 2 = hash k0 % 2 := by
    intro k hk
    have := mod_eq_of_mod_eq_pow hd (hlow k hk k0 hk0)
    rw [pow_one] at this
    exact this
  obtain ⟨g1, g2⟩ := hR.wf.1.growth_bound hN L hnd (le_of_eq hlen.symm)
    (fun k hk => (hmem k).2 hk) _ hpar
  refine ⟨max w 1, s, hs, g1, g2, ?_, ?_, ?_⟩
  · intro a ha
    obtain ⟨i, hi, hsl⟩ := hR.allReferenced a ha
    rw [← hsl]
    exact hR.wf.1.ld_le i hi
  · rw [hR.wf.size_eq_card L.toFinset (fun x => by rw [hmem x, List.mem_toFinset]),
      List.toFinset_card_of_nodup hnd, hlen]
  · intro k hk
    have hke : k ∈ s.elems := (hmem k).2 hk
    obtain ⟨p1, p2, p3⟩ := hR.wf.1.ofKey_get hke
    refine ⟨(hR.wf.1.count_eq_one_iff k).2 hke, ?_, by rw [p3]; exact p2⟩
    rw [p3]
    simpa [Iterator.same, EH_set.end_, Iterator.nil] using p1

theorem C18_witness :
    1 ≤ 1 ∧ [0, 2, 4, 6].length = 1 * 4 ∧ ([0, 2, 4, 6].map exHash).Nodup ∧ 1 ≤ 1
      ∧ (∀ k ∈ [0, 2, 4, 6], ∀ k' ∈ [0, 2, 4, 6], exHash k % 2 ^ 1 = exHash k' % 2 ^ 1)
      ∧ ∃ fuel s, (∀ f, fuel ≤ f → (EH_set.empty 1).insertRange exHash 1 f [0, 2, 4, 6] = some s)
          ∧ 3 ≤ s.global_depth ∧ 5 ≤ s.buckets.length
          ∧ (∀ a, a < s.buckets.length → (s.deref (some a)).local_depth ≤ s.global_depth)
          ∧ s.size = 1 * 4
          ∧ ∀ k ∈ [0, 2, 4, 6], s.count exHash k = 1
              ∧ Iterator.same (s.find exHash k) s.end_ = false
              ∧ (s.find exHash k).get s = k :=
  ⟨by decide, rfl, by decide, by decide, by decide,
    C18_growth_correctness (by decide) [0, 2, 4, 6] rfl (by decide) 1 (by decide) (by decide)⟩

end Proofs

end EH
